import Mathlib

/-!
# MemoryManagementSim: a shallow embedding of the simulator core

The definitions below follow the C++ sources under `src/actualmemmansim`:

* `allocator_firstfit.cpp` : `align_up`, `HeapAllocator`
* `physicalmem.cpp`        : `Frame`, `PhysicalMemory`
* `TLB.cpp`                : `TLBImpl`, `TLB`
* `process.cpp`            : `Process`
* `metrics.cpp`            : `Metrics`
* `MMU.cpp`                : `MMU`
* `scheduler.cpp`          : `Scheduler`
* `eventqueue.cpp`         : `EventCompare`, `EventQueue`
* `workload.cpp`           : `event_priority_for_name`
* `main.cpp`               : `parse_u64` and the event loop with its six handlers

Conventions.

* `uint64_t` and `uint32_t` values are natural numbers; every arithmetic
  operation of the source that can wrap carries an explicit `% 2^64`.
* `int` values (frame ids) are integers; `static_cast<int>` of a `size_t`
  index is `toInt32`, which wraps as two's complement does.
* `std::unordered_map<K, V>` is a function `K → Option V` (iteration order is
  never observed by the code modelled here); `std::map<uint64_t, Block>` is
  the list of its blocks in ascending key order (every insertion in the source
  uses the block's own `start` as key); `std::deque` and `std::vector` are lists.
* A C++ exception is a `SimError`.  A member function that can throw returns
  the pair of its outcome and of the object state it leaves behind, so that a
  mutation done before the `throw` stays visible, as it does in C++.
* Where the source has undefined behaviour (division by a zero page size,
  `pop_front` on an empty deque when the cache capacity is zero, indexing the
  frame vector with a negative id, reading `ev.args[i]` of an event with fewer
  arguments) the model picks Lean's total counterpart (`n / 0 = 0`,
  `List.tail [] = []`, no change, the empty string).  A theorem stated for all
  parameter values covers these points through that choice only; the theorem
  for C24 leaves the second of them out by hypothesis.
* The library functions `std::stoull` and `std::to_string` are modelled by their
  contract; the text of a trace file enters the model as the list of its
  well-formed lines already split into fields.
-/

namespace Sim

/-! ## Errors -/

/-- The exceptions thrown by the modelled code, one constructor per `throw` site. -/
inductive SimError where
  /-- `MMU::register_process`: "MMU: process already registered". -/
  | mmuAlreadyRegistered
  /-- `MMU::process`: "MMU: access from unknown process". -/
  | mmuUnknownProcess
  /-- `PhysicalMemory::allocate`: "PhysicalMemory: no frame available for eviction". -/
  | noFrame
  /-- `PhysicalMemory::touch`, `free`, `frame`: `std::out_of_range`. -/
  | frameOutOfRange
  /-- `HeapAllocator::free`: "HeapAllocator::free invalid address". -/
  | heapInvalidFree
  /-- `Scheduler::add_process`: "Scheduler: process already exists". -/
  | schedAlreadyExists
  /-- `Scheduler::block_current`: "Scheduler: no running process to block". -/
  | schedNoRunning
  /-- `Scheduler::wake_process`: "Scheduler: wake unknown process". -/
  | schedWakeUnknown
  /-- `EventQueue::pop`: "EventQueue::pop on empty queue". -/
  | queuePopEmpty
  /-- `EventQueue::top`: "EventQueue::top on empty queue". -/
  | queueTopEmpty
  /-- `std::stoull`: `std::invalid_argument`, no conversion could be performed. -/
  | invalidArgument
  /-- `std::stoull`: `std::out_of_range`, the value does not fit `unsigned long long`. -/
  | outOfRange
deriving DecidableEq, Repr

deriving instance DecidableEq for Except

/-- The largest `uint64_t`. -/
def UINT64_MAX : Nat := 2 ^ 64 - 1

/-- Conversion `static_cast<int>(i)` of a `size_t` to a 32-bit `int`. -/
def toInt32 (i : Nat) : Int :=
  if i % 2 ^ 32 < 2 ^ 31 then ((i % 2 ^ 32 : Nat) : Int) else ((i % 2 ^ 32 : Nat) : Int) - 2 ^ 32

/-! ## HeapAllocator (`allocator_firstfit.cpp`) -/

/-- A heap block, `HeapAllocator::Block`. -/
structure Block where
  start : Nat
  size : Nat
deriving DecidableEq, Repr

/-- The constant `HeapAllocator::ALIGNMENT`. -/
def ALIGNMENT : Nat := 8

/-- The function `HeapAllocator::align_up`: `(n + ALIGNMENT - 1) & ~(ALIGNMENT - 1)` on `uint64_t`. -/
def align_up (n : Nat) : Nat :=
  ((n + ALIGNMENT - 1) % 2 ^ 64) &&& (2 ^ 64 - 1 - (ALIGNMENT - 1))

/-- Assignment `m[b.start] = b` on a `std::map` kept as an ascending list. -/
def mapInsert : List Block → Block → List Block
  | [], b => [b]
  | c :: cs, b =>
    if b.start < c.start then b :: c :: cs
    else if b.start = c.start then b :: cs
    else c :: mapInsert cs b

/-- Removal of the entry with the given key (`erase(it)` with `it` at that key). -/
def mapErase (m : List Block) (key : Nat) : List Block :=
  m.filter (fun c => c.start != key)

/-- Lookup `m.find(key)`. -/
def mapFind (m : List Block) (key : Nat) : Option Block :=
  m.find? (fun c => c.start == key)

/-- The entry before the one at `key` in key order: `std::prev(it)`, or `none` when `it` is `begin()`. -/
def mapPrev (m : List Block) (key : Nat) : Option Block :=
  (m.filter (fun c => decide (c.start < key))).getLast?

/-- The entry after the one at `key` in key order: `std::next(it)`, or `none` when that is `end()`. -/
def mapNext (m : List Block) (key : Nat) : Option Block :=
  m.find? (fun c => decide (key < c.start))

/-- The class `HeapAllocator`. -/
structure HeapAllocator where
  heap_base_ : Nat
  heap_size_ : Nat
  free_blocks_ : List Block
  allocated_blocks_ : List Block
  allocated_bytes_ : Nat
  internal_frag_bytes_ : Nat
deriving DecidableEq, Repr

/-- The constructor `HeapAllocator(heap_base, heap_size)`. -/
def HeapAllocator.mk0 (heap_base heap_size : Nat) : HeapAllocator :=
  { heap_base_ := heap_base
    heap_size_ := heap_size
    free_blocks_ := mapInsert [] { start := heap_base, size := heap_size }
    allocated_blocks_ := []
    allocated_bytes_ := 0
    internal_frag_bytes_ := 0 }

/-- The function `HeapAllocator::alloc`: the returned address (or `nullopt`) and the new state. -/
def HeapAllocator.alloc (h : HeapAllocator) (size : Nat) : Option Nat × HeapAllocator :=
  if size = 0 then (none, h)
  else
    let aligned := align_up size
    let frag := (aligned + 2 ^ 64 - size) % 2 ^ 64
    match h.free_blocks_.find? (fun b => decide (b.size ≥ aligned)) with
    | none => (none, h)
    | some free =>
      let addr := free.start
      let fb1 := mapErase h.free_blocks_ free.start
      let fb2 :=
        if free.size > aligned then
          mapInsert fb1 { start := (free.start + aligned) % 2 ^ 64, size := free.size - aligned }
        else fb1
      (some addr,
        { h with
          free_blocks_ := fb2
          allocated_blocks_ := mapInsert h.allocated_blocks_ { start := addr, size := aligned }
          allocated_bytes_ := (h.allocated_bytes_ + aligned) % 2 ^ 64
          internal_frag_bytes_ := (h.internal_frag_bytes_ + frag) % 2 ^ 64 })

/-- The coalescing step of `HeapAllocator::free` with the previous block; returns the
new free map and the key at which `curr` then stands. -/
def coalescePrev (fb : List Block) (curr : Block) : List Block × Block :=
  match mapPrev fb curr.start with
  | none => (fb, curr)
  | some prev =>
    if (prev.start + prev.size) % 2 ^ 64 = curr.start then
      let merged : Block := { prev with size := (prev.size + curr.size) % 2 ^ 64 }
      (mapErase (mapInsert fb merged) curr.start, merged)
    else (fb, curr)

/-- The coalescing step of `HeapAllocator::free` with the next block. -/
def coalesceNext (fb : List Block) (curr : Block) : List Block :=
  match mapNext fb curr.start with
  | none => fb
  | some next =>
    if (curr.start + curr.size) % 2 ^ 64 = next.start then
      mapErase (mapInsert fb { curr with size := (curr.size + next.size) % 2 ^ 64 }) next.start
    else fb

/-- The function `HeapAllocator::free`. -/
def HeapAllocator.free (h : HeapAllocator) (addr : Nat) : Except SimError Unit × HeapAllocator :=
  match mapFind h.allocated_blocks_ addr with
  | none => (.error .heapInvalidFree, h)
  | some blk =>
    let ab := (h.allocated_bytes_ + 2 ^ 64 - blk.size) % 2 ^ 64
    let ifb :=
      (h.internal_frag_bytes_ + 2 ^ 64 - (blk.size + 2 ^ 64 - align_up blk.size) % 2 ^ 64) % 2 ^ 64
    let al := mapErase h.allocated_blocks_ addr
    let fb1 := mapInsert h.free_blocks_ blk
    let (fb2, curr) := coalescePrev fb1 blk
    let fb3 := coalesceNext fb2 curr
    (.ok (),
      { h with
        free_blocks_ := fb3
        allocated_blocks_ := al
        allocated_bytes_ := ab
        internal_frag_bytes_ := ifb })

/-! ## PhysicalMemory (`physicalmem.cpp`) -/

/-- Frame metadata, `struct Frame`, with the defaults of the source. -/
structure Frame where
  occupied : Bool := false
  pid : Nat := 0
  vpn : Nat := 0
  last_used : Nat := 0
deriving DecidableEq, Repr

/-- The result of a frame allocation request, `struct FrameAllocResult`. -/
structure FrameAllocResult where
  frame_id : Int
  evicted : Bool
  evicted_pid : Nat
  evicted_vpn : Nat
deriving DecidableEq, Repr

/-- The class `PhysicalMemory`: the vector `frames_`. -/
structure PhysicalMemory where
  frames_ : List Frame
deriving DecidableEq, Repr

/-- The constructor `PhysicalMemory(num_frames)`: `num_frames` default frames. -/
def PhysicalMemory.mk0 (num_frames : Nat) : PhysicalMemory :=
  { frames_ := List.replicate num_frames {} }

/-- The function `PhysicalMemory::num_frames`. -/
def PhysicalMemory.num_frames (pm : PhysicalMemory) : Nat := pm.frames_.length

/-- The loop of `find_free_frame`, started at index `i` on the frames from `i` on. -/
def findFreeFrom : List Frame → Nat → Int
  | [], _ => -1
  | f :: fs, i => if !f.occupied then toInt32 i else findFreeFrom fs (i + 1)

/-- The function `PhysicalMemory::find_free_frame`. -/
def PhysicalMemory.find_free_frame (pm : PhysicalMemory) : Int :=
  findFreeFrom pm.frames_ 0

/-- The loop of `find_lru_frame`, started at index `i` with the running `lru` and `oldest`. -/
def findLruFrom : List Frame → Nat → Int → Nat → Int
  | [], _, lru, _ => lru
  | f :: fs, i, lru, oldest =>
    if f.occupied && decide (f.last_used < oldest) then findLruFrom fs (i + 1) (toInt32 i) f.last_used
    else findLruFrom fs (i + 1) lru oldest

/-- The function `PhysicalMemory::find_lru_frame`. -/
def PhysicalMemory.find_lru_frame (pm : PhysicalMemory) : Int :=
  findLruFrom pm.frames_ 0 (-1) UINT64_MAX

/-- Conversion of an `int` to the `size_t` index of `frames_[frame_id]`. -/
def toSize (i : Int) : Nat := (i % 2 ^ 64).toNat

/-- The frame `frames_[frame_id]` (the default frame stands for an access out of range). -/
def PhysicalMemory.frameAt (pm : PhysicalMemory) (frame_id : Int) : Frame :=
  pm.frames_.getD (toSize frame_id) {}

/-- The function `PhysicalMemory::allocate`.  Both of its failures happen before any write. -/
def PhysicalMemory.allocate (pm : PhysicalMemory) (pid vpn now : Nat) :
    Except SimError (FrameAllocResult × PhysicalMemory) :=
  let free_id := pm.find_free_frame
  let assign (frame_id : Int) (evicted : Bool) (old_pid old_vpn : Nat) :
      Except SimError (FrameAllocResult × PhysicalMemory) :=
    .ok ({ frame_id := frame_id, evicted := evicted, evicted_pid := old_pid, evicted_vpn := old_vpn },
         { frames_ := pm.frames_.set (toSize frame_id)
             { occupied := true, pid := pid, vpn := vpn, last_used := now } })
  if free_id = -1 then
    let lru_id := pm.find_lru_frame
    if lru_id = -1 then .error .noFrame
    else assign lru_id true (pm.frameAt lru_id).pid (pm.frameAt lru_id).vpn
  else assign free_id false 0 0

/-- The function `PhysicalMemory::touch`. -/
def PhysicalMemory.touch (pm : PhysicalMemory) (frame_id : Int) (now : Nat) :
    Except SimError PhysicalMemory :=
  if frame_id < 0 ∨ (pm.frames_.length : Int) ≤ frame_id then .error .frameOutOfRange
  else .ok { frames_ := pm.frames_.set (toSize frame_id) { pm.frameAt frame_id with last_used := now } }

/-- The function `PhysicalMemory::free`. -/
def PhysicalMemory.free (pm : PhysicalMemory) (frame_id : Int) : Except SimError PhysicalMemory :=
  if frame_id < 0 ∨ (pm.frames_.length : Int) ≤ frame_id then .error .frameOutOfRange
  else .ok { frames_ := pm.frames_.set (toSize frame_id) {} }

/-- The function `PhysicalMemory::frame`. -/
def PhysicalMemory.frame (pm : PhysicalMemory) (frame_id : Int) : Except SimError Frame :=
  if frame_id < 0 ∨ (pm.frames_.length : Int) ≤ frame_id then .error .frameOutOfRange
  else .ok (pm.frameAt frame_id)

/-! ## TLB (`TLB.cpp`) -/

/-- A cached translation, `struct TLBEntry`. -/
structure TLBEntry where
  pid : Nat
  vpn : Nat
  frame_id : Int
  referenced : Bool := false
deriving DecidableEq, Repr

/-- The class `TLBImpl`: a FIFO whose front is the oldest entry. -/
structure TLBImpl where
  capacity : Nat
  entries : List TLBEntry
  hits : Nat
  misses : Nat
deriving DecidableEq, Repr

/-- The function `TLBImpl::lookup`: the frame id of the first entry tagged `(pid, vpn)`. -/
def TLBImpl.lookup (t : TLBImpl) (pid vpn : Nat) : Option Int × TLBImpl :=
  match t.entries.find? (fun e => decide (e.pid = pid) && decide (e.vpn = vpn)) with
  | some e => (some e.frame_id, { t with hits := (t.hits + 1) % 2 ^ 64 })
  | none => (none, { t with misses := (t.misses + 1) % 2 ^ 64 })

/-- The first loop of `TLBImpl::insert`: overwrite the frame id of the first entry tagged
`(pid, vpn)`; `none` when there is no such entry. -/
def tlbUpdate : List TLBEntry → Nat → Nat → Int → Option (List TLBEntry)
  | [], _, _, _ => none
  | e :: es, pid, vpn, frame_id =>
    if e.pid = pid ∧ e.vpn = vpn then some ({ e with frame_id := frame_id } :: es)
    else (tlbUpdate es pid vpn frame_id).map (fun r => e :: r)

/-- The function `TLBImpl::insert`. -/
def TLBImpl.insert (t : TLBImpl) (pid vpn : Nat) (frame_id : Int) : TLBImpl :=
  match tlbUpdate t.entries pid vpn frame_id with
  | some es => { t with entries := es }
  | none =>
    let es := if t.entries.length ≥ t.capacity then t.entries.tail else t.entries
    { t with entries := es ++ [{ pid := pid, vpn := vpn, frame_id := frame_id, referenced := false }] }

/-- The function `TLBImpl::flush_process`. -/
def TLBImpl.flush_process (t : TLBImpl) (pid : Nat) : TLBImpl :=
  { t with entries := t.entries.filter (fun e => !decide (e.pid = pid)) }

/-- The function `TLBImpl::invalidate`. -/
def TLBImpl.invalidate (t : TLBImpl) (pid vpn : Nat) : TLBImpl :=
  { t with entries := t.entries.filter (fun e => !(decide (e.pid = pid) && decide (e.vpn = vpn))) }

/-- The function `TLBImpl::flush_all`. -/
def TLBImpl.flush_all (t : TLBImpl) : TLBImpl :=
  { t with entries := [] }

/-- The public wrapper class `TLB`. -/
structure TLB where
  capacity_ : Nat
  hits_ : Nat
  misses_ : Nat
  impl_ : TLBImpl
deriving DecidableEq, Repr

/-- The constructor `TLB(capacity)`. -/
def TLB.mk0 (capacity : Nat) : TLB :=
  { capacity_ := capacity, hits_ := 0, misses_ := 0,
    impl_ := { capacity := capacity, entries := [], hits := 0, misses := 0 } }

/-- The function `TLB::lookup`. -/
def TLB.lookup (t : TLB) (pid vpn : Nat) : Option Int × TLB :=
  let r := t.impl_.lookup pid vpn
  (r.1, { t with impl_ := r.2, hits_ := r.2.hits, misses_ := r.2.misses })

/-- The function `TLB::insert`. -/
def TLB.insert (t : TLB) (pid vpn : Nat) (frame_id : Int) : TLB :=
  { t with impl_ := t.impl_.insert pid vpn frame_id }

/-- The function `TLB::flush_process`. -/
def TLB.flush_process (t : TLB) (pid : Nat) : TLB :=
  { t with impl_ := t.impl_.flush_process pid }

/-- The function `TLB::invalidate`. -/
def TLB.invalidate (t : TLB) (pid vpn : Nat) : TLB :=
  { t with impl_ := t.impl_.invalidate pid vpn }

/-- The function `TLB::flush_all`. -/
def TLB.flush_all (t : TLB) : TLB :=
  { t with impl_ := t.impl_.flush_all }

/-- The cache holds an entry tagged `(pid, vpn)`. -/
def TLB.holds (t : TLB) (pid vpn : Nat) : Prop :=
  ∃ e ∈ t.impl_.entries, e.pid = pid ∧ e.vpn = vpn

instance (t : TLB) (pid vpn : Nat) : Decidable (t.holds pid vpn) := by
  unfold TLB.holds; infer_instance

/-! ## Process (`process.cpp`) -/

/-- A page-table entry, `struct PageTableEntry`, with the defaults of the source. -/
structure PageTableEntry where
  valid : Bool := false
  frame_id : Int := -1
deriving DecidableEq, Repr

/-- The enumeration `ProcessState`. -/
inductive ProcessState where
  | NEW | READY | RUNNING | BLOCKED | TERMINATED
deriving DecidableEq, Repr

/-- The class `Process`. -/
structure Process where
  pid_ : Nat
  state_ : ProcessState
  page_table_ : Nat → Option PageTableEntry
  blocked_vpn_ : Option Nat
  heap_ : HeapAllocator

/-- The constructor `Process(pid, heap_base, heap_size)`. -/
def Process.mk0 (pid heap_base heap_size : Nat) : Process :=
  { pid_ := pid
    state_ := .NEW
    page_table_ := fun _ => none
    blocked_vpn_ := none
    heap_ := HeapAllocator.mk0 heap_base heap_size }

/-- The function `Process::has_mapping`. -/
def Process.has_mapping (p : Process) (vpn : Nat) : Bool :=
  match p.page_table_ vpn with
  | some e => e.valid
  | none => false

/-- The function `Process::get_pte`. -/
def Process.get_pte (p : Process) (vpn : Nat) : PageTableEntry :=
  match p.page_table_ vpn with
  | some e => e
  | none => {}

/-- The function `Process::map_page`. -/
def Process.map_page (p : Process) (vpn : Nat) (frame_id : Int) : Process :=
  { p with page_table_ := fun v =>
      if v = vpn then some { valid := true, frame_id := frame_id } else p.page_table_ v }

/-- The function `Process::unmap_page`. -/
def Process.unmap_page (p : Process) (vpn : Nat) : Process :=
  match p.page_table_ vpn with
  | some _ =>
    { p with page_table_ := fun v =>
        if v = vpn then some { valid := false, frame_id := -1 } else p.page_table_ v }
  | none => p

/-- The function `Process::clear_page_table`. -/
def Process.clear_page_table (p : Process) : Process :=
  { p with page_table_ := fun _ => none }

/-- The function `Process::block_on_page`. -/
def Process.block_on_page (p : Process) (vpn : Nat) : Process :=
  { p with blocked_vpn_ := some vpn, state_ := .BLOCKED }

/-- The function `Process::clear_block`. -/
def Process.clear_block (p : Process) : Process :=
  { p with blocked_vpn_ := none }

/-- The function `Process::heap_alloc`. -/
def Process.heap_alloc (p : Process) (size : Nat) : Option Nat × Process :=
  let r := p.heap_.alloc size
  (r.1, { p with heap_ := r.2 })

/-- The function `Process::heap_free`. -/
def Process.heap_free (p : Process) (addr : Nat) : Except SimError Unit × Process :=
  let r := p.heap_.free addr
  (r.1, { p with heap_ := r.2 })

/-! ## Metrics (`metrics.cpp`) -/

/-- The class `Metrics`. -/
structure Metrics where
  total_heap_ : Nat
  allocated_bytes_ : Nat
  free_bytes_ : Nat
  largest_free_block_ : Nat
  internal_frag_bytes_ : Nat
  tlb_hits_ : Nat
  tlb_misses_ : Nat
  latencies_ : List Nat
deriving DecidableEq, Repr

/-- The constructor `Metrics()`, which calls `reset`. -/
def Metrics.mk0 : Metrics :=
  { total_heap_ := 0, allocated_bytes_ := 0, free_bytes_ := 0, largest_free_block_ := 0,
    internal_frag_bytes_ := 0, tlb_hits_ := 0, tlb_misses_ := 0, latencies_ := [] }

/-- The function `Metrics::record_tlb_hit`. -/
def Metrics.record_tlb_hit (m : Metrics) : Metrics :=
  { m with tlb_hits_ := (m.tlb_hits_ + 1) % 2 ^ 64 }

/-- The function `Metrics::record_tlb_miss`. -/
def Metrics.record_tlb_miss (m : Metrics) : Metrics :=
  { m with tlb_misses_ := (m.tlb_misses_ + 1) % 2 ^ 64 }

/-- The function `Metrics::record_access_latency`. -/
def Metrics.record_access_latency (m : Metrics) (cycles : Nat) : Metrics :=
  { m with latencies_ := m.latencies_ ++ [cycles] }

/-! ## MMU (`MMU.cpp`) -/

/-- The enumeration `MMUAccessResult`. -/
inductive MMUAccessResult where
  | HIT | PAGE_FAULT
deriving DecidableEq, Repr

/-- The class `MMU`, together with the `PhysicalMemory` and the `Metrics` it refers to. -/
structure MMU where
  pmem_ : PhysicalMemory
  page_size_ : Nat
  tlb_ : TLB
  metrics_ : Metrics
  processes_ : Nat → Option Process

/-- The constructor `MMU(pmem, page_size, tlb_size, metrics)` on a fresh frame table of
`num_frames` frames and fresh metrics. -/
def MMU.mk0 (num_frames page_size tlb_size : Nat) : MMU :=
  { pmem_ := PhysicalMemory.mk0 num_frames
    page_size_ := page_size
    tlb_ := TLB.mk0 tlb_size
    metrics_ := Metrics.mk0
    processes_ := fun _ => none }

/-- In-place change of the process object stored under `pid` (a use of a `Process&`). -/
def modifyProcess (procs : Nat → Option Process) (pid : Nat) (f : Process → Process) :
    Nat → Option Process :=
  fun q => if q = pid then (procs q).map f else procs q

/-- The function `MMU::register_process`. -/
def MMU.register_process (m : MMU) (pid heap_base heap_size : Nat) : Except SimError Unit × MMU :=
  match m.processes_ pid with
  | some _ => (.error .mmuAlreadyRegistered, m)
  | none =>
    (.ok (), { m with processes_ := fun q =>
        if q = pid then some (Process.mk0 pid heap_base heap_size) else m.processes_ q })

/-- The function `MMU::unregister_process`. -/
def MMU.unregister_process (m : MMU) (pid : Nat) : MMU :=
  match m.processes_ pid with
  | none => m
  | some _ =>
    let cleared := modifyProcess m.processes_ pid Process.clear_page_table
    { m with
      tlb_ := m.tlb_.flush_process pid
      processes_ := fun q => if q = pid then none else cleared q }

/-- The function `MMU::process`. -/
def MMU.process (m : MMU) (pid : Nat) : Except SimError Process :=
  match m.processes_ pid with
  | none => .error .mmuUnknownProcess
  | some p => .ok p

/-- The function `MMU::vpn_from_vaddr`. -/
def MMU.vpn_from_vaddr (m : MMU) (vaddr : Nat) : Nat := vaddr / m.page_size_

/-- The function `MMU::access`. -/
def MMU.access (m : MMU) (pid vaddr : Nat) : Except SimError MMUAccessResult × MMU :=
  match m.process pid with
  | .error e => (.error e, m)
  | .ok proc =>
    let vpn := m.vpn_from_vaddr vaddr
    let r := m.tlb_.lookup pid vpn
    match r.1 with
    | some _ =>
      (.ok .HIT,
        { m with tlb_ := r.2, metrics_ := (m.metrics_.record_tlb_hit).record_access_latency 1 })
    | none =>
      let metrics1 := m.metrics_.record_tlb_miss
      if proc.has_mapping vpn then
        let pte := proc.get_pte vpn
        (.ok .HIT,
          { m with tlb_ := r.2.insert pid vpn pte.frame_id
                   metrics_ := metrics1.record_access_latency 5 })
      else
        (.ok .PAGE_FAULT, { m with tlb_ := r.2, metrics_ := metrics1.record_access_latency 100 })

/-- The function `MMU::complete_pagein`.  The frame table is written by `allocate` before
the lookup of the evicted owner, so a failure of that lookup leaves the new frame content. -/
def MMU.complete_pagein (m : MMU) (pid vpn now : Nat) : Except SimError Unit × MMU :=
  match m.process pid with
  | .error e => (.error e, m)
  | .ok _ =>
    match m.pmem_.allocate pid vpn now with
    | .error e => (.error e, m)
    | .ok (res, pmem1) =>
      let m1 : MMU := { m with pmem_ := pmem1 }
      let finish (m2 : MMU) : Except SimError Unit × MMU :=
        (.ok (),
          { m2 with
            processes_ := modifyProcess m2.processes_ pid (fun p => p.map_page vpn res.frame_id)
            tlb_ := m2.tlb_.insert pid vpn res.frame_id })
      if res.evicted then
        match m1.process res.evicted_pid with
        | .error e => (.error e, m1)
        | .ok _ =>
          finish
            { m1 with
              processes_ :=
                modifyProcess m1.processes_ res.evicted_pid (fun p => p.unmap_page res.evicted_vpn)
              tlb_ := m1.tlb_.invalidate res.evicted_pid res.evicted_vpn }
      else finish m1

/-! ## Scheduler (`scheduler.cpp`) -/

/-- The class `Scheduler`. -/
structure Scheduler where
  ready_queue_ : List Nat
  states_ : Nat → Option ProcessState
  current_ : Option Nat

/-- The constructor `Scheduler()`. -/
def Scheduler.mk0 : Scheduler :=
  { ready_queue_ := [], states_ := fun _ => none, current_ := none }

/-- Assignment `states_[pid] = st`. -/
def setState (states : Nat → Option ProcessState) (pid : Nat) (st : ProcessState) :
    Nat → Option ProcessState :=
  fun q => if q = pid then some st else states q

/-- The function `Scheduler::add_process`. -/
def Scheduler.add_process (s : Scheduler) (pid : Nat) : Except SimError Unit × Scheduler :=
  match s.states_ pid with
  | some _ => (.error .schedAlreadyExists, s)
  | none =>
    (.ok (), { s with states_ := setState s.states_ pid .READY
                      ready_queue_ := s.ready_queue_ ++ [pid] })

/-- The function `Scheduler::terminate_process`. -/
def Scheduler.terminate_process (s : Scheduler) (pid : Nat) : Scheduler :=
  { states_ := setState s.states_ pid .TERMINATED
    ready_queue_ := s.ready_queue_.filter (fun q => q != pid)
    current_ := if s.current_ = some pid then none else s.current_ }

/-- The function `Scheduler::block_current`. -/
def Scheduler.block_current (s : Scheduler) : Except SimError Unit × Scheduler :=
  match s.current_ with
  | none => (.error .schedNoRunning, s)
  | some pid => (.ok (), { s with states_ := setState s.states_ pid .BLOCKED, current_ := none })

/-- The function `Scheduler::wake_process`. -/
def Scheduler.wake_process (s : Scheduler) (pid : Nat) : Except SimError Unit × Scheduler :=
  match s.states_ pid with
  | none => (.error .schedWakeUnknown, s)
  | some st =>
    if st ≠ .BLOCKED then (.ok (), s)
    else (.ok (), { s with states_ := setState s.states_ pid .READY
                           ready_queue_ := s.ready_queue_ ++ [pid] })

/-- The loop of `Scheduler::schedule_next` over the ready queue.  Reading `states_[pid]`
of an absent pid creates the entry with the first enumerator, `NEW`. -/
def scheduleLoop : List Nat → (Nat → Option ProcessState) →
    Option Nat × List Nat × (Nat → Option ProcessState)
  | [], states => (none, [], states)
  | pid :: rest, states =>
    let states1 := fun q => if q = pid then some ((states pid).getD .NEW) else states q
    if states1 pid = some .READY then (some pid, rest, setState states1 pid .RUNNING)
    else scheduleLoop rest states1

/-- The function `Scheduler::schedule_next`. -/
def Scheduler.schedule_next (s : Scheduler) : Option Nat × Scheduler :=
  match s.current_ with
  | some pid => (some pid, s)
  | none =>
    let r := scheduleLoop s.ready_queue_ s.states_
    (r.1, { ready_queue_ := r.2.1, states_ := r.2.2, current_ := r.1 })

/-- The function `Scheduler::has_runnable`. -/
def Scheduler.has_runnable (s : Scheduler) : Bool :=
  s.current_.isSome || !s.ready_queue_.isEmpty

/-! ## The event loop of `main.cpp` -/

/-- The objects the event loop of `main` works on: the clock value, the MMU (with the
frame table and the metrics) and the scheduler. -/
structure Machine where
  now_ : Nat
  mmu : MMU
  sched : Scheduler

/-- The start of `main`: `NUM_FRAMES` frames, the given page size and cache size, a fresh scheduler. -/
def Machine.mk0 (num_frames page_size tlb_size : Nat) : Machine :=
  { now_ := 0, mmu := MMU.mk0 num_frames page_size tlb_size, sched := Scheduler.mk0 }

/-- The clock update at the head of the loop body: `if (ev.key.time > clock.now()) clock.set(ev.key.time)`. -/
def Machine.advance (k : Machine) (time : Nat) : Machine :=
  if time > k.now_ then { k with now_ := time } else k

/-- The `PROC_START` branch of the event loop, with the two arguments already parsed. -/
def Machine.proc_start (k : Machine) (pid heap_base heap_top : Nat) : Except SimError Unit × Machine :=
  let heap_size := (heap_top + 2 ^ 64 - heap_base) % 2 ^ 64
  let r := k.mmu.register_process pid heap_base heap_size
  match r.1 with
  | .error e => (.error e, { k with mmu := r.2 })
  | .ok _ =>
    let q := k.sched.add_process pid
    (q.1, { k with mmu := r.2, sched := q.2 })

/-- The `PROC_EXIT` branch of the event loop. -/
def Machine.proc_exit (k : Machine) (pid : Nat) : Machine :=
  { k with mmu := k.mmu.unregister_process pid, sched := k.sched.terminate_process pid }

/-- The `PAGEIN_COMPLETE` branch of the event loop, with `vpn` already parsed:
`mmu.complete_pagein(pid, vpn, clock.now()); sched.wake_process(pid);`.  Nothing in `main`
catches an exception, so an error here ends the run. -/
def Machine.pagein_complete (k : Machine) (pid vpn : Nat) : Except SimError Unit × Machine :=
  let r := k.mmu.complete_pagein pid vpn k.now_
  match r.1 with
  | .error e => (.error e, { k with mmu := r.2 })
  | .ok _ =>
    let q := k.sched.wake_process pid
    (q.1, { k with mmu := r.2, sched := q.2 })

/-! ## EventQueue (`event.h`, `eventqueue.cpp`) -/

/-- The ordering key of an event, `struct EventKey`. -/
structure EventKey where
  time : Nat := 0
  priority : Int := 0
  pid : Nat := 0
  seq : Nat := 0
deriving DecidableEq, Repr

/-- An event record, `struct Event`. -/
structure Event where
  key : EventKey := {}
  type : String := ""
  args : List String := []
  raw_line : String := ""
deriving DecidableEq, Repr

/-- The comparator `EventCompare::operator()`: true when `a` comes after `b`. -/
def EventCompare (a b : Event) : Bool :=
  if a.key.time ≠ b.key.time then decide (a.key.time > b.key.time)
  else if a.key.priority ≠ b.key.priority then decide (a.key.priority > b.key.priority)
  else if a.key.pid ≠ b.key.pid then decide (a.key.pid > b.key.pid)
  else decide (a.key.seq > b.key.seq)

/-- The element `top()` of a non-empty `std::priority_queue` with comparator `comp` whose
elements are `e :: es`.  The standard library only promises an element that `comp` orders
before no other element; the scan below returns the earliest-pushed one of them. -/
def pqTop (comp : Event → Event → Bool) (e : Event) (es : List Event) : Event :=
  es.foldl (fun best x => if comp best x then x else best) e

/-- The class `EventQueue`: the elements of the priority queue `pq_` (in push order) and the
sequence counter. -/
structure EventQueue where
  pq_ : List Event
  seq_counter_ : Nat
deriving DecidableEq, Repr

/-- The constructor `EventQueue()`. -/
def EventQueue.mk0 : EventQueue := { pq_ := [], seq_counter_ := 1 }

/-- The function `EventQueue::push(Event ev)`. -/
def EventQueue.push (q : EventQueue) (ev : Event) : EventQueue :=
  if ev.key.seq = 0 then
    { pq_ := q.pq_ ++ [{ ev with key := { ev.key with seq := q.seq_counter_ } }]
      seq_counter_ := (q.seq_counter_ + 1) % 2 ^ 64 }
  else { q with pq_ := q.pq_ ++ [ev] }

/-- The convenience form `EventQueue::push(time, priority, pid, type, args, raw)`. -/
def EventQueue.pushConv (q : EventQueue) (time : Nat) (priority : Int) (pid : Nat)
    (type : String) (args : List String) (raw : String) : EventQueue :=
  { pq_ := q.pq_ ++
      [{ key := { time := time, priority := priority, pid := pid, seq := q.seq_counter_ }
         type := type, args := args, raw_line := raw }]
    seq_counter_ := (q.seq_counter_ + 1) % 2 ^ 64 }

/-- The function `EventQueue::pop`. -/
def EventQueue.pop (q : EventQueue) : Except SimError Event × EventQueue :=
  match q.pq_ with
  | [] => (.error .queuePopEmpty, q)
  | e :: es =>
    let ev := pqTop EventCompare e es
    (.ok ev, { q with pq_ := (e :: es).erase ev })

/-- The function `EventQueue::top`. -/
def EventQueue.top (q : EventQueue) : Except SimError Event :=
  match q.pq_ with
  | [] => .error .queueTopEmpty
  | e :: es => .ok (pqTop EventCompare e es)

/-- The function `EventQueue::empty`. -/
def EventQueue.empty (q : EventQueue) : Bool := q.pq_.isEmpty

/-- The function `EventQueue::size`. -/
def EventQueue.size (q : EventQueue) : Nat := q.pq_.length

/-- The function `EventQueue::clear`. -/
def EventQueue.clear (q : EventQueue) : EventQueue := { q with pq_ := [] }

/-- The function `EventQueue::next_seq`. -/
def EventQueue.next_seq (q : EventQueue) : Nat := q.seq_counter_

/-- Lexicographic `≤` on `(time, priority, pid, seq)`. -/
def EventKey.le (a b : EventKey) : Prop :=
  a.time < b.time ∨ (a.time = b.time ∧
    (a.priority < b.priority ∨ (a.priority = b.priority ∧
      (a.pid < b.pid ∨ (a.pid = b.pid ∧ a.seq ≤ b.seq)))))

/-- Lexicographic `<` on `(time, priority, pid, seq)`. -/
def EventKey.lt (a b : EventKey) : Prop :=
  a.time < b.time ∨ (a.time = b.time ∧
    (a.priority < b.priority ∨ (a.priority = b.priority ∧
      (a.pid < b.pid ∨ (a.pid = b.pid ∧ a.seq < b.seq)))))

instance (a b : EventKey) : Decidable (a.le b) := by
  unfold EventKey.le; infer_instance

instance (a b : EventKey) : Decidable (a.lt b) := by
  unfold EventKey.lt; infer_instance

/-- Popping until the queue is empty, as the loop `while (!eq.empty()) eq.pop()` does: the
popped events in order and the final queue, for at most `fuel` iterations. -/
def drainFuel : Nat → EventQueue → List Event × EventQueue
  | 0, q => ([], q)
  | fuel + 1, q =>
    if q.empty then ([], q)
    else
      match q.pop with
      | (.ok ev, q1) => (ev :: (drainFuel fuel q1).1, (drainFuel fuel q1).2)
      | (.error _, q1) => ([], q1)

/-- Popping until the queue is empty, with one iteration per queued event. -/
def EventQueue.drain (q : EventQueue) : List Event × EventQueue :=
  drainFuel q.pq_.length q

/-- A call on an `EventQueue`. -/
inductive QueueOp where
  | push (ev : Event)
  | pushConv (time : Nat) (priority : Int) (pid : Nat) (type : String) (args : List String)
      (raw : String)
  | pop
  | top
  | clear
deriving DecidableEq, Repr

/-- One call: the queue afterwards and the event it popped, if any.  A `pop` or `top` that
throws leaves the queue as it is. -/
def EventQueue.step (q : EventQueue) : QueueOp → EventQueue × List Event
  | .push ev => (q.push ev, [])
  | .pushConv time priority pid type args raw => (q.pushConv time priority pid type args raw, [])
  | .pop =>
    match q.pop with
    | (.ok ev, q1) => (q1, [ev])
    | (.error _, q1) => (q1, [])
  | .top => (q, [])
  | .clear => (q.clear, [])

/-- A sequence of calls: the queue afterwards and the popped events in order. -/
def EventQueue.run : EventQueue → List QueueOp → EventQueue × List Event
  | q, [] => (q, [])
  | q, o :: os => (((q.step o).1.run os).1, (q.step o).2 ++ ((q.step o).1.run os).2)

/-- The call assigns a sequence number: the convenience push, or `push(ev)` with `seq = 0`. -/
def QueueOp.assigns : QueueOp → Bool
  | .push ev => decide (ev.key.seq = 0)
  | .pushConv _ _ _ _ _ _ => true
  | _ => false

/-- The sequence numbers assigned by a sequence of calls, in push order. -/
def assignedSeqs : EventQueue → List QueueOp → List Nat
  | _, [] => []
  | q, o :: os =>
    (if o.assigns then [q.seq_counter_] else []) ++ assignedSeqs (q.step o).1 os

/-- The event `push(ev)` stores when it assigns the sequence number. -/
def EventQueue.stamp (q : EventQueue) (ev : Event) : Event :=
  { ev with key := { ev.key with seq := q.seq_counter_ } }

/-- The calls `push(0, 0, 0, "")`, `pop()` repeated `n` times. -/
def cycleOps : Nat → List QueueOp
  | 0 => []
  | n + 1 => .pushConv 0 0 0 "" [] "" :: .pop :: cycleOps n

/-- On a fresh queue: `2^64 - 2` rounds of convenience push and pop, then two more
convenience pushes. -/
def exWrapOps : List QueueOp :=
  cycleOps (2 ^ 64 - 2) ++ [.pushConv 0 0 0 "" [] "", .pushConv 0 0 0 "" [] ""]

/-- The event `E1` of scenario D as handed to `push`: `ACCESS 0x1000` at
`(time, priority, pid) = (5, 3, 1)`, no sequence number yet. -/
def exE1 : Event :=
  { key := { time := 5, priority := 3, pid := 1, seq := 0 }, type := "ACCESS", args := ["0x1000"] }

/-- The event `E2` of scenario D as handed to `push`: `ACCESS 0x2000` at
`(time, priority, pid) = (5, 3, 1)`, no sequence number yet. -/
def exE2 : Event :=
  { key := { time := 5, priority := 3, pid := 1, seq := 0 }, type := "ACCESS", args := ["0x2000"] }

/-- An event earlier than `exE1` and `exE2`, as stored with sequence number 2. -/
def exEarly : Event :=
  { key := { time := 1, priority := 4, pid := 1, seq := 2 }, type := "PROC_START" }

/-- Scenario D of the specification and two more events: the trace events `E1`, `E2` with
identical `(time, priority, pid) = (5, 3, 1)`, an earlier event and a later one, pushed
on a fresh queue in the order later, `E1`, earlier, `E2`. -/
def exQueueD : EventQueue :=
  ((((EventQueue.mk0.pushConv 9 4 2 "FREE" ["0x10"] "").pushConv 5 3 1 "ACCESS" ["0x1000"] "").pushConv
    1 4 1 "PROC_START" [] "").pushConv 5 3 1 "ACCESS" ["0x2000"] "")

/-! ## Specification vocabulary -/

/-- Process `pid` is registered and its page table has a `valid` entry for `vpn` whose
`frame_id` is `f`. -/
def validEntry (procs : Nat → Option Process) (pid vpn : Nat) (f : Int) : Prop :=
  ∃ proc pte, procs pid = some proc ∧ proc.page_table_ vpn = some pte ∧
    pte.valid = true ∧ pte.frame_id = f

/-- The predicate `validEntry` on the process registry of an MMU. -/
def MMU.validPTE (m : MMU) (pid vpn : Nat) (f : Int) : Prop :=
  validEntry m.processes_ pid vpn f

/-- The states of an MMU reachable from a freshly constructed one (all frames unoccupied,
no process, empty translation cache) by calls of its four operations, whatever their
arguments and whether or not the call throws.  The frame count fits the `int` that
carries frame ids. -/
inductive MMU.Reachable : MMU → Prop where
  | init (num_frames page_size tlb_size : Nat) (hN : num_frames ≤ 2 ^ 31) :
      MMU.Reachable (MMU.mk0 num_frames page_size tlb_size)
  | register_process {m : MMU} (pid heap_base heap_size : Nat) :
      MMU.Reachable m → MMU.Reachable (m.register_process pid heap_base heap_size).2
  | unregister_process {m : MMU} (pid : Nat) :
      MMU.Reachable m → MMU.Reachable (m.unregister_process pid)
  | access {m : MMU} (pid vaddr : Nat) :
      MMU.Reachable m → MMU.Reachable (m.access pid vaddr).2
  | complete_pagein {m : MMU} (pid vpn now : Nat) :
      MMU.Reachable m → MMU.Reachable (m.complete_pagein pid vpn now).2

/-- The page-table/frame-table agreement of claim C1: a valid entry `vpn → f` of a
registered process `pid` points at an existing, occupied frame that carries `(pid, vpn)`,
and the process object stored under `pid` has that pid. -/
def MMU.PTConsistent (m : MMU) : Prop :=
  (∀ pid proc, m.processes_ pid = some proc → proc.pid_ = pid) ∧
  ∀ pid vpn f, m.validPTE pid vpn f →
    0 ≤ f ∧ f < (m.pmem_.num_frames : Int) ∧
    (m.pmem_.frameAt f).occupied = true ∧ (m.pmem_.frameAt f).pid = pid ∧
    (m.pmem_.frameAt f).vpn = vpn

/-- No two distinct occupied frames carry the same `(pid, vpn)` pair. -/
def PhysicalMemory.UniqueOccupants (pm : PhysicalMemory) : Prop :=
  ∀ i j : Nat, i < pm.frames_.length → j < pm.frames_.length →
    (pm.frames_.getD i {}).occupied = true → (pm.frames_.getD j {}).occupied = true →
    (pm.frames_.getD i {}).pid = (pm.frames_.getD j {}).pid →
    (pm.frames_.getD i {}).vpn = (pm.frames_.getD j {}).vpn → i = j

/-- Some occupied frame carries `(pid, vpn)`. -/
def PhysicalMemory.carries (pm : PhysicalMemory) (pid vpn : Nat) : Prop :=
  ∃ f ∈ pm.frames_, f.occupied = true ∧ f.pid = pid ∧ f.vpn = vpn

/-- The states reachable as in `MMU.Reachable`, when `complete_pagein(pid, vpn, now)` is only
called while no occupied frame carries `(pid, vpn)`. -/
inductive MMU.ReachableFresh : MMU → Prop where
  | init (num_frames page_size tlb_size : Nat) (hN : num_frames ≤ 2 ^ 31) :
      MMU.ReachableFresh (MMU.mk0 num_frames page_size tlb_size)
  | register_process {m : MMU} (pid heap_base heap_size : Nat) :
      MMU.ReachableFresh m → MMU.ReachableFresh (m.register_process pid heap_base heap_size).2
  | unregister_process {m : MMU} (pid : Nat) :
      MMU.ReachableFresh m → MMU.ReachableFresh (m.unregister_process pid)
  | access {m : MMU} (pid vaddr : Nat) :
      MMU.ReachableFresh m → MMU.ReachableFresh (m.access pid vaddr).2
  | complete_pagein {m : MMU} (pid vpn now : Nat) (hfresh : ¬ m.pmem_.carries pid vpn) :
      MMU.ReachableFresh m → MMU.ReachableFresh (m.complete_pagein pid vpn now).2

instance (pm : PhysicalMemory) (pid vpn : Nat) : Decidable (pm.carries pid vpn) := by
  unfold PhysicalMemory.carries; infer_instance

/-- Some block of the free map or of the allocated map contains the address `x`. -/
def HeapAllocator.covers (h : HeapAllocator) (x : Nat) : Prop :=
  ∃ b ∈ h.free_blocks_ ++ h.allocated_blocks_, b.start ≤ x ∧ x < b.start + b.size

instance (h : HeapAllocator) (x : Nat) : Decidable (h.covers x) := by
  unfold HeapAllocator.covers; infer_instance

/-- The heap invariant of claim C9: every block lies inside `[heap_base, heap_base + heap_size)`,
every address of that range lies in some block (no gap), two different entries of the two
maps never share an address (no overlap), and consecutive free blocks are not adjacent. -/
def HeapAllocator.PartitionInv (h : HeapAllocator) : Prop :=
  (∀ b ∈ h.free_blocks_ ++ h.allocated_blocks_,
      h.heap_base_ ≤ b.start ∧ b.start + b.size ≤ h.heap_base_ + h.heap_size_) ∧
  (∀ x, h.heap_base_ ≤ x → x < h.heap_base_ + h.heap_size_ → h.covers x) ∧
  (h.free_blocks_ ++ h.allocated_blocks_).Pairwise
      (fun a b => a.start + a.size ≤ b.start ∨ b.start + b.size ≤ a.start) ∧
  h.free_blocks_.Chain' (fun a b => a.start + a.size < b.start)

/-- The allocator states reachable from `HeapAllocator(heap_base, heap_size)` by `alloc` of
any 64-bit size and `free` of an address that is a key of `allocated_blocks_`. -/
inductive HeapAllocator.Reachable (heap_base heap_size : Nat) : HeapAllocator → Prop where
  | init : HeapAllocator.Reachable heap_base heap_size (HeapAllocator.mk0 heap_base heap_size)
  | alloc {h : HeapAllocator} (size : Nat) (hsize : size < 2 ^ 64) :
      HeapAllocator.Reachable heap_base heap_size h →
      HeapAllocator.Reachable heap_base heap_size (h.alloc size).2
  | free {h : HeapAllocator} (addr : Nat) (hkey : (mapFind h.allocated_blocks_ addr).isSome = true) :
      HeapAllocator.Reachable heap_base heap_size h →
      HeapAllocator.Reachable heap_base heap_size (h.free addr).2

/-! ## Example states -/

/-- One frame, process 1 registered, page 5 of process 1 paged in at time 0. -/
def exOneFrame : MMU :=
  (((MMU.mk0 1 4096 4).register_process 1 0 0).2.complete_pagein 1 5 0).2

/-- Scenario A of the specification: two frames, a cache of four entries, process 1 with
heap `[0x1000, 0x9000)`, page 1 paged in at time 11. -/
def exScenarioA : MMU :=
  (((MMU.mk0 2 4096 4).register_process 1 0x1000 0x8000).2.complete_pagein 1 1 11).2

/-- Scenario B of the specification before its second page-in: one frame, processes 1 and 2,
page 1 of process 1 paged in at time 11. -/
def exScenarioB : MMU :=
  ((((MMU.mk0 1 4096 16).register_process 1 0x1000 0x8000).2.register_process 2 0x1000 0x8000).2.complete_pagein
    1 1 11).2

/-- One frame that still carries page 0 of process 1 after process 1 was unregistered;
process 2 is registered. -/
def exStaleOwner : MMU :=
  (((((MMU.mk0 1 4096 16).register_process 1 0 0).2.complete_pagein 1 0 0).2.unregister_process 1).register_process
    2 0 0).2

/-- Two frames, process 1 registered, page 5 of process 1 paged in twice. -/
def exTwice : MMU :=
  (((((MMU.mk0 2 4096 4).register_process 1 0 0).2.complete_pagein 1 5 0).2).complete_pagein 1 5 1).2

/-- Scenario F of the specification, up to the dispatch of the stale event: process 3
starts at time 0 and exits at time 5; the clock then stands at 10. -/
def exScenarioF : Machine :=
  ((((Machine.mk0 4 4096 16).proc_start 3 0x1000 0x9000).2.advance 5).proc_exit 3).advance 10

/-- The heap of scenario C, 64 KiB at `0x10000`, after `alloc(2^64 - 1)`. -/
def exHeapWrapped : HeapAllocator :=
  ((HeapAllocator.mk0 0x10000 0x10000).alloc (2 ^ 64 - 1)).2

/-- The frame tables reachable from `PhysicalMemory(num_frames)` through calls of `allocate`,
`touch` and `free` that return, with arbitrary 64-bit time stamps. -/
inductive PhysicalMemory.Reachable (num_frames : Nat) : PhysicalMemory → Prop where
  | init : PhysicalMemory.Reachable num_frames (PhysicalMemory.mk0 num_frames)
  | allocate {pm pm1 : PhysicalMemory} (pid vpn now : Nat) (res : FrameAllocResult)
      (hnow : now < 2 ^ 64) :
      PhysicalMemory.Reachable num_frames pm → pm.allocate pid vpn now = .ok (res, pm1) →
      PhysicalMemory.Reachable num_frames pm1
  | touch {pm pm1 : PhysicalMemory} (frame_id : Int) (now : Nat) (hnow : now < 2 ^ 64) :
      PhysicalMemory.Reachable num_frames pm → pm.touch frame_id now = .ok pm1 →
      PhysicalMemory.Reachable num_frames pm1
  | free {pm pm1 : PhysicalMemory} (frame_id : Int) :
      PhysicalMemory.Reachable num_frames pm → pm.free frame_id = .ok pm1 →
      PhysicalMemory.Reachable num_frames pm1

/-- One frame, occupied by `(1, 0)` with the largest time stamp: `PhysicalMemory(1)` after
`allocate(1, 0, 2^64 - 1)`. -/
def exFrameMaxStamp : PhysicalMemory :=
  { frames_ := [{ occupied := true, pid := 1, vpn := 0, last_used := 2 ^ 64 - 1 }] }

/-- Four frames: frame 0 and 1 occupied, frame 2 free, frame 3 occupied. -/
def exFramesHole : PhysicalMemory :=
  { frames_ := [{ occupied := true, pid := 1, vpn := 0, last_used := 7 },
                { occupied := true, pid := 1, vpn := 1, last_used := 3 },
                {},
                { occupied := true, pid := 2, vpn := 0, last_used := 1 }] }

/-- Four occupied frames; the minimum time stamp 3 is carried by frames 1 and 3. -/
def exFramesFull : PhysicalMemory :=
  { frames_ := [{ occupied := true, pid := 1, vpn := 0, last_used := 7 },
                { occupied := true, pid := 1, vpn := 1, last_used := 3 },
                { occupied := true, pid := 2, vpn := 4, last_used := 9 },
                { occupied := true, pid := 2, vpn := 0, last_used := 3 }] }

/-- The fresh heap of scenario C: 64 KiB at `0x10000`. -/
def exHeapC0 : HeapAllocator := HeapAllocator.mk0 0x10000 0x10000

/-- Scenario C after `alloc(100)`, which returns `A = 0x10000`. -/
def exHeapC1 : HeapAllocator := (exHeapC0.alloc 100).2

/-- Scenario C after `alloc(200)`, which returns `B = 0x10068`. -/
def exHeapC2 : HeapAllocator := (exHeapC1.alloc 200).2

/-- Scenario C after `free(A)`. -/
def exHeapC3 : HeapAllocator := (exHeapC2.free 0x10000).2

/-- Scenario C after `free(B)`. -/
def exHeapC4 : HeapAllocator := (exHeapC3.free 0x10068).2

/-- A heap with three free blocks of sizes 8, 32 and 64 between allocated blocks. -/
def exHeapHoles : HeapAllocator :=
  { heap_base_ := 0, heap_size_ := 128
    free_blocks_ := [{ start := 0, size := 8 }, { start := 16, size := 32 }, { start := 64, size := 64 }]
    allocated_blocks_ := [{ start := 8, size := 8 }, { start := 48, size := 16 }]
    allocated_bytes_ := 24, internal_frag_bytes_ := 0 }

/-- A scheduler with nothing running and the ready queue `[3, 1, 2]`, whose first entry is
stale: pid 3 is `BLOCKED`, pids 1 and 2 are `READY`. -/
def exSchedStale : Scheduler :=
  { ready_queue_ := [3, 1, 2]
    states_ := fun q =>
      if q = 3 then some .BLOCKED else if q = 1 ∨ q = 2 then some .READY else none
    current_ := none }

/-- A call of one of the five state-changing member functions of `Scheduler`. -/
inductive SchedOp where
  | add_process (pid : Nat)
  | terminate_process (pid : Nat)
  | block_current
  | wake_process (pid : Nat)
  | schedule_next
deriving DecidableEq, Repr

/-- The scheduler after one call, whether the call returns or throws. -/
def Scheduler.step (s : Scheduler) : SchedOp → Scheduler
  | .add_process pid => (s.add_process pid).2
  | .terminate_process pid => s.terminate_process pid
  | .block_current => s.block_current.2
  | .wake_process pid => (s.wake_process pid).2
  | .schedule_next => s.schedule_next.2

/-- The scheduler after a sequence of calls. -/
def Scheduler.run : Scheduler → List SchedOp → Scheduler
  | s, [] => s
  | s, op :: ops => Scheduler.run (s.step op) ops

/-- A scheduler in which pid 1 is queued and pid 3 is blocked: `add_process(3)`,
`schedule_next()`, `block_current()`, `add_process(1)`. -/
def exSchedBlocked : Scheduler :=
  Scheduler.mk0.run [.add_process 3, .schedule_next, .block_current, .add_process 1]

/-- A scheduler with pid 2 running and the ready queue `[1, 2, 3, 2]`. -/
def exSchedQueue : Scheduler :=
  { ready_queue_ := [1, 2, 3, 2]
    states_ := fun q => if q = 1 ∨ q = 3 then some .READY else if q = 2 then some .RUNNING else none
    current_ := some 2 }

/-- A call of one of the five member functions of `TLB` that touch the cache. -/
inductive TLBOp where
  | lookup (pid vpn : Nat)
  | insert (pid vpn : Nat) (frame_id : Int)
  | flush_process (pid : Nat)
  | invalidate (pid vpn : Nat)
  | flush_all
deriving DecidableEq, Repr

/-- The cache after one call. -/
def TLB.step (t : TLB) : TLBOp → TLB
  | .lookup pid vpn => (t.lookup pid vpn).2
  | .insert pid vpn frame_id => t.insert pid vpn frame_id
  | .flush_process pid => t.flush_process pid
  | .invalidate pid vpn => t.invalidate pid vpn
  | .flush_all => t.flush_all

/-- The cache after a sequence of calls. -/
def TLB.run : TLB → List TLBOp → TLB
  | t, [] => t
  | t, op :: ops => TLB.run (t.step op) ops

/-- A cache of capacity 3 after the inserts `(1, 5) → 0`, `(2, 5) → 1`, `(1, 6) → 2`: full. -/
def exTlbFull : TLB :=
  (TLB.mk0 3).run [.insert 1 5 0, .insert 2 5 1, .insert 1 6 2]

/-- A cache of capacity 3 after the inserts `(1, 5) → 0`, `(2, 5) → 1`: one place left. -/
def exTlbTwo : TLB :=
  (TLB.mk0 3).run [.insert 1 5 0, .insert 2 5 1]

/-- The function `Process::pid`. -/
def Process.pid (p : Process) : Nat := p.pid_

/-- The function `Process::state`. -/
def Process.state (p : Process) : ProcessState := p.state_

/-- The function `Process::set_state`. -/
def Process.set_state (p : Process) (s : ProcessState) : Process :=
  { p with state_ := s }

/-- The function `Process::is_blocked`. -/
def Process.is_blocked (p : Process) : Bool := decide (p.state_ = .BLOCKED)

/-- The function `Process::blocked_vpn`. -/
def Process.blocked_vpn (p : Process) : Option Nat := p.blocked_vpn_

/-- A call of one of the state-changing member functions of `Process`. -/
inductive ProcOp where
  | set_state (s : ProcessState)
  | block_on_page (vpn : Nat)
  | clear_block
  | map_page (vpn : Nat) (frame_id : Int)
  | unmap_page (vpn : Nat)
  | clear_page_table
  | heap_alloc (size : Nat)
  | heap_free (addr : Nat)
deriving DecidableEq, Repr

/-- The process after one call, whether the call returns or throws. -/
def Process.step (p : Process) : ProcOp → Process
  | .set_state s => p.set_state s
  | .block_on_page vpn => p.block_on_page vpn
  | .clear_block => p.clear_block
  | .map_page vpn frame_id => p.map_page vpn frame_id
  | .unmap_page vpn => p.unmap_page vpn
  | .clear_page_table => p.clear_page_table
  | .heap_alloc size => (p.heap_alloc size).2
  | .heap_free addr => (p.heap_free addr).2

/-- The process after a sequence of calls. -/
def Process.run : Process → List ProcOp → Process
  | p, [] => p
  | p, op :: ops => Process.run (p.step op) ops

/-- The processes reached from construction when the two halves of the blocking state are
kept together: `set_state` is never called with `BLOCKED`; on a process that is not
blocked `set_state` and `clear_block` are free; a blocked process is unblocked by the pair
`clear_block(); set_state(s)`, observed after its second call.  `block_on_page`, the
page-table functions and the heap functions are unrestricted. -/
inductive Process.ReachablePaired : Process → Prop where
  | init (pid heap_base heap_size : Nat) :
      Process.ReachablePaired (Process.mk0 pid heap_base heap_size)
  | block_on_page {p : Process} (vpn : Nat) :
      Process.ReachablePaired p → Process.ReachablePaired (p.block_on_page vpn)
  | set_state {p : Process} (s : ProcessState) (hs : s ≠ .BLOCKED) (hp : p.is_blocked = false) :
      Process.ReachablePaired p → Process.ReachablePaired (p.set_state s)
  | clear_block {p : Process} (hp : p.is_blocked = false) :
      Process.ReachablePaired p → Process.ReachablePaired p.clear_block
  | unblock {p : Process} (s : ProcessState) (hs : s ≠ .BLOCKED) :
      Process.ReachablePaired p → Process.ReachablePaired (p.clear_block.set_state s)
  | map_page {p : Process} (vpn : Nat) (frame_id : Int) :
      Process.ReachablePaired p → Process.ReachablePaired (p.map_page vpn frame_id)
  | unmap_page {p : Process} (vpn : Nat) :
      Process.ReachablePaired p → Process.ReachablePaired (p.unmap_page vpn)
  | clear_page_table {p : Process} :
      Process.ReachablePaired p → Process.ReachablePaired p.clear_page_table
  | heap_alloc {p : Process} (size : Nat) :
      Process.ReachablePaired p → Process.ReachablePaired (p.heap_alloc size).2
  | heap_free {p : Process} (addr : Nat) :
      Process.ReachablePaired p → Process.ReachablePaired (p.heap_free addr).2

/-- A process that was made ready, blocked on page 5 and unblocked again. -/
def exProcUnblocked : Process :=
  (Process.mk0 1 0x1000 0x8000).run
    [.set_state .READY, .block_on_page 5, .clear_block, .set_state .READY]

/-- Two frames, processes 1 and 2, page 1 of process 1 and page 3 of process 2 paged in;
the cache holds both translations. -/
def exTwoProcs : MMU :=
  (((((MMU.mk0 2 4096 16).register_process 1 0x1000 0x8000).2.register_process 2 0x1000 0x8000).2.complete_pagein
    1 1 11).2.complete_pagein 2 3 12).2

/-- The tag `(pid, vpn)` of a cached translation. -/
def TLBEntry.tag (e : TLBEntry) : Nat × Nat := (e.pid, e.vpn)

/-- Coherence of the translation cache with the page tables: no two cache entries share
a tag, and every entry `(pid, vpn, frame_id)` belongs to a registered process whose page
table has a valid entry for `vpn` with that `frame_id`. -/
def MMU.TLBCoherent (m : MMU) : Prop :=
  (m.tlb_.impl_.entries.map TLBEntry.tag).Nodup ∧
  ∀ e ∈ m.tlb_.impl_.entries, m.validPTE e.pid e.vpn e.frame_id

/-- The states of an MMU reachable from a freshly constructed one by calls of
`register_process`, `unregister_process`, `access` and `complete_pagein` that return
normally. -/
inductive MMU.ReachableNormal : MMU → Prop where
  | init (num_frames page_size tlb_size : Nat) :
      MMU.ReachableNormal (MMU.mk0 num_frames page_size tlb_size)
  | register_process {m : MMU} (pid heap_base heap_size : Nat)
      (hok : (m.register_process pid heap_base heap_size).1 = .ok ()) :
      MMU.ReachableNormal m → MMU.ReachableNormal (m.register_process pid heap_base heap_size).2
  | unregister_process {m : MMU} (pid : Nat) :
      MMU.ReachableNormal m → MMU.ReachableNormal (m.unregister_process pid)
  | access {m : MMU} (pid vaddr : Nat) (r : MMUAccessResult)
      (hok : (m.access pid vaddr).1 = .ok r) :
      MMU.ReachableNormal m → MMU.ReachableNormal (m.access pid vaddr).2
  | complete_pagein {m : MMU} (pid vpn now : Nat)
      (hok : (m.complete_pagein pid vpn now).1 = .ok ()) :
      MMU.ReachableNormal m → MMU.ReachableNormal (m.complete_pagein pid vpn now).2

/-! ## The event loop of `main.cpp`: parsing, the handlers, the loop -/

/-- The function `HeapAllocator::total_heap_size`. -/
def HeapAllocator.total_heap_size (h : HeapAllocator) : Nat := h.heap_size_

/-- The function `HeapAllocator::allocated_bytes`. -/
def HeapAllocator.allocated_bytes (h : HeapAllocator) : Nat := h.allocated_bytes_

/-- The function `HeapAllocator::free_bytes`: `heap_size_ - allocated_bytes_` on `uint64_t`. -/
def HeapAllocator.free_bytes (h : HeapAllocator) : Nat :=
  (h.heap_size_ + 2 ^ 64 - h.allocated_bytes_) % 2 ^ 64

/-- The function `HeapAllocator::largest_free_block`. -/
def HeapAllocator.largest_free_block (h : HeapAllocator) : Nat :=
  h.free_blocks_.foldl (fun mx b => max mx b.size) 0

/-- The function `HeapAllocator::internal_fragmentation`. -/
def HeapAllocator.internal_fragmentation (h : HeapAllocator) : Nat := h.internal_frag_bytes_

/-- The function `Process::heap`. -/
def Process.heap (p : Process) : HeapAllocator := p.heap_

/-- The function `Metrics::update_heap`. -/
def Metrics.update_heap (m : Metrics) (total_heap allocated free largest_free internal_frag : Nat) :
    Metrics :=
  { m with total_heap_ := total_heap, allocated_bytes_ := allocated, free_bytes_ := free,
           largest_free_block_ := largest_free, internal_frag_bytes_ := internal_frag }

/-- The function `event_priority_for_name` of `workload.cpp`. -/
def event_priority_for_name (ename : String) : Int :=
  if ename = "PAGEIN_COMPLETE" then 0
  else if ename = "IO_COMPLETE" then 0
  else if ename = "WAKEUP" then 1
  else if ename = "TIMER" then 2
  else if ename = "ACCESS" then 3
  else if ename = "MALLOC" then 4
  else if ename = "FREE" then 4
  else if ename = "PROC_START" then 4
  else if ename = "PROC_EXIT" then 4
  else if ename = "SLEEP" then 4
  else if ename = "IO_START" then 4
  else 5

/-- The white-space characters of `strtoull` in the "C" locale: space and `\t` to `\r`. -/
def isspace (c : Char) : Bool :=
  c.toNat = 32 || (9 ≤ c.toNat && c.toNat ≤ 13)

/-- The value of a character as a digit: `0`-`9`, then letters of either case from 10 on. -/
def digitValue (c : Char) : Option Nat :=
  if '0' ≤ c ∧ c ≤ '9' then some (c.toNat - '0'.toNat)
  else if 'a' ≤ c ∧ c ≤ 'z' then some (c.toNat - 'a'.toNat + 10)
  else if 'A' ≤ c ∧ c ≤ 'Z' then some (c.toNat - 'A'.toNat + 10)
  else none

/-- The character is a digit of the given base. -/
def isDigitIn (base : Nat) (c : Char) : Bool :=
  match digitValue c with
  | some d => decide (d < base)
  | none => false

/-- The value of a digit sequence, most significant digit first. -/
def digitsValue (base : Nat) (ds : List Char) : Nat :=
  ds.foldl (fun acc c => acc * base + (digitValue c).getD 0) 0

/-- The library function `std::stoull(s, nullptr, base)` for the bases 10 and 16, by the
contract of `strtoull`: leading white space is skipped, one sign is accepted, in base 16
a prefix `0x` or `0X` before a hexadecimal digit is skipped, then the longest run of
digits is converted and the rest of the string is ignored.  Without any digit it throws
`std::invalid_argument`, with a value above `2^64 - 1` it throws `std::out_of_range`;
a minus sign negates the value as an unsigned number. -/
def stoull (s : String) (base : Nat) : Except SimError Nat :=
  let cs := s.toList.dropWhile isspace
  let neg := decide (cs.head? = some '-')
  let cs1 := if cs.head? = some '-' ∨ cs.head? = some '+' then cs.tail else cs
  let cs2 :=
    if base = 16 ∧ cs1.head? = some '0' ∧ (cs1.tail.head? = some 'x' ∨ cs1.tail.head? = some 'X')
        ∧ (cs1.tail.tail.head?.map (isDigitIn 16)) = some true
    then cs1.tail.tail else cs1
  let ds := cs2.takeWhile (isDigitIn base)
  if ds = [] then .error .invalidArgument
  else if digitsValue base ds ≥ 2 ^ 64 then .error .outOfRange
  else .ok (if neg then (2 ^ 64 - digitsValue base ds) % 2 ^ 64 else digitsValue base ds)

/-- The function `parse_u64` of `main.cpp`: base 16 for a string longer than two characters
that starts with `0x` or `0X`, base 10 otherwise. -/
def parse_u64 (s : String) : Except SimError Nat :=
  if s.length > 2 ∧ s.toList.head? = some '0' ∧
      (s.toList.tail.head? = some 'x' ∨ s.toList.tail.head? = some 'X') then stoull s 16
  else stoull s 10

/-- The library function `std::to_string` on a `uint64_t`: the decimal digits. -/
def to_string (n : Nat) : String := Nat.repr n

/-- The `MALLOC` branch of the event loop, on the argument string `args[0]`.  The process
is looked up before the argument is parsed; a failed allocation skips the metrics. -/
def Machine.malloc (k : Machine) (pid : Nat) (arg : String) : Except SimError Unit × Machine :=
  match k.mmu.process pid with
  | .error e => (.error e, k)
  | .ok proc =>
    match parse_u64 arg with
    | .error e => (.error e, k)
    | .ok size =>
      let r := proc.heap_alloc size
      let mmu1 : MMU :=
        { k.mmu with processes_ := modifyProcess k.mmu.processes_ pid (fun p => (p.heap_alloc size).2) }
      match r.1 with
      | none => (.ok (), { k with mmu := mmu1 })
      | some _ =>
        let metrics1 := mmu1.metrics_.update_heap r.2.heap.total_heap_size r.2.heap.allocated_bytes
          r.2.heap.free_bytes r.2.heap.largest_free_block r.2.heap.internal_fragmentation
        (.ok (), { k with mmu := { mmu1 with metrics_ := metrics1 } })

/-- The `FREE` branch of the event loop, on the argument string `args[0]`. -/
def Machine.free (k : Machine) (pid : Nat) (arg : String) : Except SimError Unit × Machine :=
  match k.mmu.process pid with
  | .error e => (.error e, k)
  | .ok proc =>
    match parse_u64 arg with
    | .error e => (.error e, k)
    | .ok addr =>
      let r := proc.heap_free addr
      let mmu1 : MMU :=
        { k.mmu with processes_ := modifyProcess k.mmu.processes_ pid (fun p => (p.heap_free addr).2) }
      match r.1 with
      | .error e => (.error e, { k with mmu := mmu1 })
      | .ok _ =>
        let metrics1 := mmu1.metrics_.update_heap r.2.heap.total_heap_size r.2.heap.allocated_bytes
          r.2.heap.free_bytes r.2.heap.largest_free_block r.2.heap.internal_fragmentation
        (.ok (), { k with mmu := { mmu1 with metrics_ := metrics1 } })

/-- The objects of `main` while the event loop runs: the clock, the MMU and the scheduler
(in `k`), the event queue and the fault counter.  The field `dispatched` is not in the
source: it records every event the loop has popped, with the clock value after the clock
update at the head of the loop body, in dispatch order. -/
structure MainState where
  k : Machine
  eq : EventQueue
  page_faults : Nat
  dispatched : List (Nat × Event)

/-- The state of `main` when the loop is entered: the queue filled by the trace, fresh
frame table, MMU and scheduler, the clock at 0. -/
def MainState.mk0 (num_frames page_size tlb_size : Nat) (eq : EventQueue) : MainState :=
  { k := Machine.mk0 num_frames page_size tlb_size, eq := eq, page_faults := 0, dispatched := [] }

/-- The `ACCESS` branch of the event loop, on the argument string `args[0]`: the access is
made by the process the scheduler hands out, not by the pid of the event.  On a page fault
the process is blocked and a `PAGEIN_COMPLETE` event for it is pushed at
`now + PAGEIN_LATENCY` with priority 0 and the page number as its argument. -/
def MainState.access (st : MainState) (PAGEIN_LATENCY : Nat) (arg : String) :
    Except SimError Unit × MainState :=
  let r := st.k.sched.schedule_next
  let st1 : MainState := { st with k := { st.k with sched := r.2 } }
  match r.1 with
  | none => (.ok (), st1)
  | some running =>
    match parse_u64 arg with
    | .error e => (.error e, st1)
    | .ok vaddr =>
      let a := st1.k.mmu.access running vaddr
      let st2 : MainState := { st1 with k := { st1.k with mmu := a.2 } }
      match a.1 with
      | .error e => (.error e, st2)
      | .ok .HIT => (.ok (), st2)
      | .ok .PAGE_FAULT =>
        let st3 : MainState := { st2 with page_faults := (st2.page_faults + 1) % 2 ^ 64 }
        let b := st3.k.sched.block_current
        let st4 : MainState := { st3 with k := { st3.k with sched := b.2 } }
        match b.1 with
        | .error e => (.error e, st4)
        | .ok _ =>
          let vpn := st4.k.mmu.vpn_from_vaddr vaddr
          let eq1 := st4.eq.pushConv ((st4.k.now_ + PAGEIN_LATENCY) % 2 ^ 64) 0 running
            "PAGEIN_COMPLETE" [to_string vpn] ""
          (.ok (), { st4 with eq := eq1 })

/-- The dispatch of the loop body on the popped event `ev`: the chain of comparisons of
`ev.type`.  An argument `ev.args[i]` the event does not have is read as the empty string
(so that its conversion throws); any other event type does nothing. -/
def MainState.dispatch (st : MainState) (PAGEIN_LATENCY : Nat) (ev : Event) :
    Except SimError Unit × MainState :=
  let pid := ev.key.pid
  if ev.type = "PROC_START" then
    match parse_u64 (ev.args.getD 0 "") with
    | .error e => (.error e, st)
    | .ok heap_base =>
      match parse_u64 (ev.args.getD 1 "") with
      | .error e => (.error e, st)
      | .ok heap_top =>
        let r := st.k.proc_start pid heap_base heap_top
        (r.1, { st with k := r.2 })
  else if ev.type = "PROC_EXIT" then (.ok (), { st with k := st.k.proc_exit pid })
  else if ev.type = "MALLOC" then
    let r := st.k.malloc pid (ev.args.getD 0 "")
    (r.1, { st with k := r.2 })
  else if ev.type = "FREE" then
    let r := st.k.free pid (ev.args.getD 0 "")
    (r.1, { st with k := r.2 })
  else if ev.type = "ACCESS" then st.access PAGEIN_LATENCY (ev.args.getD 0 "")
  else if ev.type = "PAGEIN_COMPLETE" then
    match stoull (ev.args.getD 0 "") 10 with
    | .error e => (.error e, st)
    | .ok vpn =>
      let r := st.k.pagein_complete pid vpn
      (r.1, { st with k := r.2 })
  else (.ok (), st)

/-- One iteration of the loop body: pop, clock update, dispatch. -/
def MainState.step (st : MainState) (PAGEIN_LATENCY : Nat) : Except SimError Unit × MainState :=
  match st.eq.pop with
  | (.error e, q1) => (.error e, { st with eq := q1 })
  | (.ok ev, q1) =>
    let k1 := st.k.advance ev.key.time
    MainState.dispatch
      { st with eq := q1, k := k1, dispatched := st.dispatched ++ [(k1.now_, ev)] }
      PAGEIN_LATENCY ev

/-- The loop `while (!eq.empty()) { ... }` for at most `fuel` iterations: `none` when the
queue is not empty after `fuel` iterations, else the outcome and the final state.  Nothing
in `main` catches an exception, so the first one ends the run. -/
def MainState.runFuel (PAGEIN_LATENCY : Nat) : Nat → MainState → Option (Except SimError Unit × MainState)
  | 0, st => if st.eq.empty then some (.ok (), st) else none
  | fuel + 1, st =>
    if st.eq.empty then some (.ok (), st)
    else
      match st.step PAGEIN_LATENCY with
      | (.error e, st1) => some (.error e, st1)
      | (.ok _, st1) => MainState.runFuel PAGEIN_LATENCY fuel st1

/-- One well-formed line of a trace file, split into its fields by `Workload::parse_into`:
time stamp, pid, event name, the remaining fields, and the line as read. -/
structure TraceRecord where
  ts : Nat
  pid : Nat
  evname : String
  args : List String
  raw : String
deriving DecidableEq, Repr

/-- The pushes of `Workload::parse_into`, one per well-formed line:
`q.push(ts, event_priority_for_name(evname), pid, evname, args, raw)`. -/
def Workload.push_records (q : EventQueue) (rs : List TraceRecord) : EventQueue :=
  rs.foldl (fun q r => q.pushConv r.ts (event_priority_for_name r.evname) r.pid r.evname r.args r.raw) q

/-- The trace of scenario B of the specification. -/
def exTraceB : List TraceRecord :=
  [{ ts := 0, pid := 1, evname := "PROC_START", args := ["0x1000", "0x9000"],
     raw := "0, 1, PROC_START, 0x1000, 0x9000" },
   { ts := 0, pid := 2, evname := "PROC_START", args := ["0x1000", "0x9000"],
     raw := "0, 2, PROC_START, 0x1000, 0x9000" },
   { ts := 1, pid := 1, evname := "ACCESS", args := ["0x1000"], raw := "1, 1, ACCESS, 0x1000" },
   { ts := 20, pid := 2, evname := "ACCESS", args := ["0x1000"], raw := "20, 2, ACCESS, 0x1000" }]

/-- Scenario B when the loop is entered: one frame, pages of 4096 bytes, a cache of 16
entries, the queue filled from `exTraceB`. -/
def exScenarioBStart : MainState :=
  MainState.mk0 1 4096 16 (Workload.push_records EventQueue.mk0 exTraceB)

/-- Scenario B run with `PAGEIN_LATENCY = 10` for at most six iterations. -/
def exScenarioBRun : Option (Except SimError Unit × MainState) :=
  MainState.runFuel 10 6 exScenarioBStart

/-- The scheduler invariant of claim C31: every queued pid is `READY` and queued once,
every `READY` pid is queued, and a pid is `RUNNING` exactly when it is `current`. -/
def Scheduler.WellFormed (s : Scheduler) : Prop :=
  (∀ q ∈ s.ready_queue_, s.states_ q = some .READY) ∧
  s.ready_queue_.Nodup ∧
  (∀ q, s.states_ q = some .READY → q ∈ s.ready_queue_) ∧
  (∀ q, s.states_ q = some .RUNNING ↔ s.current_ = some q)

/-- Six scheduler calls: `add_process(3)`, `schedule_next()`, `block_current()`,
`add_process(1)`, `schedule_next()`, `wake_process(3)`.  Afterwards pid 1 is running and
pid 3 is queued. -/
def exSchedOps : List SchedOp :=
  [.add_process 3, .schedule_next, .block_current, .add_process 1, .schedule_next, .wake_process 3]

/-- The run of the event loop after at most `n` iterations: the state reached, and whether
an exception has ended the run there.  Once the queue is empty or a handler has thrown,
further iterations change nothing. -/
def MainState.iterate (PAGEIN_LATENCY : Nat) : Nat → MainState → Except SimError Unit × MainState
  | 0, st => (.ok (), st)
  | n + 1, st =>
    if st.eq.empty then (.ok (), st)
    else
      match st.step PAGEIN_LATENCY with
      | (.error e, st1) => (.error e, st1)
      | (.ok _, st1) => MainState.iterate PAGEIN_LATENCY n st1

/-- The state of the run after at most `n` iterations of the event loop. -/
def MainState.after (PAGEIN_LATENCY : Nat) (n : Nat) (st : MainState) : MainState :=
  (MainState.iterate PAGEIN_LATENCY n st).2

/-- The timing invariant of the event loop: no queued event is earlier than the clock,
every dispatched event was dispatched at its own time stamp, which the clock has not
passed since, and the dispatch times never decrease. -/
def MainState.TimingInv (st : MainState) : Prop :=
  (∀ e ∈ st.eq.pq_, st.k.now_ ≤ e.key.time) ∧
  (∀ d ∈ st.dispatched, d.1 = d.2.key.time ∧ d.1 ≤ st.k.now_) ∧
  (st.dispatched.map Prod.fst).Pairwise (fun a b => a ≤ b)

/-- A bound on the number of iterations the event loop can still make: every queued event
is popped once, and only an `ACCESS` event can add one more event, which is no `ACCESS`. -/
def EventQueue.iterations (q : EventQueue) : Nat :=
  (q.pq_.map (fun e => if e.type = "ACCESS" then 2 else 1)).sum

/-- The event loop run to its end: the outcome and the final state. -/
def MainState.run (PAGEIN_LATENCY : Nat) (st : MainState) : Except SimError Unit × MainState :=
  MainState.iterate PAGEIN_LATENCY st.eq.iterations st

/-- Two frames, both occupied with the largest time stamp, after one page-in:
`PhysicalMemory(2)` after `allocate(1, 0, 2^64 - 1)`. -/
def exTwoFramesFirst : PhysicalMemory :=
  { frames_ := [{ occupied := true, pid := 1, vpn := 0, last_used := 2 ^ 64 - 1 }, {}] }

/-- Two frames, both occupied with the largest time stamp: `PhysicalMemory(2)` after
`allocate(1, 0, 2^64 - 1)` and `allocate(1, 1, 2^64 - 1)`. -/
def exTwoFramesMaxStamp : PhysicalMemory :=
  { frames_ := [{ occupied := true, pid := 1, vpn := 0, last_used := 2 ^ 64 - 1 },
                { occupied := true, pid := 1, vpn := 1, last_used := 2 ^ 64 - 1 }] }

/-! # Theorems -/

/-! ## Frame table lemmas -/

theorem toInt32_of_lt {i : Nat} (h : i < 2 ^ 31) : toInt32 i = (i : Int) := by
  unfold toInt32
  have h1 : i % 2 ^ 32 = i := Nat.mod_eq_of_lt (by omega)
  rw [h1, if_pos h]

theorem toSize_natCast {i : Nat} (h : i < 2 ^ 64) : toSize (i : Int) = i := by
  unfold toSize
  have : ((i : Int) % 2 ^ 64) = (i : Int) := Int.emod_eq_of_lt (by omega) (by exact_mod_cast h)
  rw [this]; simp

theorem findFreeFrom_spec (fs : List Frame) (i : Nat) (h : i + fs.length ≤ 2 ^ 31) :
    (findFreeFrom fs i = -1 ∧ ∀ f ∈ fs, f.occupied = true) ∨
    ∃ j, j < fs.length ∧ findFreeFrom fs i = ((i + j : Nat) : Int) ∧
      (fs.getD j {}).occupied = false ∧ ∀ k < j, (fs.getD k {}).occupied = true := by
  induction fs generalizing i with
  | nil => left; simp [findFreeFrom]
  | cons f fs ih =>
    simp only [List.length_cons] at h
    by_cases hf : f.occupied = true
    · have hstep : findFreeFrom (f :: fs) i = findFreeFrom fs (i + 1) := by
        simp [findFreeFrom, hf]
      rcases ih (i + 1) (by omega) with ⟨h1, h2⟩ | ⟨j, hj, h1, h2, h3⟩
      · left
        refine ⟨by rw [hstep, h1], ?_⟩
        intro g hg
        rcases List.mem_cons.mp hg with rfl | hg
        · exact hf
        · exact h2 g hg
      · right
        refine ⟨j + 1, by simp; omega, ?_, ?_, ?_⟩
        · rw [hstep, h1]; congr 1; omega
        · simpa using h2
        · intro k hk
          cases k with
          | zero => simpa using hf
          | succ k => simpa using h3 k (by omega)
    · right
      refine ⟨0, by simp, ?_, ?_, ?_⟩
      · have : findFreeFrom (f :: fs) i = toInt32 i := by simp [findFreeFrom, hf]
        rw [this, toInt32_of_lt (by omega)]; simp
      · simpa using hf
      · intro k hk; omega

theorem findLruFrom_spec (fs : List Frame) (i : Nat) (lru : Int) (oldest : Nat)
    (h : i + fs.length ≤ 2 ^ 31) :
    findLruFrom fs i lru oldest = lru ∨
    ∃ j, j < fs.length ∧ findLruFrom fs i lru oldest = ((i + j : Nat) : Int) ∧
      (fs.getD j {}).occupied = true := by
  induction fs generalizing i lru oldest with
  | nil => left; simp [findLruFrom]
  | cons f fs ih =>
    simp only [List.length_cons] at h
    by_cases hc : (f.occupied && decide (f.last_used < oldest)) = true
    · have hstep : findLruFrom (f :: fs) i lru oldest
          = findLruFrom fs (i + 1) (toInt32 i) f.last_used := by
        simp only [findLruFrom, hc, if_true]
      rcases ih (i + 1) (toInt32 i) f.last_used (by omega) with h1 | ⟨j, hj, h1, h2⟩
      · right
        refine ⟨0, by simp, ?_, ?_⟩
        · rw [hstep, h1, toInt32_of_lt (by omega)]; simp
        · simp only [Bool.and_eq_true] at hc
          simpa using hc.1
      · right
        refine ⟨j + 1, by simp; omega, ?_, ?_⟩
        · rw [hstep, h1]; congr 1; omega
        · simpa using h2
    · have hstep : findLruFrom (f :: fs) i lru oldest = findLruFrom fs (i + 1) lru oldest := by
        simp only [findLruFrom, hc]; simp
      rcases ih (i + 1) lru oldest (by omega) with h1 | ⟨j, hj, h1, h2⟩
      · left; rw [hstep, h1]
      · right
        refine ⟨j + 1, by simp; omega, ?_, ?_⟩
        · rw [hstep, h1]; congr 1; omega
        · simpa using h2

/-- What a successful `allocate` did: it chose an existing frame `j`, overwrote exactly
that frame, and reported the previous occupant when (and only when) the frame was occupied. -/
theorem allocate_ok_spec {pm pm1 : PhysicalMemory} {pid vpn now : Nat} {res : FrameAllocResult}
    (hN : pm.frames_.length ≤ 2 ^ 31)
    (h : pm.allocate pid vpn now = .ok (res, pm1)) :
    ∃ j, j < pm.frames_.length ∧ res.frame_id = (j : Int) ∧
      pm1.frames_ = pm.frames_.set j { occupied := true, pid := pid, vpn := vpn, last_used := now } ∧
      (res.evicted = false → (pm.frames_.getD j {}).occupied = false) ∧
      (res.evicted = true → (pm.frames_.getD j {}).occupied = true ∧
        res.evicted_pid = (pm.frames_.getD j {}).pid ∧
        res.evicted_vpn = (pm.frames_.getD j {}).vpn) := by
  unfold PhysicalMemory.allocate at h
  simp only at h
  rcases findFreeFrom_spec pm.frames_ 0 (by omega) with ⟨h1, _⟩ | ⟨j, hj, h1, h2, _⟩
  · have hfree : pm.find_free_frame = -1 := h1
    rw [if_pos hfree] at h
    rcases findLruFrom_spec pm.frames_ 0 (-1) UINT64_MAX (by omega) with h3 | ⟨j, hj, h3, h4⟩
    · have hlru : pm.find_lru_frame = -1 := h3
      rw [if_pos hlru] at h
      cases h
    · have hlru : pm.find_lru_frame = (j : Int) := by
        have : pm.find_lru_frame = ((0 + j : Nat) : Int) := h3
        simpa using this
      have hne : ¬ ((j : Int) = -1) := by omega
      rw [hlru, if_neg hne] at h
      have hsz : toSize (j : Int) = j := toSize_natCast (by omega)
      simp only [Except.ok.injEq, Prod.mk.injEq] at h
      obtain ⟨hres, hpm⟩ := h
      subst hres; subst hpm
      refine ⟨j, hj, rfl, ?_, ?_, ?_⟩
      · simp only [hsz]
      · intro hcontra; cases hcontra
      · intro _
        simp only [PhysicalMemory.frameAt, hsz]
        exact ⟨h4, trivial, trivial⟩
  · have hfree : pm.find_free_frame = (j : Int) := by
      have : pm.find_free_frame = ((0 + j : Nat) : Int) := h1
      simpa using this
    have hne : ¬ ((j : Int) = -1) := by omega
    rw [hfree, if_neg hne] at h
    have hsz : toSize (j : Int) = j := toSize_natCast (by omega)
    simp only [Except.ok.injEq, Prod.mk.injEq] at h
    obtain ⟨hres, hpm⟩ := h
    subst hres; subst hpm
    refine ⟨j, hj, rfl, ?_, ?_, ?_⟩
    · simp only [hsz]
    · intro _; exact h2
    · intro hcontra; cases hcontra

/-! ## The shape of `complete_pagein` -/

/-- A `complete_pagein` that returns went through `allocate`, found the evicted owner (if
any) registered, and leaves exactly the state described. -/
theorem complete_pagein_ok {m : MMU} {pid vpn now : Nat}
    (h : (m.complete_pagein pid vpn now).1 = .ok ()) :
    ∃ p res pm1, m.processes_ pid = some p ∧ m.pmem_.allocate pid vpn now = .ok (res, pm1) ∧
      (res.evicted = true → ∃ op, m.processes_ res.evicted_pid = some op) ∧
      (m.complete_pagein pid vpn now).2 =
        { pmem_ := pm1
          page_size_ := m.page_size_
          metrics_ := m.metrics_
          tlb_ := (if res.evicted = true then m.tlb_.invalidate res.evicted_pid res.evicted_vpn
                   else m.tlb_).insert pid vpn res.frame_id
          processes_ := modifyProcess
            (if res.evicted = true then
              modifyProcess m.processes_ res.evicted_pid (fun p => p.unmap_page res.evicted_vpn)
             else m.processes_) pid (fun p => p.map_page vpn res.frame_id) } := by
  unfold MMU.complete_pagein MMU.process at h ⊢
  cases hp : m.processes_ pid with
  | none => simp [hp] at h
  | some p =>
    simp only [hp] at h ⊢
    cases ha : m.pmem_.allocate pid vpn now with
    | error e => simp [ha] at h
    | ok r =>
      obtain ⟨res, pm1⟩ := r
      simp only [ha] at h ⊢
      refine ⟨p, res, pm1, rfl, rfl, ?_⟩
      by_cases hev : res.evicted = true
      · simp only [hev, if_true] at h ⊢
        cases ho : m.processes_ res.evicted_pid with
        | none => simp [ho] at h
        | some op =>
          refine ⟨fun _ => ⟨op, rfl⟩, ?_⟩
          rfl
      · simp only [hev, if_false] at h ⊢
        refine ⟨fun hc => absurd hc (by simp), ?_⟩
        rfl

/-- A `complete_pagein` that throws leaves the MMU as it was, except when the throw comes
from the lookup of an unregistered evicted owner: then the frame table is already written. -/
theorem complete_pagein_error {m : MMU} {pid vpn now : Nat} {e : SimError}
    (h : (m.complete_pagein pid vpn now).1 = .error e) :
    (m.complete_pagein pid vpn now).2 = m ∨
    ∃ res pm1, m.pmem_.allocate pid vpn now = .ok (res, pm1) ∧ res.evicted = true ∧
      m.processes_ res.evicted_pid = none ∧
      (m.complete_pagein pid vpn now).2 = { m with pmem_ := pm1 } := by
  unfold MMU.complete_pagein MMU.process at h ⊢
  cases hp : m.processes_ pid with
  | none => left; simp [hp]
  | some p =>
    simp only [hp] at h ⊢
    cases ha : m.pmem_.allocate pid vpn now with
    | error e => left; simp [ha]
    | ok r =>
      obtain ⟨res, pm1⟩ := r
      simp only [ha] at h ⊢
      by_cases hev : res.evicted = true
      · simp only [hev, if_true] at h ⊢
        cases ho : m.processes_ res.evicted_pid with
        | none =>
          right
          exact ⟨res, pm1, rfl, hev, ho, by simp [ho]⟩
        | some op => simp [ho] at h
      · simp [hev] at h

/-! ## Page tables under `map_page` and `unmap_page` -/

theorem getD_set_self {l : List Frame} {j : Nat} (a : Frame) (hj : j < l.length) :
    (l.set j a).getD j {} = a := by
  simp [List.getD_eq_getElem?_getD, List.getElem?_set, hj]

theorem getD_set_ne {l : List Frame} {j k : Nat} (a : Frame) (hjk : j ≠ k) :
    (l.set j a).getD k {} = l.getD k {} := by
  simp [List.getD_eq_getElem?_getD, List.getElem?_set, hjk]

theorem frameAt_natCast (pm : PhysicalMemory) {k : Nat} (hk : k < 2 ^ 64) :
    pm.frameAt (k : Int) = pm.frames_.getD k {} := by
  unfold PhysicalMemory.frameAt
  rw [toSize_natCast hk]

theorem validEntry_map_page {procs : Nat → Option Process} {pid vpn q v : Nat} {g f : Int}
    (h : validEntry (modifyProcess procs pid (fun p => p.map_page vpn g)) q v f) :
    (q = pid ∧ v = vpn ∧ f = g) ∨ (validEntry procs q v f ∧ ¬ (q = pid ∧ v = vpn)) := by
  obtain ⟨proc, pte, hp, ht, hv, hf⟩ := h
  unfold modifyProcess at hp
  by_cases hq : q = pid
  · rw [if_pos hq] at hp
    cases hpq : procs q with
    | none => simp [hpq] at hp
    | some p0 =>
      simp only [hpq, Option.map_some', Option.some.injEq] at hp
      subst hp
      simp only [Process.map_page] at ht
      by_cases hvv : v = vpn
      · left
        rw [if_pos hvv] at ht
        simp only [Option.some.injEq] at ht
        subst ht
        exact ⟨hq, hvv, hf.symm⟩
      · right
        rw [if_neg hvv] at ht
        exact ⟨⟨p0, pte, hpq, ht, hv, hf⟩, fun hc => hvv hc.2⟩
  · right
    rw [if_neg hq] at hp
    exact ⟨⟨proc, pte, hp, ht, hv, hf⟩, fun hc => hq hc.1⟩

theorem validEntry_unmap_page {procs : Nat → Option Process} {pid vpn q v : Nat} {f : Int}
    (h : validEntry (modifyProcess procs pid (fun p => p.unmap_page vpn)) q v f) :
    validEntry procs q v f ∧ ¬ (q = pid ∧ v = vpn) := by
  obtain ⟨proc, pte, hp, ht, hv, hf⟩ := h
  unfold modifyProcess at hp
  by_cases hq : q = pid
  · rw [if_pos hq] at hp
    cases hpq : procs q with
    | none => simp [hpq] at hp
    | some p0 =>
      simp only [hpq, Option.map_some', Option.some.injEq] at hp
      subst hp
      unfold Process.unmap_page at ht
      cases hpt : p0.page_table_ vpn with
      | none =>
        simp only [hpt] at ht
        refine ⟨⟨p0, pte, hpq, ht, hv, hf⟩, ?_⟩
        rintro ⟨_, hvv⟩
        rw [hvv, hpt] at ht
        cases ht
      | some e0 =>
        simp only [hpt] at ht
        by_cases hvv : v = vpn
        · rw [if_pos hvv] at ht
          simp only [Option.some.injEq] at ht
          subst ht
          cases hv
        · rw [if_neg hvv] at ht
          exact ⟨⟨p0, pte, hpq, ht, hv, hf⟩, fun hc => hvv hc.2⟩
  · rw [if_neg hq] at hp
    exact ⟨⟨proc, pte, hp, ht, hv, hf⟩, fun hc => hq hc.1⟩

/-- The valid page-table entries after a `complete_pagein` that returned: the new entry
of the requester, and the old valid entries other than the evicted one. -/
theorem complete_pagein_valid {m : MMU} {pid vpn now : Nat} {res : FrameAllocResult}
    {pm1 : PhysicalMemory} (hok : (m.complete_pagein pid vpn now).1 = .ok ())
    (ha : m.pmem_.allocate pid vpn now = .ok (res, pm1)) {q v : Nat} {f : Int}
    (h : (m.complete_pagein pid vpn now).2.validPTE q v f) :
    (q = pid ∧ v = vpn ∧ f = res.frame_id) ∨
    (m.validPTE q v f ∧ ¬ (q = pid ∧ v = vpn) ∧
      (res.evicted = true → ¬ (q = res.evicted_pid ∧ v = res.evicted_vpn))) := by
  obtain ⟨p, res1, pm2, _, ha1, _, hfin⟩ := complete_pagein_ok hok
  rw [ha] at ha1
  simp only [Except.ok.injEq, Prod.mk.injEq] at ha1
  obtain ⟨hr, hpm⟩ := ha1
  subst hr; subst hpm
  unfold MMU.validPTE at h ⊢
  rw [hfin] at h
  simp only at h
  rcases validEntry_map_page h with h1 | ⟨h1, h2⟩
  · exact Or.inl h1
  · right
    by_cases hev : res.evicted = true
    · rw [if_pos hev] at h1
      obtain ⟨h3, h4⟩ := validEntry_unmap_page h1
      exact ⟨h3, h2, fun _ => h4⟩
    · rw [if_neg hev] at h1
      exact ⟨h1, h2, fun hc => absurd hc hev⟩

/-! ## The page-table/frame-table invariant -/

theorem access_frame (m : MMU) (pid vaddr : Nat) :
    (m.access pid vaddr).2.pmem_ = m.pmem_ ∧
    (m.access pid vaddr).2.processes_ = m.processes_ ∧
    (m.access pid vaddr).2.page_size_ = m.page_size_ := by
  unfold MMU.access
  cases hp : m.process pid with
  | error e => simp
  | ok proc =>
    simp only
    cases hl : (m.tlb_.lookup pid (m.vpn_from_vaddr vaddr)).1 with
    | some fr => simp
    | none =>
      simp only
      by_cases hm : proc.has_mapping (m.vpn_from_vaddr vaddr) = true
      · simp [hm]
      · simp [hm]

theorem register_process_frame (m : MMU) (pid heap_base heap_size : Nat) :
    (m.register_process pid heap_base heap_size).2.pmem_ = m.pmem_ := by
  unfold MMU.register_process
  cases m.processes_ pid <;> rfl

theorem unregister_process_frame (m : MMU) (pid : Nat) :
    (m.unregister_process pid).pmem_ = m.pmem_ := by
  unfold MMU.unregister_process
  cases m.processes_ pid <;> rfl

theorem PTConsistent_register {m : MMU} (pid heap_base heap_size : Nat) (h : m.PTConsistent) :
    (m.register_process pid heap_base heap_size).2.PTConsistent := by
  unfold MMU.register_process
  cases hp : m.processes_ pid with
  | some p => exact h
  | none =>
    refine ⟨?_, ?_⟩
    · intro q proc hq
      simp only at hq
      by_cases hqp : q = pid
      · rw [if_pos hqp] at hq
        cases hq
        exact hqp.symm
      · rw [if_neg hqp] at hq
        exact h.1 q proc hq
    · rintro q v f ⟨proc, pte, hq, ht, hv, hf⟩
      simp only at hq
      by_cases hqp : q = pid
      · rw [if_pos hqp] at hq
        cases hq
        simp [Process.mk0] at ht
      · rw [if_neg hqp] at hq
        exact h.2 q v f ⟨proc, pte, hq, ht, hv, hf⟩

theorem PTConsistent_unregister {m : MMU} (pid : Nat) (h : m.PTConsistent) :
    (m.unregister_process pid).PTConsistent := by
  unfold MMU.unregister_process
  cases hp : m.processes_ pid with
  | none => exact h
  | some p =>
    refine ⟨?_, ?_⟩
    · intro q proc hq
      simp only at hq
      by_cases hqp : q = pid
      · rw [if_pos hqp] at hq; cases hq
      · rw [if_neg hqp] at hq
        simp only [modifyProcess, if_neg hqp] at hq
        exact h.1 q proc hq
    · rintro q v f ⟨proc, pte, hq, ht, hv, hf⟩
      simp only at hq
      by_cases hqp : q = pid
      · rw [if_pos hqp] at hq; cases hq
      · rw [if_neg hqp] at hq
        simp only [modifyProcess, if_neg hqp] at hq
        exact h.2 q v f ⟨proc, pte, hq, ht, hv, hf⟩

theorem PTConsistent_access {m : MMU} (pid vaddr : Nat) (h : m.PTConsistent) :
    (m.access pid vaddr).2.PTConsistent := by
  obtain ⟨h1, h2, _⟩ := access_frame m pid vaddr
  unfold MMU.PTConsistent MMU.validPTE at h ⊢
  rw [h1, h2]
  exact h

theorem pid_modifyProcess {procs : Nat → Option Process} {pid : Nat} (g : Process → Process)
    (hg : ∀ p, (g p).pid_ = p.pid_)
    (h : ∀ q proc, procs q = some proc → proc.pid_ = q) :
    ∀ q proc, modifyProcess procs pid g q = some proc → proc.pid_ = q := by
  intro q proc hq
  unfold modifyProcess at hq
  by_cases hqp : q = pid
  · rw [if_pos hqp] at hq
    cases hpq : procs q with
    | none => simp [hpq] at hq
    | some p0 =>
      simp only [hpq, Option.map_some', Option.some.injEq] at hq
      subst hq
      rw [hg]
      exact h q p0 hpq
  · rw [if_neg hqp] at hq
    exact h q proc hq

theorem unmap_page_pid (p : Process) (vpn : Nat) : (p.unmap_page vpn).pid_ = p.pid_ := by
  unfold Process.unmap_page
  cases p.page_table_ vpn <;> rfl

/-- The frame an old valid entry points at is not the frame a `complete_pagein` hands out,
unless that entry is the evicted one. -/
theorem old_entry_frame_ne {m : MMU} {pid vpn now : Nat} {res : FrameAllocResult}
    {pm1 : PhysicalMemory} (hN : m.pmem_.frames_.length ≤ 2 ^ 31) (h : m.PTConsistent)
    (ha : m.pmem_.allocate pid vpn now = .ok (res, pm1)) {q v : Nat} {f : Int}
    (hq : m.validPTE q v f)
    (hne : res.evicted = true → ¬ (q = res.evicted_pid ∧ v = res.evicted_vpn)) :
    f ≠ res.frame_id ∧ pm1.frameAt f = m.pmem_.frameAt f := by
  obtain ⟨j, hj, hfid, hset, hfree, hevict⟩ := allocate_ok_spec hN ha
  obtain ⟨h0, hlt, hocc, hpid, hvpn⟩ := h.2 q v f hq
  obtain ⟨k, rfl⟩ := Int.eq_ofNat_of_zero_le h0
  have hk : k < m.pmem_.frames_.length := by
    unfold PhysicalMemory.num_frames at hlt; exact_mod_cast hlt
  rw [frameAt_natCast _ (by omega)] at hocc hpid hvpn
  have hkj : j ≠ k := by
    rintro rfl
    cases hev : res.evicted with
    | false => rw [hfree hev] at hocc; cases hocc
    | true =>
      obtain ⟨_, h1, h2⟩ := hevict hev
      exact hne hev ⟨by rw [h1, hpid], by rw [h2, hvpn]⟩
  refine ⟨?_, ?_⟩
  · rw [hfid]; intro hc; exact hkj (by exact_mod_cast hc.symm)
  · rw [frameAt_natCast _ (by omega), frameAt_natCast _ (by omega), hset, getD_set_ne _ hkj]

theorem allocate_length {pm pm1 : PhysicalMemory} {pid vpn now : Nat} {res : FrameAllocResult}
    (hN : pm.frames_.length ≤ 2 ^ 31) (h : pm.allocate pid vpn now = .ok (res, pm1)) :
    pm1.frames_.length = pm.frames_.length := by
  obtain ⟨j, _, _, hset, _⟩ := allocate_ok_spec hN h
  rw [hset, List.length_set]

theorem PTConsistent_complete_pagein {m : MMU} (pid vpn now : Nat)
    (hN : m.pmem_.frames_.length ≤ 2 ^ 31) (h : m.PTConsistent) :
    (m.complete_pagein pid vpn now).2.PTConsistent := by
  cases hres : (m.complete_pagein pid vpn now).1 with
  | error e =>
    rcases complete_pagein_error hres with heq | ⟨res, pm1, ha, hev, hnone, heq⟩
    · rw [heq]; exact h
    · rw [heq]
      refine ⟨h.1, ?_⟩
      intro q v f hq
      have hq0 : m.validPTE q v f := hq
      have hne : res.evicted = true → ¬ (q = res.evicted_pid ∧ v = res.evicted_vpn) := by
        rintro _ ⟨rfl, _⟩
        obtain ⟨proc, _, hp, _⟩ := hq0
        rw [hnone] at hp; cases hp
      obtain ⟨_, hsame⟩ := old_entry_frame_ne hN h ha hq0 hne
      obtain ⟨h0, hlt, hrest⟩ := h.2 q v f hq0
      refine ⟨h0, ?_, ?_⟩
      · simp only [PhysicalMemory.num_frames, allocate_length hN ha]
        exact hlt
      · simp only [hsame]; exact hrest
  | ok u =>
    obtain ⟨p, res, pm1, hp, ha, hown, hfin⟩ := complete_pagein_ok hres
    obtain ⟨j, hj, hfid, hset, hfree, hevict⟩ := allocate_ok_spec hN ha
    have hpm : (m.complete_pagein pid vpn now).2.pmem_ = pm1 := by rw [hfin]
    refine ⟨?_, ?_⟩
    · rw [hfin]
      simp only
      refine pid_modifyProcess (fun p => p.map_page vpn res.frame_id) (fun _ => rfl) ?_
      by_cases hev : res.evicted = true
      · rw [if_pos hev]
        exact pid_modifyProcess (fun p => p.unmap_page res.evicted_vpn)
          (fun p => unmap_page_pid p _) h.1
      · rw [if_neg hev]; exact h.1
    · intro q v f hq
      rw [hpm]
      rcases complete_pagein_valid hres ha hq with ⟨rfl, rfl, rfl⟩ | ⟨hq0, _, hne⟩
      · rw [hfid, frameAt_natCast _ (by omega), hset, getD_set_self _ hj]
        refine ⟨by omega, ?_, rfl, rfl, rfl⟩
        simp only [PhysicalMemory.num_frames, ← hset, allocate_length hN ha]
        exact_mod_cast hj
      · obtain ⟨_, hsame⟩ := old_entry_frame_ne hN h ha hq0 hne
        obtain ⟨h0, hlt, hrest⟩ := h.2 q v f hq0
        refine ⟨h0, ?_, ?_⟩
        · simp only [PhysicalMemory.num_frames, allocate_length hN ha]
          exact hlt
        · simp only [hsame]; exact hrest

theorem complete_pagein_length {m : MMU} (pid vpn now : Nat)
    (hN : m.pmem_.frames_.length ≤ 2 ^ 31) :
    (m.complete_pagein pid vpn now).2.pmem_.frames_.length = m.pmem_.frames_.length := by
  cases hres : (m.complete_pagein pid vpn now).1 with
  | error e =>
    rcases complete_pagein_error hres with heq | ⟨res, pm1, ha, _, _, heq⟩
    · rw [heq]
    · rw [heq]; exact allocate_length hN ha
  | ok u =>
    obtain ⟨p, res, pm1, hp, ha, hown, hfin⟩ := complete_pagein_ok hres
    rw [hfin]; exact allocate_length hN ha

/-- Every reachable MMU has a frame table that fits `int` and satisfies `PTConsistent`. -/
theorem reachable_inv {m : MMU} (h : m.Reachable) :
    m.pmem_.frames_.length ≤ 2 ^ 31 ∧ m.PTConsistent := by
  induction h with
  | init n ps ts hN =>
    refine ⟨by simpa [MMU.mk0, PhysicalMemory.mk0] using hN, ?_, ?_⟩
    · intro q proc hq; simp [MMU.mk0] at hq
    · rintro q v f ⟨proc, pte, hq, _⟩; simp [MMU.mk0] at hq
  | register_process pid hb hs _ ih =>
    exact ⟨by rw [register_process_frame]; exact ih.1, PTConsistent_register pid hb hs ih.2⟩
  | unregister_process pid _ ih =>
    exact ⟨by rw [unregister_process_frame]; exact ih.1, PTConsistent_unregister pid ih.2⟩
  | access pid vaddr _ ih =>
    exact ⟨by rw [(access_frame _ pid vaddr).1]; exact ih.1, PTConsistent_access pid vaddr ih.2⟩
  | complete_pagein pid vpn now _ ih =>
    exact ⟨by rw [complete_pagein_length pid vpn now ih.1]; exact ih.1,
      PTConsistent_complete_pagein pid vpn now ih.1 ih.2⟩

/-! ## Translation cache lemmas -/

theorem tlbUpdate_none_iff (es : List TLBEntry) (pid vpn : Nat) (f : Int) :
    tlbUpdate es pid vpn f = none ↔ ∀ e ∈ es, ¬ (e.pid = pid ∧ e.vpn = vpn) := by
  induction es with
  | nil => simp [tlbUpdate]
  | cons e es ih =>
    by_cases he : e.pid = pid ∧ e.vpn = vpn
    · simp only [tlbUpdate, if_pos he]
      constructor
      · intro h; cases h
      · intro h; exact absurd he (h e (List.mem_cons_self _ _))
    · simp only [tlbUpdate, if_neg he, Option.map_eq_none', ih, List.mem_cons, forall_eq_or_imp]
      exact ⟨fun h => ⟨he, h⟩, fun h => h.2⟩

theorem tlbUpdate_some_mem {es r : List TLBEntry} {pid vpn : Nat} {f : Int}
    (h : tlbUpdate es pid vpn f = some r) :
    (∃ e ∈ r, e.pid = pid ∧ e.vpn = vpn) ∧
    ∀ e ∈ r, ∃ e0 ∈ es, e0.pid = e.pid ∧ e0.vpn = e.vpn := by
  induction es generalizing r with
  | nil => simp [tlbUpdate] at h
  | cons e es ih =>
    by_cases he : e.pid = pid ∧ e.vpn = vpn
    · simp only [tlbUpdate, if_pos he, Option.some.injEq] at h
      subst h
      refine ⟨⟨_, List.mem_cons_self _ _, he⟩, ?_⟩
      intro x hx
      rcases List.mem_cons.mp hx with rfl | hx
      · exact ⟨e, List.mem_cons_self _ _, rfl, rfl⟩
      · exact ⟨x, List.mem_cons_of_mem _ hx, rfl, rfl⟩
    · simp only [tlbUpdate, if_neg he, Option.map_eq_some'] at h
      obtain ⟨r0, hr0, rfl⟩ := h
      obtain ⟨⟨x, hx, hx2⟩, h2⟩ := ih hr0
      refine ⟨⟨x, List.mem_cons_of_mem _ hx, hx2⟩, ?_⟩
      intro y hy
      rcases List.mem_cons.mp hy with rfl | hy
      · exact ⟨y, List.mem_cons_self _ _, rfl, rfl⟩
      · obtain ⟨e0, he0, h3⟩ := h2 y hy
        exact ⟨e0, List.mem_cons_of_mem _ he0, h3⟩

/-- After `insert(pid, vpn, frame_id)` the cache holds an entry tagged `(pid, vpn)`. -/
theorem TLB.insert_holds (t : TLB) (pid vpn : Nat) (f : Int) :
    (t.insert pid vpn f).holds pid vpn := by
  unfold TLB.holds TLB.insert TLBImpl.insert
  cases hu : tlbUpdate t.impl_.entries pid vpn f with
  | some r => exact (tlbUpdate_some_mem hu).1
  | none =>
    exact ⟨{ pid := pid, vpn := vpn, frame_id := f, referenced := false },
      List.mem_append_right _ (List.mem_singleton_self _), rfl, rfl⟩

/-- The tags present after `insert(pid, vpn, frame_id)` are `(pid, vpn)` and tags present before. -/
theorem TLB.holds_of_insert {t : TLB} {pid vpn q v : Nat} {f : Int}
    (h : (t.insert pid vpn f).holds q v) : (q = pid ∧ v = vpn) ∨ t.holds q v := by
  unfold TLB.holds TLB.insert TLBImpl.insert at h
  cases hu : tlbUpdate t.impl_.entries pid vpn f with
  | some r =>
    simp only [hu] at h
    obtain ⟨e, he, h1, h2⟩ := h
    obtain ⟨e0, he0, h3, h4⟩ := (tlbUpdate_some_mem hu).2 e he
    exact Or.inr ⟨e0, he0, by rw [h3, h1], by rw [h4, h2]⟩
  | none =>
    simp only [hu] at h
    obtain ⟨e, he, h1, h2⟩ := h
    rcases List.mem_append.mp he with he | he
    · right
      refine ⟨e, ?_, h1, h2⟩
      by_cases hc : t.impl_.entries.length ≥ t.impl_.capacity
      · rw [if_pos hc] at he; exact List.mem_of_mem_tail he
      · rw [if_neg hc] at he; exact he
    · left
      simp only [List.mem_singleton] at he
      subst he
      exact ⟨h1.symm, h2.symm⟩

/-- After `invalidate(pid, vpn)` the cache holds no entry tagged `(pid, vpn)`. -/
theorem TLB.invalidate_not_holds (t : TLB) (pid vpn : Nat) :
    ¬ (t.invalidate pid vpn).holds pid vpn := by
  unfold TLB.holds TLB.invalidate TLBImpl.invalidate
  rintro ⟨e, he, h1, h2⟩
  simp [List.mem_filter, h1, h2] at he

theorem TLB.lookup_none_iff (t : TLB) (pid vpn : Nat) :
    (t.lookup pid vpn).1 = none ↔ ¬ t.holds pid vpn := by
  unfold TLB.lookup TLBImpl.lookup TLB.holds
  cases hf : t.impl_.entries.find? (fun e => decide (e.pid = pid) && decide (e.vpn = vpn)) with
  | none =>
    refine ⟨fun _ => ?_, fun _ => rfl⟩
    rintro ⟨e, he, h1, h2⟩
    have := List.find?_eq_none.mp hf e he
    simp [h1, h2] at this
  | some e =>
    have h1 := List.find?_some hf
    have h2 := List.mem_of_find?_eq_some hf
    simp only [Bool.and_eq_true, decide_eq_true_eq] at h1
    refine ⟨fun hc => ?_, fun hc => absurd ⟨e, h2, h1⟩ hc⟩
    cases hc

theorem TLB.lookup_entries (t : TLB) (pid vpn : Nat) :
    (t.lookup pid vpn).2.impl_.entries = t.impl_.entries ∧
    (t.lookup pid vpn).2.impl_.capacity = t.impl_.capacity := by
  unfold TLB.lookup TLBImpl.lookup
  cases t.impl_.entries.find? (fun e => decide (e.pid = pid) && decide (e.vpn = vpn)) <;> simp

theorem has_mapping_iff (p : Process) (vpn : Nat) :
    p.has_mapping vpn = true ↔ ∃ pte, p.page_table_ vpn = some pte ∧ pte.valid = true := by
  unfold Process.has_mapping
  cases p.page_table_ vpn with
  | none => simp
  | some e => simp

/-! ## The three paths of `access` -/

theorem access_of_holds {m : MMU} {pid vaddr : Nat} {proc : Process}
    (hreg : m.processes_ pid = some proc) (hh : m.tlb_.holds pid (vaddr / m.page_size_)) :
    m.access pid vaddr =
      (.ok .HIT,
        { m with tlb_ := (m.tlb_.lookup pid (vaddr / m.page_size_)).2
                 metrics_ := (m.metrics_.record_tlb_hit).record_access_latency 1 }) := by
  unfold MMU.access MMU.process MMU.vpn_from_vaddr
  simp only [hreg]
  cases hl : (m.tlb_.lookup pid (vaddr / m.page_size_)).1 with
  | none => exact absurd hh ((TLB.lookup_none_iff _ _ _).mp hl)
  | some fr => rfl

theorem access_of_mapped {m : MMU} {pid vaddr : Nat} {proc : Process}
    (hreg : m.processes_ pid = some proc) (hh : ¬ m.tlb_.holds pid (vaddr / m.page_size_))
    (hm : proc.has_mapping (vaddr / m.page_size_) = true) :
    m.access pid vaddr =
      (.ok .HIT,
        { m with tlb_ := (m.tlb_.lookup pid (vaddr / m.page_size_)).2.insert pid
                   (vaddr / m.page_size_) (proc.get_pte (vaddr / m.page_size_)).frame_id
                 metrics_ := (m.metrics_.record_tlb_miss).record_access_latency 5 }) := by
  unfold MMU.access MMU.process MMU.vpn_from_vaddr
  simp only [hreg]
  rw [(TLB.lookup_none_iff _ _ _).mpr hh]
  simp only [hm, if_true]

theorem access_of_unmapped {m : MMU} {pid vaddr : Nat} {proc : Process}
    (hreg : m.processes_ pid = some proc) (hh : ¬ m.tlb_.holds pid (vaddr / m.page_size_))
    (hm : proc.has_mapping (vaddr / m.page_size_) = false) :
    m.access pid vaddr =
      (.ok .PAGE_FAULT,
        { m with tlb_ := (m.tlb_.lookup pid (vaddr / m.page_size_)).2
                 metrics_ := (m.metrics_.record_tlb_miss).record_access_latency 100 }) := by
  unfold MMU.access MMU.process MMU.vpn_from_vaddr
  simp only [hreg]
  rw [(TLB.lookup_none_iff _ _ _).mpr hh]
  simp [hm]

/-! ## Claims C1 to C4 -/

/-- Claim C1: in every MMU state reachable from the initial state by calls of
`register_process`, `unregister_process`, `access` and `complete_pagein`, a valid
page-table entry `vpn → f` of a registered process `pid` has `f` a valid frame index
(`frame(f)` does not throw), and frame `f` is occupied and carries the pid of that
process and `vpn`; the process object registered under `pid` has pid `pid`. -/
theorem C1_valid_pte_points_to_own_frame (m : MMU) (hreach : m.Reachable)
    (pid vpn : Nat) (proc : Process) (pte : PageTableEntry)
    (hproc : m.processes_ pid = some proc) (hpte : proc.page_table_ vpn = some pte)
    (hvalid : pte.valid = true) :
    0 ≤ pte.frame_id ∧ pte.frame_id < (m.pmem_.num_frames : Int) ∧
    (m.pmem_.frame pte.frame_id).map (fun fr => (fr.occupied, fr.pid, fr.vpn))
      = .ok (true, proc.pid_, vpn) ∧
    proc.pid_ = pid := by
  obtain ⟨_, hpid, hcons⟩ := reachable_inv hreach
  obtain ⟨h0, hlt, hocc, hp, hv⟩ := hcons pid vpn pte.frame_id ⟨proc, pte, hproc, hpte, hvalid, rfl⟩
  refine ⟨h0, hlt, ?_, hpid pid proc hproc⟩
  unfold PhysicalMemory.frame
  have hng : ¬ (pte.frame_id < 0 ∨ (m.pmem_.frames_.length : Int) ≤ pte.frame_id) := by
    unfold PhysicalMemory.num_frames at hlt; omega
  rw [if_neg hng]
  simp only [Except.map, hocc, hp, hv, hpid pid proc hproc]

theorem exOneFrame_reachable : exOneFrame.Reachable :=
  .complete_pagein 1 5 0 (.register_process 1 0 0 (.init 1 4096 4 (by decide)))

/-- Witness of C1: in `exOneFrame` the entry `5 → 0` of process 1 is valid and frame 0
carries `(1, 5)`. -/
theorem C1_witness :
    exOneFrame.Reachable ∧
    exOneFrame.processes_ 1 = some ((Process.mk0 1 0 0).map_page 5 0) ∧
    ((Process.mk0 1 0 0).map_page 5 0).page_table_ 5 = some { valid := true, frame_id := 0 } ∧
    (0 : Int) ≤ 0 ∧ (0 : Int) < (exOneFrame.pmem_.num_frames : Int) ∧
    (exOneFrame.pmem_.frame 0).map (fun fr => (fr.occupied, fr.pid, fr.vpn)) = .ok (true, 1, 5) :=
  have h := C1_valid_pte_points_to_own_frame exOneFrame exOneFrame_reachable 1 5
    ((Process.mk0 1 0 0).map_page 5 0) { valid := true, frame_id := 0 } rfl rfl rfl
  ⟨exOneFrame_reachable, rfl, rfl, h.1, h.2.1, h.2.2.1⟩

/-- Counterexample to C2 as stated: in the reachable state `exOneFrame` the call
`complete_pagein(1, 5, 1)` returns, it evicted the prior occupant `(1, 5)` of frame 0,
and afterwards the translation cache does contain an entry tagged `(1, 5)`: the entry
the call itself inserted for the requester. -/
theorem C2_counterexample :
    exOneFrame.Reachable ∧
    (exOneFrame.complete_pagein 1 5 1).1 = .ok () ∧
    (exOneFrame.pmem_.allocate 1 5 1).map Prod.fst
      = .ok { frame_id := 0, evicted := true, evicted_pid := 1, evicted_vpn := 5 } ∧
    (exOneFrame.complete_pagein 1 5 1).2.tlb_.holds 1 5 :=
  ⟨exOneFrame_reachable, by decide, by decide, by decide⟩

/-- Claim C2, amended: for every reachable MMU state and every call
`complete_pagein(pid, vpn, now)` that returns, with `res` the result of the frame
allocation it made: the frame table afterwards is the one `allocate` produced, no valid
page-table entry other than `(pid, vpn)` itself has `frame_id = res.frame_id`, and,
whenever the call evicted a prior occupant different from `(pid, vpn)`, the translation
cache contains no entry tagged with that occupant. -/
theorem C2_pagein_frame_exclusive (m : MMU) (hreach : m.Reachable) (pid vpn now : Nat)
    (res : FrameAllocResult) (pm1 : PhysicalMemory)
    (halloc : m.pmem_.allocate pid vpn now = .ok (res, pm1))
    (hret : (m.complete_pagein pid vpn now).1 = .ok ()) :
    (m.complete_pagein pid vpn now).2.pmem_ = pm1 ∧
    (∀ q v, (m.complete_pagein pid vpn now).2.validPTE q v res.frame_id → q = pid ∧ v = vpn) ∧
    (res.evicted = true → ¬ (res.evicted_pid = pid ∧ res.evicted_vpn = vpn) →
      ¬ (m.complete_pagein pid vpn now).2.tlb_.holds res.evicted_pid res.evicted_vpn) := by
  obtain ⟨hN, hcons⟩ := reachable_inv hreach
  obtain ⟨p, res1, pm2, _, ha1, _, hfin⟩ := complete_pagein_ok hret
  have hsame : res1 = res ∧ pm2 = pm1 := by
    rw [halloc] at ha1
    simp only [Except.ok.injEq, Prod.mk.injEq] at ha1
    exact ⟨ha1.1.symm, ha1.2.symm⟩
  obtain ⟨rfl, rfl⟩ := hsame
  refine ⟨by rw [hfin], ?_, ?_⟩
  · intro q v hq
    rcases complete_pagein_valid hret halloc hq with ⟨h1, h2, _⟩ | ⟨hq0, _, hne⟩
    · exact ⟨h1, h2⟩
    · exact absurd rfl (old_entry_frame_ne hN hcons halloc hq0 hne).1
  · intro hev hne hh
    rw [hfin] at hh
    simp only [if_pos hev] at hh
    rcases TLB.holds_of_insert hh with h1 | h1
    · exact hne h1
    · exact TLB.invalidate_not_holds _ _ _ h1

theorem exScenarioB_reachable : exScenarioB.Reachable :=
  .complete_pagein 1 1 11
    (.register_process 2 0x1000 0x8000 (.register_process 1 0x1000 0x8000 (.init 1 4096 16 (by decide))))

/-- Witness of C2 (amended): scenario B, where the page-in of `(2, 1)` evicts `(1, 1)`. -/
theorem C2_witness :
    exScenarioB.Reachable ∧
    exScenarioB.pmem_.allocate 2 1 30
      = .ok ({ frame_id := 0, evicted := true, evicted_pid := 1, evicted_vpn := 1 },
             { frames_ := [{ occupied := true, pid := 2, vpn := 1, last_used := 30 }] }) ∧
    (exScenarioB.complete_pagein 2 1 30).1 = .ok () ∧
    (∀ q v, (exScenarioB.complete_pagein 2 1 30).2.validPTE q v 0 → q = 2 ∧ v = 1) ∧
    ¬ (exScenarioB.complete_pagein 2 1 30).2.tlb_.holds 1 1 :=
  have h := C2_pagein_frame_exclusive exScenarioB exScenarioB_reachable 2 1 30
    { frame_id := 0, evicted := true, evicted_pid := 1, evicted_vpn := 1 }
    { frames_ := [{ occupied := true, pid := 2, vpn := 1, last_used := 30 }] }
    (by decide) (by decide)
  ⟨exScenarioB_reachable, by decide, by decide, h.2.1, h.2.2 rfl (by decide)⟩

theorem modifyProcess_some {procs : Nat → Option Process} {q : Nat} {p : Process}
    (pid : Nat) (g : Process → Process) (h : procs q = some p) :
    ∃ p1, modifyProcess procs pid g q = some p1 := by
  unfold modifyProcess
  by_cases hq : q = pid
  · rw [if_pos hq, h]; exact ⟨g p, rfl⟩
  · rw [if_neg hq]; exact ⟨p, h⟩

/-- A process registered before a `complete_pagein` that returned is registered after it. -/
theorem complete_pagein_registered {m : MMU} {pid vpn now q : Nat} {p : Process}
    (hok : (m.complete_pagein pid vpn now).1 = .ok ()) (h : m.processes_ q = some p) :
    ∃ p1, (m.complete_pagein pid vpn now).2.processes_ q = some p1 := by
  obtain ⟨_, res, pm1, _, _, _, hfin⟩ := complete_pagein_ok hok
  rw [hfin]
  simp only
  by_cases hev : res.evicted = true
  · rw [if_pos hev]
    obtain ⟨p1, h1⟩ := modifyProcess_some res.evicted_pid (fun p => p.unmap_page res.evicted_vpn) h
    exact modifyProcess_some pid _ h1
  · rw [if_neg hev]
    exact modifyProcess_some pid _ h

/-- Claim C3: for every MMU state with `page_size > 0` (reachable or not): if
`complete_pagein(pid2, vpn2, now)` returns and evicted the frame holding `(pid1, vpn1)`,
with `(pid2, vpn2) ≠ (pid1, vpn1)`, then the next `access(pid1, vaddr)` with
`vaddr / page_size = vpn1` returns `PAGE_FAULT`.  (That the call returned implies that
`pid1` is still registered; the earlier valid mapping of `(pid1, vpn1)` is not needed.) -/
theorem C3_access_after_eviction_faults (m : MMU) (pid1 vpn1 pid2 vpn2 now vaddr : Nat)
    (res : FrameAllocResult) (pm1 : PhysicalMemory)
    (hps : 0 < m.page_size_)
    (halloc : m.pmem_.allocate pid2 vpn2 now = .ok (res, pm1))
    (hret : (m.complete_pagein pid2 vpn2 now).1 = .ok ())
    (hev : res.evicted = true) (hpid : res.evicted_pid = pid1) (hvpn : res.evicted_vpn = vpn1)
    (hne : ¬ (pid2 = pid1 ∧ vpn2 = vpn1))
    (hva : vaddr / m.page_size_ = vpn1) :
    ((m.complete_pagein pid2 vpn2 now).2.access pid1 vaddr).1 = .ok .PAGE_FAULT := by
  have _ := hps
  obtain ⟨p, res1, pm2, _, ha1, hown, hfin⟩ := complete_pagein_ok hret
  have hsame : res1 = res ∧ pm2 = pm1 := by
    rw [halloc] at ha1
    simp only [Except.ok.injEq, Prod.mk.injEq] at ha1
    exact ⟨ha1.1.symm, ha1.2.symm⟩
  obtain ⟨rfl, rfl⟩ := hsame
  obtain ⟨op, hop⟩ := hown hev
  rw [hpid] at hop
  obtain ⟨p1, hp1⟩ := complete_pagein_registered hret hop
  have hpsz : (m.complete_pagein pid2 vpn2 now).2.page_size_ = m.page_size_ := by rw [hfin]
  have hh : ¬ (m.complete_pagein pid2 vpn2 now).2.tlb_.holds pid1
      (vaddr / (m.complete_pagein pid2 vpn2 now).2.page_size_) := by
    rw [hpsz, hva]
    intro hh
    rw [hfin] at hh
    simp only [if_pos hev, hpid, hvpn] at hh
    rcases TLB.holds_of_insert hh with h1 | h1
    · exact hne ⟨h1.1.symm, h1.2.symm⟩
    · exact TLB.invalidate_not_holds _ _ _ h1
  have hm : p1.has_mapping (vaddr / (m.complete_pagein pid2 vpn2 now).2.page_size_) = false := by
    rw [hpsz, hva]
    cases hc : p1.has_mapping vpn1 with
    | false => rfl
    | true =>
      obtain ⟨pte, h1, h2⟩ := (has_mapping_iff _ _).mp hc
      have hv : (m.complete_pagein pid2 vpn2 now).2.validPTE pid1 vpn1 pte.frame_id :=
        ⟨p1, pte, hp1, h1, h2, rfl⟩
      rcases complete_pagein_valid hret halloc hv with ⟨h3, h4, _⟩ | ⟨_, _, h5⟩
      · exact absurd ⟨h3.symm, h4.symm⟩ hne
      · exact absurd ⟨hpid.symm, hvpn.symm⟩ (h5 hev)
  rw [access_of_unmapped hp1 hh hm]

/-- Witness of C3: scenario B; after the page-in of `(2, 1)` evicted `(1, 1)`, the access
of process 1 to `0x1000` faults. -/
theorem C3_witness :
    0 < exScenarioB.page_size_ ∧
    exScenarioB.validPTE 1 1 0 ∧
    exScenarioB.pmem_.allocate 2 1 30
      = .ok ({ frame_id := 0, evicted := true, evicted_pid := 1, evicted_vpn := 1 },
             { frames_ := [{ occupied := true, pid := 2, vpn := 1, last_used := 30 }] }) ∧
    (exScenarioB.complete_pagein 2 1 30).1 = .ok () ∧
    ((exScenarioB.complete_pagein 2 1 30).2.access 1 0x1000).1 = .ok .PAGE_FAULT :=
  ⟨by decide, ⟨_, _, rfl, rfl, rfl, rfl⟩, by decide, by decide,
    C3_access_after_eviction_faults exScenarioB 1 1 2 1 30 0x1000
      { frame_id := 0, evicted := true, evicted_pid := 1, evicted_vpn := 1 }
      { frames_ := [{ occupied := true, pid := 2, vpn := 1, last_used := 30 }] }
      (by decide) (by decide) (by decide) rfl rfl rfl (by decide) (by decide)⟩

/-- Claim C4: for every MMU state with `page_size > 0` (reachable or not), every pid and
every vpn such that `vpn * page_size` does not overflow 64 bits: if
`complete_pagein(pid, vpn, now)` returns (which needs `pid` registered), then
`access(pid, vpn * page_size)` called immediately afterwards returns `HIT`. -/
theorem C4_access_after_pagein_hits (m : MMU) (pid vpn now : Nat)
    (hps : 0 < m.page_size_) (hov : vpn * m.page_size_ < 2 ^ 64)
    (hret : (m.complete_pagein pid vpn now).1 = .ok ()) :
    ((m.complete_pagein pid vpn now).2.access pid ((vpn * m.page_size_) % 2 ^ 64)).1
      = .ok .HIT := by
  obtain ⟨p, res, pm1, hp, _, _, hfin⟩ := complete_pagein_ok hret
  obtain ⟨p1, hp1⟩ := complete_pagein_registered hret hp
  have hpsz : (m.complete_pagein pid vpn now).2.page_size_ = m.page_size_ := by rw [hfin]
  have hdiv : (vpn * m.page_size_) % 2 ^ 64 / (m.complete_pagein pid vpn now).2.page_size_ = vpn := by
    rw [hpsz, Nat.mod_eq_of_lt hov, Nat.mul_div_cancel _ hps]
  have hh : (m.complete_pagein pid vpn now).2.tlb_.holds pid
      ((vpn * m.page_size_) % 2 ^ 64 / (m.complete_pagein pid vpn now).2.page_size_) := by
    rw [hdiv, hfin]
    exact TLB.insert_holds _ _ _ _
  rw [access_of_holds hp1 hh]

/-- Witness of C4: scenario A; after the page-in of `(1, 1)` the access to `0x1000` hits. -/
theorem C4_witness :
    0 < (MMU.mk0 2 4096 4).page_size_ ∧ 1 * (MMU.mk0 2 4096 4).page_size_ < 2 ^ 64 ∧
    (((MMU.mk0 2 4096 4).register_process 1 0x1000 0x8000).2.complete_pagein 1 1 11).1 = .ok () ∧
    (exScenarioA.access 1 0x1000).1 = .ok .HIT :=
  ⟨by decide, by decide, by decide,
    C4_access_after_pagein_hits ((MMU.mk0 2 4096 4).register_process 1 0x1000 0x8000).2 1 1 11
      (by decide) (by decide) (by decide)⟩

/-! ## Claims C5 and C6 -/

theorem exStaleOwner_reachable : exStaleOwner.Reachable :=
  .register_process 2 0 0
    (.unregister_process 1
      (.complete_pagein 1 0 0 (.register_process 1 0 0 (.init 1 4096 16 (by decide)))))

/-- Claim C5, evaluated at its failing input: `exStaleOwner` is reachable, has one frame
and has pid 2 registered, yet `complete_pagein(2, 0, 1)` throws "MMU: access from unknown
process": the frame it evicts carries page 0 of the unregistered pid 1, and the lookup of
that owner throws instead of being skipped.  The frame table is already overwritten. -/
theorem C5_pagein_throws_on_stale_owner :
    exStaleOwner.Reachable ∧ 1 ≤ exStaleOwner.pmem_.num_frames ∧
    (exStaleOwner.processes_ 2).isSome = true ∧ exStaleOwner.processes_ 1 = none ∧
    exStaleOwner.pmem_.frames_ = [{ occupied := true, pid := 1, vpn := 0, last_used := 0 }] ∧
    (exStaleOwner.complete_pagein 2 0 1).1 = .error .mmuUnknownProcess ∧
    (exStaleOwner.complete_pagein 2 0 1).2.pmem_.frames_
      = [{ occupied := true, pid := 2, vpn := 0, last_used := 1 }] ∧
    ¬ (exStaleOwner.complete_pagein 2 0 1).2.validPTE 2 0 0 := by
  refine ⟨exStaleOwner_reachable, by decide, by decide, rfl, by decide, by decide, by decide, ?_⟩
  rintro ⟨proc, pte, hp, ht, _, _⟩
  have hp1 : some (Process.mk0 2 0 0) = some proc := hp
  cases hp1
  cases ht

/-- A `PAGEIN_COMPLETE` for a pid that is not registered in the MMU ends in the exception
of `MMU::process` and changes nothing. -/
theorem pagein_complete_unregistered (k : Machine) (pid vpn : Nat)
    (h : k.mmu.processes_ pid = none) :
    k.pagein_complete pid vpn = (.error .mmuUnknownProcess, k) := by
  unfold Machine.pagein_complete MMU.complete_pagein MMU.process
  simp only [h]

/-- Claim C6, evaluated at its failing input (scenario F): pid 3 is no longer registered
when its `PAGEIN_COMPLETE` is dispatched at time 10; the handler raises "MMU: access
from unknown process" (nothing in `main` catches it), where the claim says it is handled
without error.  The rest of the claim holds: pid 3 is not re-registered and the frames,
the translation cache and the other MMU fields are unchanged. -/
theorem C6_stale_pagein_throws :
    exScenarioF.now_ = 10 ∧ exScenarioF.mmu.processes_ 3 = none ∧
    (exScenarioF.pagein_complete 3 1).1 = .error .mmuUnknownProcess ∧
    (exScenarioF.pagein_complete 3 1).2.mmu.processes_ 3 = none ∧
    (exScenarioF.pagein_complete 3 1).2.mmu.processes_ = exScenarioF.mmu.processes_ ∧
    (exScenarioF.pagein_complete 3 1).2.mmu.pmem_ = exScenarioF.mmu.pmem_ ∧
    (exScenarioF.pagein_complete 3 1).2.mmu.tlb_ = exScenarioF.mmu.tlb_ :=
  ⟨by decide, rfl, by decide, rfl, rfl, by decide, by decide⟩

/-! ## Claim C7 -/

theorem exTwice_reachable : exTwice.Reachable :=
  .complete_pagein 1 5 1
    (.complete_pagein 1 5 0 (.register_process 1 0 0 (.init 2 4096 4 (by decide))))

/-- Counterexample to C7 as stated: paging in `(1, 5)` twice on a table of two frames is a
sequence of the four MMU calls, and it leaves the distinct frames 0 and 1 both occupied
with `(pid, vpn) = (1, 5)`. -/
theorem C7_counterexample :
    exTwice.Reachable ∧
    exTwice.pmem_.frames_ = [{ occupied := true, pid := 1, vpn := 5, last_used := 0 },
                             { occupied := true, pid := 1, vpn := 5, last_used := 1 }] ∧
    ¬ exTwice.pmem_.UniqueOccupants := by
  refine ⟨exTwice_reachable, by decide, ?_⟩
  intro h
  have h01 := h 0 1 (by decide) (by decide) (by decide) (by decide) (by decide) (by decide)
  exact absurd h01 (by decide)

/-- The frame table after `complete_pagein`: unchanged, or the one `allocate` produced. -/
theorem complete_pagein_pmem (m : MMU) (pid vpn now : Nat) :
    (m.complete_pagein pid vpn now).2.pmem_ = m.pmem_ ∨
    ∃ res pm1, m.pmem_.allocate pid vpn now = .ok (res, pm1) ∧
      (m.complete_pagein pid vpn now).2.pmem_ = pm1 := by
  cases hres : (m.complete_pagein pid vpn now).1 with
  | error e =>
    rcases complete_pagein_error hres with heq | ⟨res, pm1, ha, _, _, heq⟩
    · left; rw [heq]
    · right; exact ⟨res, pm1, ha, by rw [heq]⟩
  | ok u =>
    obtain ⟨_, res, pm1, _, ha, _, hfin⟩ := complete_pagein_ok hres
    right; exact ⟨res, pm1, ha, by rw [hfin]⟩

theorem UniqueOccupants_allocate {pm pm1 : PhysicalMemory} {pid vpn now : Nat}
    {res : FrameAllocResult} (hN : pm.frames_.length ≤ 2 ^ 31)
    (ha : pm.allocate pid vpn now = .ok (res, pm1))
    (hfresh : ¬ pm.carries pid vpn) (h : pm.UniqueOccupants) : pm1.UniqueOccupants := by
  obtain ⟨j, hj, _, hset, _, _⟩ := allocate_ok_spec hN ha
  have hold : ∀ k, k < pm.frames_.length → k ≠ j → (pm1.frames_.getD k {}).occupied = true →
      ¬ ((pm1.frames_.getD k {}).pid = pid ∧ (pm1.frames_.getD k {}).vpn = vpn) := by
    intro k hk hkj hocc hc
    rw [hset, getD_set_ne _ (Ne.symm hkj)] at hocc hc
    apply hfresh
    refine ⟨pm.frames_.getD k {}, ?_, hocc, hc.1, hc.2⟩
    rw [List.getD_eq_getElem _ _ hk]
    exact List.getElem_mem _
  have hnew : (pm1.frames_.getD j {}).pid = pid ∧ (pm1.frames_.getD j {}).vpn = vpn := by
    rw [hset, getD_set_self _ hj]; exact ⟨rfl, rfl⟩
  intro i k hi hk hoi hok hpid hvpn
  have hlen : pm1.frames_.length = pm.frames_.length := by rw [hset, List.length_set]
  rw [hlen] at hi hk
  by_cases hij : i = j
  · by_cases hkj : k = j
    · rw [hij, hkj]
    · exfalso
      apply hold k hk hkj hok
      rw [← hpid, ← hvpn, hij]; exact hnew
  · by_cases hkj : k = j
    · exfalso
      apply hold i hi hij hoi
      rw [hpid, hvpn, hkj]; exact hnew
    · have e1 : pm1.frames_.getD i {} = pm.frames_.getD i {} := by
        rw [hset, getD_set_ne _ (Ne.symm hij)]
      have e2 : pm1.frames_.getD k {} = pm.frames_.getD k {} := by
        rw [hset, getD_set_ne _ (Ne.symm hkj)]
      rw [e1] at hoi hpid hvpn
      rw [e2] at hok hpid hvpn
      exact h i k hi hk hoi hok hpid hvpn

theorem reachableFresh_inv {m : MMU} (h : m.ReachableFresh) :
    m.pmem_.frames_.length ≤ 2 ^ 31 ∧ m.pmem_.UniqueOccupants := by
  induction h with
  | init n ps ts hN =>
    refine ⟨by simpa [MMU.mk0, PhysicalMemory.mk0] using hN, ?_⟩
    intro i k hi _ hoi
    simp only [MMU.mk0, PhysicalMemory.mk0, List.length_replicate] at hi
    simp [MMU.mk0, PhysicalMemory.mk0, List.getD_eq_getElem?_getD, List.getElem?_replicate, hi] at hoi
  | register_process pid hb hs _ ih => rw [register_process_frame]; exact ih
  | unregister_process pid _ ih => rw [unregister_process_frame]; exact ih
  | access pid vaddr _ ih => rw [(access_frame _ pid vaddr).1]; exact ih
  | complete_pagein pid vpn now hfresh _ ih =>
    rcases complete_pagein_pmem _ pid vpn now with heq | ⟨res, pm1, ha, heq⟩
    · rw [heq]; exact ih
    · rw [heq]
      exact ⟨by rw [allocate_length ih.1 ha]; exact ih.1, UniqueOccupants_allocate ih.1 ha hfresh ih.2⟩

/-- Claim C7, amended: in every state reachable from the initial MMU/frame-table state by
`register_process`, `unregister_process`, `access` and `complete_pagein` calls in which
`complete_pagein(pid, vpn, now)` is only called while no occupied frame carries
`(pid, vpn)`, no two distinct occupied frames carry the same `(pid, vpn)` pair. -/
theorem C7_unique_occupants_when_fresh (m : MMU) (hreach : m.ReachableFresh) :
    m.pmem_.UniqueOccupants :=
  (reachableFresh_inv hreach).2

/-- Witness of C7 (amended): one page-in of `(1, 5)` on a fresh table of two frames. -/
theorem C7_witness :
    (((MMU.mk0 2 4096 4).register_process 1 0 0).2.complete_pagein 1 5 0).2.ReachableFresh ∧
    (((MMU.mk0 2 4096 4).register_process 1 0 0).2.complete_pagein 1 5 0).2.pmem_.UniqueOccupants :=
  have hr : (((MMU.mk0 2 4096 4).register_process 1 0 0).2.complete_pagein 1 5 0).2.ReachableFresh :=
    .complete_pagein 1 5 0 (by decide) (.register_process 1 0 0 (.init 2 4096 4 (by decide)))
  ⟨hr, C7_unique_occupants_when_fresh _ hr⟩

/-! ## Claim C8 -/

/-- Claim C8: for every MMU state, registered pid and vaddr (`page_size > 0`), with
`vpn = vaddr / page_size`, `access(pid, vaddr)` leaves the frame table and every page
table unchanged, appends exactly one latency sample, and: if the translation cache holds
`(pid, vpn)` it counts a cache hit, records latency 1, leaves the cache entries alone and
returns `HIT`; otherwise it counts a cache miss and, if the process has a valid mapping
for `vpn`, appends `(pid, vpn, frame_id of that mapping)` to the cache (after dropping
the oldest entry of a full cache), records latency 5 and returns `HIT`; otherwise it
records latency 100, leaves the cache entries alone and returns `PAGE_FAULT`. -/
theorem C8_access_pipeline (m : MMU) (pid vaddr : Nat) (proc : Process)
    (hps : 0 < m.page_size_) (hreg : m.processes_ pid = some proc) :
    (m.access pid vaddr).2.pmem_ = m.pmem_ ∧
    (m.access pid vaddr).2.processes_ = m.processes_ ∧
    (m.tlb_.holds pid (vaddr / m.page_size_) →
      (m.access pid vaddr).1 = .ok .HIT ∧
      (m.access pid vaddr).2.metrics_ =
        { m.metrics_ with tlb_hits_ := (m.metrics_.tlb_hits_ + 1) % 2 ^ 64
                          latencies_ := m.metrics_.latencies_ ++ [1] } ∧
      (m.access pid vaddr).2.tlb_.impl_.entries = m.tlb_.impl_.entries) ∧
    (¬ m.tlb_.holds pid (vaddr / m.page_size_) →
      proc.has_mapping (vaddr / m.page_size_) = true →
      (m.access pid vaddr).1 = .ok .HIT ∧
      (m.access pid vaddr).2.metrics_ =
        { m.metrics_ with tlb_misses_ := (m.metrics_.tlb_misses_ + 1) % 2 ^ 64
                          latencies_ := m.metrics_.latencies_ ++ [5] } ∧
      (m.access pid vaddr).2.tlb_.impl_.entries =
        (if m.tlb_.impl_.entries.length ≥ m.tlb_.impl_.capacity then m.tlb_.impl_.entries.tail
         else m.tlb_.impl_.entries) ++
        [{ pid := pid, vpn := vaddr / m.page_size_,
           frame_id := (proc.get_pte (vaddr / m.page_size_)).frame_id, referenced := false }]) ∧
    (¬ m.tlb_.holds pid (vaddr / m.page_size_) →
      proc.has_mapping (vaddr / m.page_size_) = false →
      (m.access pid vaddr).1 = .ok .PAGE_FAULT ∧
      (m.access pid vaddr).2.metrics_ =
        { m.metrics_ with tlb_misses_ := (m.metrics_.tlb_misses_ + 1) % 2 ^ 64
                          latencies_ := m.metrics_.latencies_ ++ [100] } ∧
      (m.access pid vaddr).2.tlb_.impl_.entries = m.tlb_.impl_.entries) := by
  have _ := hps
  refine ⟨(access_frame m pid vaddr).1, (access_frame m pid vaddr).2.1, ?_, ?_, ?_⟩
  · intro hh
    rw [access_of_holds hreg hh]
    exact ⟨rfl, rfl, (TLB.lookup_entries _ _ _).1⟩
  · intro hh hm
    rw [access_of_mapped hreg hh hm]
    refine ⟨rfl, rfl, ?_⟩
    have hnone : tlbUpdate m.tlb_.impl_.entries pid (vaddr / m.page_size_)
        (proc.get_pte (vaddr / m.page_size_)).frame_id = none :=
      (tlbUpdate_none_iff _ _ _ _).mpr (fun e he hc => hh ⟨e, he, hc⟩)
    simp only [TLB.insert, TLBImpl.insert, (TLB.lookup_entries _ _ _).1,
      (TLB.lookup_entries _ _ _).2, hnone]
  · intro hh hm
    rw [access_of_unmapped hreg hh hm]
    exact ⟨rfl, rfl, (TLB.lookup_entries _ _ _).1⟩

/-- Witness of C8: in scenario A the cache holds `(1, 1)`, so the access of process 1 to
`0x1000` is a cache hit with latency 1. -/
theorem C8_witness :
    0 < exScenarioA.page_size_ ∧
    exScenarioA.processes_ 1 = some ((Process.mk0 1 0x1000 0x8000).map_page 1 0) ∧
    exScenarioA.tlb_.holds 1 (0x1000 / exScenarioA.page_size_) ∧
    (exScenarioA.access 1 0x1000).1 = .ok .HIT ∧
    (exScenarioA.access 1 0x1000).2.metrics_.latencies_ = [1] :=
  have h := C8_access_pipeline exScenarioA 1 0x1000 ((Process.mk0 1 0x1000 0x8000).map_page 1 0)
    (by decide) rfl
  ⟨by decide, rfl, by decide, (h.2.2.1 (by decide)).1, by decide⟩

/-! ## Claims C9 and C10 -/

/-- Claim C9, evaluated at its failing input: on the 64 KiB heap at `0x10000`,
`alloc(2^64 - 1)` succeeds with a block of size `align_up(2^64 - 1) = 0` at `0x10000`
(the addition in `align_up` wraps), and `free(0x10000)` of that allocated address then
overwrites the free block `{0x10000, 65536}` by `{0x10000, 0}`.  The state is reachable
by `alloc` and `free` of an allocated address, no block contains the address `0x10000`
of the heap range, and the partition invariant fails. -/
theorem C9_partition_broken_by_wrapped_alloc :
    align_up (2 ^ 64 - 1) = 0 ∧
    ((HeapAllocator.mk0 0x10000 0x10000).alloc (2 ^ 64 - 1)).1 = some 0x10000 ∧
    exHeapWrapped.allocated_blocks_ = [{ start := 0x10000, size := 0 }] ∧
    (exHeapWrapped.free 0x10000).1 = .ok () ∧
    HeapAllocator.Reachable 0x10000 0x10000 (exHeapWrapped.free 0x10000).2 ∧
    (exHeapWrapped.free 0x10000).2.free_blocks_ = [{ start := 0x10000, size := 0 }] ∧
    (exHeapWrapped.free 0x10000).2.allocated_blocks_ = [] ∧
    ¬ (exHeapWrapped.free 0x10000).2.covers 0x10000 ∧
    ¬ (exHeapWrapped.free 0x10000).2.PartitionInv := by
  refine ⟨by decide, by decide, by decide, by decide, ?_, by decide, by decide, by decide, ?_⟩
  · exact .free 0x10000 (by decide) (.alloc (2 ^ 64 - 1) (by decide) .init)
  · intro h
    exact absurd (h.2.1 0x10000 (by decide) (by decide)) (by decide)

/-- Claim C10, evaluated at its failing input: on a fresh 64 KiB heap at `0x10000` the
pair-matched sequence `alloc(2^64 - 1)` (which returns `0x10000`), `free(0x10000)` ends
with `allocated_blocks_` empty but with `free_blocks_` holding the single block
`{0x10000, 0}` instead of the whole heap `{0x10000, 65536}`. -/
theorem C10_pair_matched_sequence_loses_heap :
    ((HeapAllocator.mk0 0x10000 0x10000).alloc (2 ^ 64 - 1)).1 = some 0x10000 ∧
    ((((HeapAllocator.mk0 0x10000 0x10000).alloc (2 ^ 64 - 1)).2).free 0x10000).1 = .ok () ∧
    ((((HeapAllocator.mk0 0x10000 0x10000).alloc (2 ^ 64 - 1)).2).free 0x10000).2.allocated_blocks_
      = [] ∧
    ((((HeapAllocator.mk0 0x10000 0x10000).alloc (2 ^ 64 - 1)).2).free 0x10000).2.free_blocks_
      = [{ start := 0x10000, size := 0 }] ∧
    ((((HeapAllocator.mk0 0x10000 0x10000).alloc (2 ^ 64 - 1)).2).free 0x10000).2.free_blocks_
      ≠ [{ start := 0x10000, size := 0x10000 }] := by
  decide

/-! ## Heap allocator lemmas -/

/-- Clearing the three low bits of a 64-bit value rounds it down to a multiple of 8. -/
theorem and_mask_eq {x : Nat} (hx : x < 2 ^ 64) : x &&& (2 ^ 64 - 1 - 7) = x / 8 * 8 := by
  apply Nat.eq_of_testBit_eq
  intro i
  have hm : (2 ^ 64 - 1 - 7 : Nat) = 2 ^ 3 * (2 ^ 61 - 1) := by norm_num
  have hd : x / 8 * 8 = 2 ^ 3 * (x / 2 ^ 3) := by rw [Nat.mul_comm]; norm_num
  rw [Nat.testBit_and, hm, hd, Nat.testBit_mul_pow_two, Nat.testBit_mul_pow_two,
    Nat.testBit_two_pow_sub_one, ← Nat.shiftRight_eq_div_pow, Nat.testBit_shiftRight]
  by_cases h3 : 3 ≤ i
  · have e : 3 + (i - 3) = i := by omega
    rw [e]
    by_cases h64 : i < 64
    · have : i - 3 < 61 := by omega
      simp [h3, this]
    · have hlt : x < 2 ^ i := lt_of_lt_of_le hx (Nat.pow_le_pow_right (by norm_num) (by omega))
      simp [Nat.testBit_lt_two_pow hlt]
  · simp [h3]

/-- Without wrap-around, `align_up` rounds up to the next multiple of 8. -/
theorem align_up_eq {n : Nat} (hn : n + 7 < 2 ^ 64) : align_up n = (n + 7) / 8 * 8 := by
  unfold align_up ALIGNMENT
  have e : n + 8 - 1 = n + 7 := by omega
  rw [e, Nat.mod_eq_of_lt hn]
  exact and_mask_eq hn

theorem align_up_bounds {n : Nat} (hn : n + 7 < 2 ^ 64) :
    n ≤ align_up n ∧ align_up n < n + 8 ∧ align_up n % 8 = 0 := by
  rw [align_up_eq hn]
  omega

theorem align_up_aligned {n : Nat} (hn : n + 7 < 2 ^ 64) (h8 : n % 8 = 0) : align_up n = n := by
  rw [align_up_eq hn]
  omega

theorem mapFind_mapInsert (m : List Block) (b : Block) :
    mapFind (mapInsert m b) b.start = some b := by
  induction m with
  | nil => simp [mapInsert, mapFind]
  | cons c cs ih =>
    unfold mapInsert
    by_cases h1 : b.start < c.start
    · simp [h1, mapFind]
    · by_cases h2 : b.start = c.start
      · simp [h1, h2, mapFind]
      · simp only [h1, h2, if_false]
        unfold mapFind at ih ⊢
        rw [List.find?_cons]
        have : (c.start == b.start) = false := by simpa using fun hc => h2 hc.symm
        rw [this]
        exact ih

theorem mapFind_eq_none_iff (m : List Block) (key : Nat) :
    mapFind m key = none ↔ ∀ b ∈ m, b.start ≠ key := by
  unfold mapFind
  rw [List.find?_eq_none]
  simp

theorem mapErase_eq_erase {m : List Block} {b : Block}
    (hs : m.Pairwise (fun a c => a.start < c.start)) (hb : b ∈ m) :
    mapErase m b.start = m.erase b := by
  induction m with
  | nil => cases hb
  | cons c cs ih =>
    rw [List.pairwise_cons] at hs
    unfold mapErase
    by_cases hcb : c = b
    · subst hcb
      rw [List.erase_cons_head, List.filter_cons]
      simp only [bne_self_eq_false, Bool.false_eq_true, if_false]
      rw [List.filter_eq_self]
      intro x hx
      have := hs.1 x hx
      simp only [bne_iff_ne, ne_eq]
      omega
    · have hb1 : b ∈ cs := by
        rcases List.mem_cons.mp hb with h | h
        · exact absurd h.symm hcb
        · exact h
      have hlt := hs.1 b hb1
      rw [List.erase_cons_tail (by simpa using hcb), List.filter_cons]
      have : (c.start != b.start) = true := by simp only [bne_iff_ne, ne_eq]; omega
      rw [this, if_pos rfl]
      congr 1
      exact ih hs.2 hb1

/-- In a map (ascending starts), the block `find?` returns for the fit test is the
lowest-address block that fits. -/
theorem find_fit_iff {m : List Block} (hs : m.Pairwise (fun a c => a.start < c.start))
    (a : Nat) (b : Block) :
    m.find? (fun x => decide (x.size ≥ a)) = some b ↔
      b ∈ m ∧ a ≤ b.size ∧ ∀ c ∈ m, a ≤ c.size → b.start ≤ c.start := by
  induction m with
  | nil => simp
  | cons c cs ih =>
    rw [List.pairwise_cons] at hs
    rw [List.find?_cons]
    by_cases hc : a ≤ c.size
    · have : decide (c.size ≥ a) = true := by simpa using hc
      rw [this]
      simp only [Option.some.injEq]
      constructor
      · rintro rfl
        refine ⟨List.mem_cons_self _ _, hc, ?_⟩
        intro x hx _
        rcases List.mem_cons.mp hx with rfl | hx
        · exact le_refl _
        · exact le_of_lt (hs.1 x hx)
      · rintro ⟨hb, _, hmin⟩
        rcases List.mem_cons.mp hb with rfl | hb
        · rfl
        · have h1 := hs.1 b hb
          have h2 := hmin c (List.mem_cons_self _ _) hc
          omega
    · have : decide (c.size ≥ a) = false := by simpa using hc
      rw [this]
      simp only
      rw [ih hs.2]
      constructor
      · rintro ⟨hb, hab, hmin⟩
        refine ⟨List.mem_cons_of_mem _ hb, hab, ?_⟩
        intro x hx hax
        rcases List.mem_cons.mp hx with rfl | hx
        · exact absurd hax hc
        · exact hmin x hx hax
      · rintro ⟨hb, hab, hmin⟩
        rcases List.mem_cons.mp hb with rfl | hb
        · exact absurd hab hc
        · exact ⟨hb, hab, fun x hx hax => hmin x (List.mem_cons_of_mem _ hx) hax⟩

/-- The state `alloc` leaves when it takes the free block `b`. -/
theorem alloc_of_find {h : HeapAllocator} {size : Nat} {b : Block} (hpos : size ≠ 0)
    (hf : h.free_blocks_.find? (fun x => decide (x.size ≥ align_up size)) = some b) :
    h.alloc size =
      (some b.start,
        { h with
          free_blocks_ :=
            if b.size > align_up size then
              mapInsert (mapErase h.free_blocks_ b.start)
                { start := (b.start + align_up size) % 2 ^ 64, size := b.size - align_up size }
            else mapErase h.free_blocks_ b.start
          allocated_blocks_ :=
            mapInsert h.allocated_blocks_ { start := b.start, size := align_up size }
          allocated_bytes_ := (h.allocated_bytes_ + align_up size) % 2 ^ 64
          internal_frag_bytes_ :=
            (h.internal_frag_bytes_ + (align_up size + 2 ^ 64 - size) % 2 ^ 64) % 2 ^ 64 }) := by
  unfold HeapAllocator.alloc
  rw [if_neg hpos]
  simp only [hf]

theorem alloc_none_iff (h : HeapAllocator) {size : Nat} (hpos : size ≠ 0) :
    (h.alloc size).1 = none ↔ ∀ b ∈ h.free_blocks_, b.size < align_up size := by
  unfold HeapAllocator.alloc
  rw [if_neg hpos]
  cases hf : h.free_blocks_.find? (fun x => decide (x.size ≥ align_up size)) with
  | none =>
    simp only [hf, true_iff]
    intro b hb
    have := List.find?_eq_none.mp hf b hb
    simpa using this
  | some b =>
    simp only [hf]
    refine ⟨fun hc => (nomatch hc), fun hall => ?_⟩
    exfalso
    have h1 := List.find?_some hf
    have h2 := hall b (List.mem_of_find?_eq_some hf)
    simp only [ge_iff_le, decide_eq_true_eq] at h1
    omega

theorem alloc_none_state (h : HeapAllocator) (size : Nat) (hn : (h.alloc size).1 = none) :
    (h.alloc size).2 = h := by
  unfold HeapAllocator.alloc at hn ⊢
  by_cases h0 : size = 0
  · simp [h0]
  · rw [if_neg h0] at hn ⊢
    cases hf : h.free_blocks_.find? (fun x => decide (x.size ≥ align_up size)) with
    | none => simp only [hf]
    | some b => simp [hf] at hn

/-- The block a successful `alloc(size)` records under the returned address. -/
theorem alloc_some_block {h : HeapAllocator} {size addr : Nat}
    (hs : (h.alloc size).1 = some addr) :
    mapFind (h.alloc size).2.allocated_blocks_ addr = some { start := addr, size := align_up size } ∧
    (h.alloc size).2.internal_frag_bytes_ =
      (h.internal_frag_bytes_ + (align_up size + 2 ^ 64 - size) % 2 ^ 64) % 2 ^ 64 := by
  by_cases h0 : size = 0
  · simp [HeapAllocator.alloc, h0] at hs
  · cases hf : h.free_blocks_.find? (fun x => decide (x.size ≥ align_up size)) with
    | none =>
      have : (h.alloc size).1 = none := by
        unfold HeapAllocator.alloc; rw [if_neg h0]; simp only [hf]
      rw [this] at hs; cases hs
    | some b =>
      rw [alloc_of_find h0 hf] at hs ⊢
      simp only [Option.some.injEq] at hs
      subst hs
      exact ⟨mapFind_mapInsert _ _, rfl⟩

/-- The counter `internal_frag_bytes_` after `free(addr)` of a block of aligned size: unchanged. -/
theorem free_internal_frag {h : HeapAllocator} {addr : Nat} {blk : Block}
    (hf : mapFind h.allocated_blocks_ addr = some blk) (hsz : blk.size + 7 < 2 ^ 64)
    (h8 : blk.size % 8 = 0) (hlt : h.internal_frag_bytes_ < 2 ^ 64) :
    (h.free addr).2.internal_frag_bytes_ = h.internal_frag_bytes_ := by
  unfold HeapAllocator.free
  simp only [hf]
  rw [align_up_aligned hsz h8]
  have e : (blk.size + 2 ^ 64 - blk.size) % 2 ^ 64 = 0 := by
    have : blk.size + 2 ^ 64 - blk.size = 2 ^ 64 := by omega
    rw [this]; norm_num
  rw [e]
  have e2 : h.internal_frag_bytes_ + 2 ^ 64 - 0 = h.internal_frag_bytes_ + 2 ^ 64 := by omega
  rw [e2, Nat.add_mod_right, Nat.mod_eq_of_lt hlt]

/-- After a successful `alloc(size)` (no wrap in `align_up`), `free` of the returned address
leaves `internal_frag_bytes_` at its value after the `alloc`: the `alloc` increment
`align_up(size) - size` is never taken back. -/
theorem free_after_alloc_internal_frag (h : HeapAllocator) (size addr : Nat)
    (hsize : size + 7 < 2 ^ 64) (hs : (h.alloc size).1 = some addr) :
    ((h.alloc size).2.free addr).2.internal_frag_bytes_ =
      (h.internal_frag_bytes_ + (align_up size - size)) % 2 ^ 64 := by
  obtain ⟨hblk, hfrag⟩ := alloc_some_block hs
  obtain ⟨hb1, hb2, hb3⟩ := align_up_bounds hsize
  have hfr : (align_up size + 2 ^ 64 - size) % 2 ^ 64 = align_up size - size := by
    have : align_up size + 2 ^ 64 - size = (align_up size - size) + 2 ^ 64 := by omega
    rw [this, Nat.add_mod_right, Nat.mod_eq_of_lt (by omega)]
  rw [free_internal_frag hblk (by simp only; omega) hb3
    (by rw [hfrag]; exact Nat.mod_lt _ (by norm_num)), hfrag, hfr]

/-! ## The free map stays a map -/

theorem mem_mapInsert {m : List Block} {b x : Block} (h : x ∈ mapInsert m b) :
    x = b ∨ x ∈ m := by
  induction m with
  | nil => simp [mapInsert] at h; exact Or.inl h
  | cons c cs ih =>
    unfold mapInsert at h
    by_cases h1 : b.start < c.start
    · rw [if_pos h1] at h
      rcases List.mem_cons.mp h with h | h
      · exact Or.inl h
      · exact Or.inr h
    · rw [if_neg h1] at h
      by_cases h2 : b.start = c.start
      · rw [if_pos h2] at h
        rcases List.mem_cons.mp h with h | h
        · exact Or.inl h
        · exact Or.inr (List.mem_cons_of_mem _ h)
      · rw [if_neg h2] at h
        rcases List.mem_cons.mp h with h | h
        · exact Or.inr (h ▸ List.mem_cons_self _ _)
        · rcases ih h with h | h
          · exact Or.inl h
          · exact Or.inr (List.mem_cons_of_mem _ h)

theorem mapInsert_sorted {m : List Block} (b : Block)
    (hs : m.Pairwise (fun a c => a.start < c.start)) :
    (mapInsert m b).Pairwise (fun a c => a.start < c.start) := by
  induction m with
  | nil => simp [mapInsert]
  | cons c cs ih =>
    rw [List.pairwise_cons] at hs
    unfold mapInsert
    by_cases h1 : b.start < c.start
    · rw [if_pos h1, List.pairwise_cons]
      refine ⟨?_, List.pairwise_cons.mpr hs⟩
      intro x hx
      rcases List.mem_cons.mp hx with rfl | hx
      · exact h1
      · exact lt_trans h1 (hs.1 x hx)
    · rw [if_neg h1]
      by_cases h2 : b.start = c.start
      · rw [if_pos h2, List.pairwise_cons]
        exact ⟨fun x hx => h2 ▸ hs.1 x hx, hs.2⟩
      · rw [if_neg h2, List.pairwise_cons]
        refine ⟨?_, ih hs.2⟩
        intro x hx
        rcases mem_mapInsert hx with rfl | hx
        · omega
        · exact hs.1 x hx

theorem mapErase_sorted {m : List Block} (key : Nat)
    (hs : m.Pairwise (fun a c => a.start < c.start)) :
    (mapErase m key).Pairwise (fun a c => a.start < c.start) :=
  hs.sublist (List.filter_sublist _)

theorem alloc_free_sorted (h : HeapAllocator) (size : Nat)
    (hs : h.free_blocks_.Pairwise (fun a c => a.start < c.start)) :
    (h.alloc size).2.free_blocks_.Pairwise (fun a c => a.start < c.start) := by
  unfold HeapAllocator.alloc
  by_cases h0 : size = 0
  · rw [if_pos h0]; exact hs
  · rw [if_neg h0]
    cases hf : h.free_blocks_.find? (fun x => decide (x.size ≥ align_up size)) with
    | none => simp only [hf]; exact hs
    | some b =>
      simp only [hf]
      by_cases hgt : b.size > align_up size
      · rw [if_pos hgt]; exact mapInsert_sorted _ (mapErase_sorted _ hs)
      · rw [if_neg hgt]; exact mapErase_sorted _ hs

theorem free_free_sorted (h : HeapAllocator) (addr : Nat)
    (hs : h.free_blocks_.Pairwise (fun a c => a.start < c.start)) :
    (h.free addr).2.free_blocks_.Pairwise (fun a c => a.start < c.start) := by
  unfold HeapAllocator.free
  cases hf : mapFind h.allocated_blocks_ addr with
  | none => exact hs
  | some blk =>
    simp only
    have h1 := mapInsert_sorted blk hs
    have h2 : (coalescePrev (mapInsert h.free_blocks_ blk) blk).1.Pairwise
        (fun a c => a.start < c.start) := by
      unfold coalescePrev
      cases mapPrev (mapInsert h.free_blocks_ blk) blk.start with
      | none => exact h1
      | some prev =>
        simp only
        split
        · exact mapErase_sorted _ (mapInsert_sorted _ h1)
        · exact h1
    unfold coalesceNext
    cases mapNext (coalescePrev (mapInsert h.free_blocks_ blk) blk).1
        (coalescePrev (mapInsert h.free_blocks_ blk) blk).2.start with
    | none => exact h2
    | some next =>
      simp only
      split
      · exact mapErase_sorted _ (mapInsert_sorted _ h2)
      · exact h2

/-- In every allocator state reachable from the constructor, `free_blocks_` lists its
blocks in ascending order of distinct starts, as the `std::map` it stands for does. -/
theorem reachable_free_sorted {heap_base heap_size : Nat} {h : HeapAllocator}
    (hr : HeapAllocator.Reachable heap_base heap_size h) :
    h.free_blocks_.Pairwise (fun a c => a.start < c.start) := by
  induction hr with
  | init => simp [HeapAllocator.mk0, mapInsert]
  | alloc size _ _ ih => exact alloc_free_sorted _ size ih
  | free addr _ _ ih => exact free_free_sorted _ addr ih

/-! ## Claims C11 to C14 -/

/-- Claim C11, evaluated at its failing input (scenario C, 64 KiB heap at `0x10000`):
`alloc(100)` returns `A = 0x10000` and raises the internal-fragmentation counter from 0
to 4; `free(A)` right after it leaves the counter at 4 instead of restoring 0; and after
the whole sequence `alloc(100)`, `alloc(200)`, `free(A)`, `free(B)` the heap is one free
block again but the counter is 4, not 0.  (`free` subtracts
`blk.size - align_up(blk.size)`, which is 0 for the aligned size stored in the block.) -/
theorem C11_free_keeps_internal_fragmentation :
    exHeapC0.internal_frag_bytes_ = 0 ∧
    (exHeapC0.alloc 100).1 = some 0x10000 ∧ exHeapC1.internal_frag_bytes_ = 4 ∧
    (exHeapC1.free 0x10000).1 = .ok () ∧ (exHeapC1.free 0x10000).2.internal_frag_bytes_ = 4 ∧
    (exHeapC1.alloc 200).1 = some 0x10068 ∧ exHeapC2.internal_frag_bytes_ = 4 ∧
    (exHeapC2.free 0x10000).1 = .ok () ∧ (exHeapC3.free 0x10068).1 = .ok () ∧
    exHeapC4.free_blocks_ = [{ start := 0x10000, size := 0x10000 }] ∧
    exHeapC4.allocated_blocks_ = [] ∧
    exHeapC4.internal_frag_bytes_ = 4 := by
  decide

/-- Claim C12: `alloc` is first-fit.  For every heap state whose free map is a map (blocks
in ascending order of distinct starts) and every `size > 0`, with `aligned = align_up(size)`:
`alloc(size)` returns absence iff no free block has `size ≥ aligned`; if it returns an
address, some free block fits; and for the lowest-address free block `b` that fits,
`alloc(size)` returns `b.start` and the new state is the old one with `b` removed from
`free_blocks`, the residual `{b.start + aligned, b.size - aligned}` assigned into it when
`b.size > aligned`, `{b.start, aligned}` assigned into `allocated_blocks`,
`allocated_bytes` increased by `aligned` and `internal_frag_bytes` increased by
`aligned - size` (all in 64-bit arithmetic). -/
theorem C12_alloc_first_fit (h : HeapAllocator) (size : Nat) (hpos : 0 < size)
    (hmap : h.free_blocks_.Pairwise (fun a c => a.start < c.start)) :
    ((h.alloc size).1 = none ↔ ∀ b ∈ h.free_blocks_, b.size < align_up size) ∧
    ((h.alloc size).1 ≠ none →
      ∃ b ∈ h.free_blocks_, align_up size ≤ b.size ∧
        ∀ c ∈ h.free_blocks_, align_up size ≤ c.size → b.start ≤ c.start) ∧
    (∀ b ∈ h.free_blocks_, align_up size ≤ b.size →
      (∀ c ∈ h.free_blocks_, align_up size ≤ c.size → b.start ≤ c.start) →
      h.alloc size =
        (some b.start,
          { h with
            free_blocks_ :=
              if b.size > align_up size then
                mapInsert (h.free_blocks_.erase b)
                  { start := (b.start + align_up size) % 2 ^ 64, size := b.size - align_up size }
              else h.free_blocks_.erase b
            allocated_blocks_ :=
              mapInsert h.allocated_blocks_ { start := b.start, size := align_up size }
            allocated_bytes_ := (h.allocated_bytes_ + align_up size) % 2 ^ 64
            internal_frag_bytes_ :=
              (h.internal_frag_bytes_ + (align_up size + 2 ^ 64 - size) % 2 ^ 64) % 2 ^ 64 })) := by
  have h0 : size ≠ 0 := by omega
  refine ⟨alloc_none_iff h h0, ?_, ?_⟩
  · intro hne
    cases hf : h.free_blocks_.find? (fun x => decide (x.size ≥ align_up size)) with
    | none =>
      exfalso; apply hne
      unfold HeapAllocator.alloc; rw [if_neg h0]; simp only [hf]
    | some b =>
      obtain ⟨h1, h2, h3⟩ := (find_fit_iff hmap _ _).mp hf
      exact ⟨b, h1, h2, h3⟩
  · intro b hb hfit hlow
    have hf := (find_fit_iff hmap (align_up size) b).mpr ⟨hb, hfit, hlow⟩
    rw [alloc_of_find h0 hf, mapErase_eq_erase hmap hb]

/-- Witness of C12: on `exHeapHoles` (free blocks of sizes 8, 32, 64 at 0, 16, 64),
`alloc(20)` needs 24 bytes, skips the block at 0 and takes the block at 16, leaving the
residual `{40, 8}`. -/
theorem C12_witness :
    (0 : Nat) < 20 ∧
    exHeapHoles.free_blocks_.Pairwise (fun a c => a.start < c.start) ∧
    align_up 20 = 24 ∧
    exHeapHoles.alloc 20 =
      (some 16,
        { exHeapHoles with
          free_blocks_ := [{ start := 0, size := 8 }, { start := 40, size := 8 },
                           { start := 64, size := 64 }]
          allocated_blocks_ := [{ start := 8, size := 8 }, { start := 16, size := 24 },
                                { start := 48, size := 16 }]
          allocated_bytes_ := 48
          internal_frag_bytes_ := 4 }) :=
  have hmap : exHeapHoles.free_blocks_.Pairwise (fun a c => a.start < c.start) := by decide
  have h := (C12_alloc_first_fit exHeapHoles 20 (by decide) hmap).2.2
    { start := 16, size := 32 } (by decide) (by decide) (by decide)
  ⟨by decide, hmap, by decide, h.trans (by decide)⟩

/-- Claim C13, evaluated at its failing input: on the 64 KiB heap at `0x10000`,
`alloc(2^64 - 1)` succeeds with address `0x10000`, and `allocated_blocks` maps that
address to a block of size `align_up(2^64 - 1) = 0`, smaller than the requested
`2^64 - 1` bytes; the amount added to the internal-fragmentation counter is
`0 - (2^64 - 1) = 1` in 64-bit arithmetic. -/
theorem C13_wrapped_alloc_block_too_small :
    (0 : Nat) < 2 ^ 64 - 1 ∧ (2 ^ 64 - 1 : Nat) < 2 ^ 64 ∧
    align_up (2 ^ 64 - 1) = 0 ∧
    (exHeapC0.alloc (2 ^ 64 - 1)).1 = some 0x10000 ∧
    mapFind (exHeapC0.alloc (2 ^ 64 - 1)).2.allocated_blocks_ 0x10000
      = some { start := 0x10000, size := 0 } ∧
    ¬ ((2 ^ 64 - 1 : Nat) ≤ 0) ∧
    (exHeapC0.alloc (2 ^ 64 - 1)).2.internal_frag_bytes_ = 1 := by
  decide

/-- The positive part of claim C13: for every heap state and every `size` with
`size + 7 < 2^64` (no wrap in `align_up`), a successful `alloc(size)` records under the
returned address a block whose size is at least `size`, a multiple of 8 and less than
`size + 8`. -/
theorem alloc_block_bounds (h : HeapAllocator) (size addr : Nat) (hsize : size + 7 < 2 ^ 64)
    (hs : (h.alloc size).1 = some addr) :
    ∃ blk, mapFind (h.alloc size).2.allocated_blocks_ addr = some blk ∧ blk.start = addr ∧
      size ≤ blk.size ∧ blk.size % 8 = 0 ∧ blk.size < size + 8 := by
  obtain ⟨hb1, hb2, hb3⟩ := align_up_bounds hsize
  exact ⟨_, (alloc_some_block hs).1, rfl, hb1, hb3, hb2⟩

/-- Claim C14: failed heap operations are atomic.  `alloc(0)` returns absence and leaves
the state as it is; every `alloc` that returns absence leaves the whole allocator state
(so `free_blocks`, `allocated_blocks`, `allocated_bytes`, `internal_frag_bytes`)
unchanged; `free(addr)` for an `addr` that is not a key of `allocated_blocks` fails with
the invalid-free error and leaves the whole allocator state unchanged. -/
theorem C14_failed_heap_ops_atomic (h : HeapAllocator) :
    h.alloc 0 = (none, h) ∧
    (∀ size, (h.alloc size).1 = none → (h.alloc size).2 = h) ∧
    (∀ addr, (∀ b ∈ h.allocated_blocks_, b.start ≠ addr) →
      h.free addr = (.error .heapInvalidFree, h)) := by
  refine ⟨by simp [HeapAllocator.alloc], alloc_none_state h, ?_⟩
  intro addr hkey
  unfold HeapAllocator.free
  rw [(mapFind_eq_none_iff _ _).mpr hkey]

/-- Witness of C14: on `exHeapHoles`, `alloc(100)` finds no block of 104 bytes and
`free(3)` names no allocated block; both leave the state unchanged. -/
theorem C14_witness :
    exHeapHoles.alloc 0 = (none, exHeapHoles) ∧
    (exHeapHoles.alloc 100).1 = none ∧ (exHeapHoles.alloc 100).2 = exHeapHoles ∧
    (∀ b ∈ exHeapHoles.allocated_blocks_, b.start ≠ 3) ∧
    exHeapHoles.free 3 = (.error .heapInvalidFree, exHeapHoles) :=
  have h := C14_failed_heap_ops_atomic exHeapHoles
  ⟨h.1, by decide, h.2.1 100 (by decide), by decide, h.2.2 3 (by decide)⟩

/-! ## Frame selection -/

/-- What `find_lru_frame`'s loop returns: the running `lru` when no occupied frame is
older than `oldest`, else the first index among the occupied frames of least time stamp. -/
theorem findLruFrom_min (fs : List Frame) (i : Nat) (lru : Int) (oldest : Nat)
    (h : i + fs.length ≤ 2 ^ 31) :
    (findLruFrom fs i lru oldest = lru ∧
      ∀ k < fs.length, (fs.getD k {}).occupied = true → oldest ≤ (fs.getD k {}).last_used) ∨
    ∃ j, j < fs.length ∧ findLruFrom fs i lru oldest = ((i + j : Nat) : Int) ∧
      (fs.getD j {}).occupied = true ∧ (fs.getD j {}).last_used < oldest ∧
      (∀ k < fs.length, (fs.getD k {}).occupied = true →
        (fs.getD j {}).last_used ≤ (fs.getD k {}).last_used) ∧
      (∀ k < j, (fs.getD k {}).occupied = true →
        (fs.getD j {}).last_used < (fs.getD k {}).last_used) := by
  induction fs generalizing i lru oldest with
  | nil => left; exact ⟨rfl, fun k hk => absurd hk (by simp)⟩
  | cons f fs ih =>
    simp only [List.length_cons] at h
    by_cases hc : (f.occupied && decide (f.last_used < oldest)) = true
    · have hstep : findLruFrom (f :: fs) i lru oldest
          = findLruFrom fs (i + 1) (toInt32 i) f.last_used := by
        simp only [findLruFrom, hc, if_true]
      simp only [Bool.and_eq_true, decide_eq_true_eq] at hc
      right
      rcases ih (i + 1) (toInt32 i) f.last_used (by omega) with ⟨h1, h2⟩ | ⟨j, hj, h1, h2, h3, h4, h5⟩
      · refine ⟨0, by simp, ?_, by simpa using hc.1, by simpa using hc.2, ?_, ?_⟩
        · rw [hstep, h1, toInt32_of_lt (by omega)]; simp
        · intro k hk hocc
          cases k with
          | zero => simp
          | succ k =>
            simp only [List.length_cons] at hk
            simpa using h2 k (by omega) (by simpa using hocc)
        · intro k hk; omega
      · refine ⟨j + 1, by simp; omega, ?_, by simpa using h2, ?_, ?_, ?_⟩
        · rw [hstep, h1]; congr 1; omega
        · have : (fs.getD j {}).last_used < oldest := lt_trans h3 hc.2
          simpa using this
        · intro k hk hocc
          cases k with
          | zero => simpa using le_of_lt h3
          | succ k =>
            simp only [List.length_cons] at hk
            simpa using h4 k (by omega) (by simpa using hocc)
        · intro k hk hocc
          cases k with
          | zero => simpa using h3
          | succ k => simpa using h5 k (by omega) (by simpa using hocc)
    · have hstep : findLruFrom (f :: fs) i lru oldest = findLruFrom fs (i + 1) lru oldest := by
        simp only [findLruFrom, hc]; simp
      have hf : f.occupied = true → oldest ≤ f.last_used := by
        intro ho
        simp only [ho, Bool.true_and, decide_eq_true_eq, not_lt] at hc
        exact hc
      rcases ih (i + 1) lru oldest (by omega) with ⟨h1, h2⟩ | ⟨j, hj, h1, h2, h3, h4, h5⟩
      · left
        refine ⟨by rw [hstep, h1], ?_⟩
        intro k hk hocc
        cases k with
        | zero => simpa using hf (by simpa using hocc)
        | succ k =>
          simp only [List.length_cons] at hk
          simpa using h2 k (by omega) (by simpa using hocc)
      · right
        refine ⟨j + 1, by simp; omega, ?_, by simpa using h2, by simpa using h3, ?_, ?_⟩
        · rw [hstep, h1]; congr 1; omega
        · intro k hk hocc
          cases k with
          | zero =>
            have := hf (by simpa using hocc)
            simp only [List.getD_cons_zero, List.getD_cons_succ]
            omega
          | succ k =>
            simp only [List.length_cons] at hk
            simpa using h4 k (by omega) (by simpa using hocc)
        · intro k hk hocc
          cases k with
          | zero =>
            have := hf (by simpa using hocc)
            simp only [List.getD_cons_zero, List.getD_cons_succ]
            omega
          | succ k => simpa using h5 k (by omega) (by simpa using hocc)

theorem mem_getD {fs : List Frame} {k : Nat} (hk : k < fs.length) : fs.getD k {} ∈ fs := by
  rw [List.getD_eq_getElem _ _ hk]
  exact List.getElem_mem _

/-- The free-frame path of `allocate`. -/
theorem allocate_free_frame {pm : PhysicalMemory} (pid vpn now : Nat) {j : Nat}
    (hN : pm.frames_.length ≤ 2 ^ 31) (hj : j < pm.frames_.length)
    (hfree : (pm.frames_.getD j {}).occupied = false)
    (hbefore : ∀ k < j, (pm.frames_.getD k {}).occupied = true) :
    pm.allocate pid vpn now =
      .ok ({ frame_id := (j : Int), evicted := false, evicted_pid := 0, evicted_vpn := 0 },
           { frames_ := pm.frames_.set j
               { occupied := true, pid := pid, vpn := vpn, last_used := now } }) := by
  have hff : pm.find_free_frame = (j : Int) := by
    rcases findFreeFrom_spec pm.frames_ 0 (by omega) with ⟨_, hall⟩ | ⟨j1, hj1, h1, h2, h3⟩
    · have := hall _ (mem_getD hj)
      rw [hfree] at this; cases this
    · have : j1 = j := by
        rcases Nat.lt_trichotomy j1 j with hlt | heq | hgt
        · have := hbefore j1 hlt; rw [h2] at this; cases this
        · exact heq
        · have := h3 j hgt; rw [hfree] at this; cases this
      subst this
      have h1' : pm.find_free_frame = ((0 + j1 : Nat) : Int) := h1
      simpa using h1'
  unfold PhysicalMemory.allocate
  simp only
  have hne : ¬ ((j : Int) = -1) := by omega
  rw [hff, if_neg hne, toSize_natCast (by omega)]

/-- The eviction path of `allocate`. -/
theorem allocate_lru_frame {pm : PhysicalMemory} (pid vpn now : Nat) {j : Nat}
    (hN : pm.frames_.length ≤ 2 ^ 31) (hj : j < pm.frames_.length)
    (hall : ∀ k < pm.frames_.length, (pm.frames_.getD k {}).occupied = true)
    (hlt : (pm.frames_.getD j {}).last_used < UINT64_MAX)
    (hmin : ∀ k < pm.frames_.length,
      (pm.frames_.getD j {}).last_used ≤ (pm.frames_.getD k {}).last_used)
    (hfirst : ∀ k < j, (pm.frames_.getD j {}).last_used < (pm.frames_.getD k {}).last_used) :
    pm.allocate pid vpn now =
      .ok ({ frame_id := (j : Int), evicted := true,
             evicted_pid := (pm.frames_.getD j {}).pid, evicted_vpn := (pm.frames_.getD j {}).vpn },
           { frames_ := pm.frames_.set j
               { occupied := true, pid := pid, vpn := vpn, last_used := now } }) := by
  have hff : pm.find_free_frame = -1 := by
    rcases findFreeFrom_spec pm.frames_ 0 (by omega) with ⟨h1, _⟩ | ⟨j1, hj1, _, h2, _⟩
    · exact h1
    · have := hall j1 hj1; rw [h2] at this; cases this
  have hlru : pm.find_lru_frame = (j : Int) := by
    rcases findLruFrom_min pm.frames_ 0 (-1) UINT64_MAX (by omega) with
      ⟨_, h2⟩ | ⟨j1, hj1, h1, _, _, h4, h5⟩
    · have := h2 j hj (hall j hj); omega
    · have : j1 = j := by
        rcases Nat.lt_trichotomy j1 j with hlt1 | heq | hgt
        · have a := hfirst j1 hlt1
          have b := h4 j hj (hall j hj)
          omega
        · exact heq
        · have a := h5 j hgt (hall j hj)
          have b := hmin j1 hj1
          omega
      subst this
      have h1' : pm.find_lru_frame = ((0 + j1 : Nat) : Int) := h1
      simpa using h1'
  unfold PhysicalMemory.allocate
  simp only
  have hne : ¬ ((j : Int) = -1) := by omega
  rw [hff, if_pos rfl, hlru, if_neg hne]
  simp only [PhysicalMemory.frameAt, toSize_natCast (show j < 2 ^ 64 by omega)]

/-! ## Frame selection away from the largest time stamp, and claim C16 -/

/-- Frame selection in `allocate(pid, vpn, now)` on a table of at most `2^31` frames, away
from the largest time stamp.  If some frame is unoccupied, `allocate` returns the
lowest-indexed unoccupied frame `j` with `evicted = false`.  If every frame is occupied
and the minimum `last_used` is below `2^64 - 1`, it returns the frame `j` of minimum
`last_used`, the lowest index among ties, with `evicted = true` and `evicted_pid`,
`evicted_vpn` the previous pid and vpn of that frame.  In both cases the new table is the
old one with frame `j` replaced by `{occupied = true, pid, vpn, last_used = now}`. -/
theorem allocate_frame_selection (pm : PhysicalMemory) (pid vpn now : Nat)
    (hN : pm.frames_.length ≤ 2 ^ 31) :
    (∀ j, j < pm.frames_.length → (pm.frames_.getD j {}).occupied = false →
      (∀ k < j, (pm.frames_.getD k {}).occupied = true) →
      pm.allocate pid vpn now =
        .ok ({ frame_id := (j : Int), evicted := false, evicted_pid := 0, evicted_vpn := 0 },
             { frames_ := pm.frames_.set j
                 { occupied := true, pid := pid, vpn := vpn, last_used := now } })) ∧
    (∀ j, j < pm.frames_.length →
      (∀ k < pm.frames_.length, (pm.frames_.getD k {}).occupied = true) →
      (pm.frames_.getD j {}).last_used < 2 ^ 64 - 1 →
      (∀ k < pm.frames_.length,
        (pm.frames_.getD j {}).last_used ≤ (pm.frames_.getD k {}).last_used) →
      (∀ k < j, (pm.frames_.getD j {}).last_used < (pm.frames_.getD k {}).last_used) →
      pm.allocate pid vpn now =
        .ok ({ frame_id := (j : Int), evicted := true,
               evicted_pid := (pm.frames_.getD j {}).pid,
               evicted_vpn := (pm.frames_.getD j {}).vpn },
             { frames_ := pm.frames_.set j
                 { occupied := true, pid := pid, vpn := vpn, last_used := now } })) :=
  ⟨fun _ hj hfree hbefore => allocate_free_frame pid vpn now hN hj hfree hbefore,
   fun _ hj hall hlt hmin hfirst => allocate_lru_frame pid vpn now hN hj hall hlt hmin hfirst⟩

/-- Two instances of `allocate_frame_selection`: on `exFramesHole` the free frame 2 is
chosen; on `exFramesFull` frames 1 and 3 tie at the minimum time stamp 3 and frame 1 is
evicted. -/
theorem allocate_frame_selection_example :
    exFramesHole.allocate 5 6 20 =
      .ok ({ frame_id := 2, evicted := false, evicted_pid := 0, evicted_vpn := 0 },
           { frames_ := [{ occupied := true, pid := 1, vpn := 0, last_used := 7 },
                         { occupied := true, pid := 1, vpn := 1, last_used := 3 },
                         { occupied := true, pid := 5, vpn := 6, last_used := 20 },
                         { occupied := true, pid := 2, vpn := 0, last_used := 1 }] }) ∧
    exFramesFull.allocate 5 6 20 =
      .ok ({ frame_id := 1, evicted := true, evicted_pid := 1, evicted_vpn := 1 },
           { frames_ := [{ occupied := true, pid := 1, vpn := 0, last_used := 7 },
                         { occupied := true, pid := 5, vpn := 6, last_used := 20 },
                         { occupied := true, pid := 2, vpn := 4, last_used := 9 },
                         { occupied := true, pid := 2, vpn := 0, last_used := 3 }] }) :=
  ⟨(allocate_frame_selection exFramesHole 5 6 20 (by decide)).1 2 (by decide) (by decide) (by decide),
   (allocate_frame_selection exFramesFull 5 6 20 (by decide)).2 1 (by decide) (by decide) (by decide)
     (by decide) (by decide)⟩

/-- Claim C16, evaluated at its failing input: the one-frame table reached from
`PhysicalMemory(1)` by `allocate(1, 0, 2^64 - 1)` has its frame occupied with
`last_used = 2^64 - 1 = UINT64_MAX`; the next `allocate(2, 0, 5)` finds no free frame,
`find_lru_frame` returns `-1` because its test `last_used < oldest` starts from
`oldest = UINT64_MAX`, and `allocate` throws the no-frame error. -/
theorem C16_allocate_throws_no_frame :
    PhysicalMemory.Reachable 1 exFrameMaxStamp ∧
    1 ≤ exFrameMaxStamp.num_frames ∧
    exFrameMaxStamp.find_free_frame = -1 ∧
    exFrameMaxStamp.find_lru_frame = -1 ∧
    exFrameMaxStamp.allocate 2 0 5 = .error .noFrame := by
  refine ⟨?_, by decide, by decide, by decide, by decide⟩
  exact .allocate 1 0 (2 ^ 64 - 1)
    { frame_id := 0, evicted := false, evicted_pid := 0, evicted_vpn := 0 } (by decide) .init
    (by decide)

/-! ## Event queue lemmas -/

theorem EventKey.le_refl (a : EventKey) : a.le a := by
  unfold EventKey.le; omega

theorem EventKey.le_trans {a b c : EventKey} (h1 : a.le b) (h2 : b.le c) : a.le c := by
  unfold EventKey.le at *; omega

theorem EventKey.not_lt_iff_le (a b : EventKey) : ¬ a.lt b ↔ b.le a := by
  unfold EventKey.le EventKey.lt
  constructor <;> intro h <;> omega

theorem EventKey.le_of_lt {a b : EventKey} (h : a.lt b) : a.le b := by
  unfold EventKey.le; unfold EventKey.lt at h; omega

/-- The comparator is the strict lexicographic "greater" on keys. -/
theorem EventCompare_iff (a b : Event) : EventCompare a b = true ↔ b.key.lt a.key := by
  unfold EventCompare EventKey.lt
  by_cases h1 : a.key.time = b.key.time
  · by_cases h2 : a.key.priority = b.key.priority
    · by_cases h3 : a.key.pid = b.key.pid
      · rw [if_neg (by simpa using h1), if_neg (by simpa using h2), if_neg (by simpa using h3),
          decide_eq_true_eq]
        constructor <;> intro h <;> omega
      · rw [if_neg (by simpa using h1), if_neg (by simpa using h2), if_pos (by simpa using h3),
          decide_eq_true_eq]
        constructor <;> intro h <;> omega
    · rw [if_neg (by simpa using h1), if_pos (by simpa using h2), decide_eq_true_eq]
      constructor <;> intro h <;> omega
  · rw [if_pos (by simpa using h1), decide_eq_true_eq]
    constructor <;> intro h <;> omega

/-- The element `pqTop` returns is queued and no queued element has a smaller key. -/
theorem pqTop_min (e : Event) (es : List Event) :
    pqTop EventCompare e es ∈ e :: es ∧
    ∀ x ∈ e :: es, (pqTop EventCompare e es).key.le x.key := by
  unfold pqTop
  induction es generalizing e with
  | nil => exact ⟨List.mem_cons_self _ _, fun x hx => by
      simp only [List.mem_singleton] at hx; subst hx; exact EventKey.le_refl _⟩
  | cons y ys ih =>
    simp only [List.foldl_cons]
    obtain ⟨hmem, hmin⟩ := ih (if EventCompare e y = true then y else e)
    have hbest : (if EventCompare e y = true then y else e).key.le e.key ∧
        (if EventCompare e y = true then y else e).key.le y.key := by
      by_cases hc : EventCompare e y = true
      · rw [if_pos hc]
        exact ⟨EventKey.le_of_lt ((EventCompare_iff _ _).mp hc), EventKey.le_refl _⟩
      · rw [if_neg hc]
        refine ⟨EventKey.le_refl _, ?_⟩
        rw [EventCompare_iff] at hc
        exact (EventKey.not_lt_iff_le _ _).mp hc
    refine ⟨?_, ?_⟩
    · rcases List.mem_cons.mp hmem with h | h
      · rw [h]
        by_cases hc : EventCompare e y = true
        · rw [if_pos hc]; simp
        · rw [if_neg hc]; simp
      · exact List.mem_cons_of_mem _ (List.mem_cons_of_mem _ h)
    · intro x hx
      have hb := hmin _ (List.mem_cons_self _ _)
      rcases List.mem_cons.mp hx with rfl | hx
      · exact EventKey.le_trans hb hbest.1
      · rcases List.mem_cons.mp hx with rfl | hx
        · exact EventKey.le_trans hb hbest.2
        · exact hmin x (List.mem_cons_of_mem _ hx)

/-- A `pop` on a non-empty queue. -/
theorem pop_nonempty {q : EventQueue} (hne : q.pq_ ≠ []) :
    ∃ ev, q.pop = (.ok ev, { q with pq_ := q.pq_.erase ev }) ∧ ev ∈ q.pq_ ∧
      ∀ x ∈ q.pq_, ev.key.le x.key := by
  unfold EventQueue.pop
  cases hq : q.pq_ with
  | nil => exact absurd hq hne
  | cons e es =>
    simp only
    exact ⟨pqTop EventCompare e es, rfl, (pqTop_min e es).1, (pqTop_min e es).2⟩

theorem pop_empty {q : EventQueue} (he : q.pq_ = []) : q.pop = (.error .queuePopEmpty, q) := by
  unfold EventQueue.pop
  rw [he]

/-- Draining with enough fuel empties the queue and yields its events sorted by key. -/
theorem drainFuel_spec (n : Nat) (q : EventQueue) (hn : q.pq_.length ≤ n) :
    (drainFuel n q).2.pq_ = [] ∧ (drainFuel n q).2.seq_counter_ = q.seq_counter_ ∧
    (drainFuel n q).1.Perm q.pq_ ∧
    (drainFuel n q).1.Pairwise (fun a b => a.key.le b.key) := by
  induction n generalizing q with
  | zero =>
    have : q.pq_ = [] := List.length_eq_zero.mp (Nat.le_zero.mp hn)
    simp [drainFuel, this]
  | succ n ih =>
    unfold drainFuel
    by_cases he : q.pq_ = []
    · simp [EventQueue.empty, he]
    · have hemp : q.empty = false := by
        unfold EventQueue.empty
        cases hq : q.pq_ with
        | nil => exact absurd hq he
        | cons a l => rfl
      obtain ⟨ev, hpop, hmem, hmin⟩ := pop_nonempty he
      simp only [hemp, hpop, Bool.false_eq_true, if_false]
      have hlen : (q.pq_.erase ev).length ≤ n := by
        rw [List.length_erase_of_mem hmem]; omega
      obtain ⟨h1, h2, h3, h4⟩ := ih { q with pq_ := q.pq_.erase ev } hlen
      refine ⟨h1, h2, ?_, ?_⟩
      · exact (List.Perm.cons ev h3).trans (List.perm_cons_erase hmem).symm
      · rw [List.pairwise_cons]
        refine ⟨?_, h4⟩
        intro x hx
        have hx1 : x ∈ q.pq_.erase ev := h3.subset hx
        exact hmin x (List.mem_of_mem_erase hx1)

theorem pushConv_eq_push (q : EventQueue) (time : Nat) (priority : Int) (pid : Nat)
    (type : String) (args : List String) (raw : String) :
    q.pushConv time priority pid type args raw =
      q.push { key := { time := time, priority := priority, pid := pid, seq := 0 }
               type := type, args := args, raw_line := raw } := by
  simp [EventQueue.pushConv, EventQueue.push]

theorem pop_counter (q : EventQueue) : q.pop.2.seq_counter_ = q.seq_counter_ := by
  unfold EventQueue.pop
  cases q.pq_ <;> rfl

theorem step_counter (q : EventQueue) (o : QueueOp) :
    (q.step o).1.seq_counter_ =
      if o.assigns = true then (q.seq_counter_ + 1) % 2 ^ 64 else q.seq_counter_ := by
  cases o with
  | push ev =>
    by_cases h : ev.key.seq = 0
    · simp [EventQueue.step, EventQueue.push, QueueOp.assigns, h]
    · simp [EventQueue.step, EventQueue.push, QueueOp.assigns, h]
  | pushConv t p pid ty a r => simp [EventQueue.step, EventQueue.pushConv, QueueOp.assigns]
  | pop =>
    have h := pop_counter q
    simp only [EventQueue.step, QueueOp.assigns]
    cases hp : q.pop with
    | mk r q1 =>
      rw [hp] at h
      cases r <;> simpa using h
  | top => simp [EventQueue.step, QueueOp.assigns]
  | clear => simp [EventQueue.step, EventQueue.clear, QueueOp.assigns]

theorem run_append (q : EventQueue) (a b : List QueueOp) :
    q.run (a ++ b) = (((q.run a).1.run b).1, (q.run a).2 ++ ((q.run a).1.run b).2) := by
  induction a generalizing q with
  | nil => simp [EventQueue.run]
  | cons o os ih =>
    simp only [List.cons_append, EventQueue.run, List.append_eq]
    rw [ih]
    simp [List.append_assoc]

theorem assignedSeqs_append (q : EventQueue) (a b : List QueueOp) :
    assignedSeqs q (a ++ b) = assignedSeqs q a ++ assignedSeqs (q.run a).1 b := by
  induction a generalizing q with
  | nil => simp [assignedSeqs, EventQueue.run]
  | cons o os ih =>
    simp only [List.cons_append, assignedSeqs, EventQueue.run, List.append_eq]
    rw [ih, List.append_assoc]

/-- Without wrap-around the counter after a sequence of calls is the old one plus the
number of assigning pushes. -/
theorem run_counter (q : EventQueue) (ops : List QueueOp)
    (h : q.seq_counter_ + ops.countP QueueOp.assigns < 2 ^ 64) :
    (q.run ops).1.seq_counter_ = q.seq_counter_ + ops.countP QueueOp.assigns := by
  induction ops generalizing q with
  | nil => simp [EventQueue.run]
  | cons o os ih =>
    simp only [EventQueue.run]
    rw [List.countP_cons] at h ⊢
    have hs := step_counter q o
    by_cases ha : o.assigns = true
    · rw [if_pos ha] at hs
      simp only [ha, if_true] at h ⊢
      have hs' : (q.step o).1.seq_counter_ = q.seq_counter_ + 1 := by
        rw [hs, Nat.mod_eq_of_lt (by omega)]
      rw [ih _ (by rw [hs']; omega), hs']
      omega
    · rw [if_neg ha] at hs
      simp only [ha] at h ⊢
      rw [ih _ (by rw [hs]; simpa using h), hs]
      simp

theorem assignedSeqs_of_count_zero (q : EventQueue) (ops : List QueueOp)
    (h : ops.countP QueueOp.assigns = 0) : assignedSeqs q ops = [] := by
  induction ops generalizing q with
  | nil => rfl
  | cons o os ih =>
    rw [List.countP_cons] at h
    have ha : ¬ o.assigns = true := by
      intro hc; simp [hc] at h
    have h0 : os.countP QueueOp.assigns = 0 := by omega
    simp only [assignedSeqs, ha, if_false, List.nil_append]
    exact ih _ h0

/-- As long as the counter does not wrap, the assigned sequence numbers are the consecutive
values from the counter on. -/
theorem assignedSeqs_eq_range (q : EventQueue) (ops : List QueueOp)
    (h : q.seq_counter_ + ops.countP QueueOp.assigns ≤ 2 ^ 64) :
    assignedSeqs q ops = List.range' q.seq_counter_ (ops.countP QueueOp.assigns) := by
  induction ops generalizing q with
  | nil => simp [assignedSeqs]
  | cons o os ih =>
    rw [List.countP_cons] at h ⊢
    have hs := step_counter q o
    by_cases ha : o.assigns = true
    · rw [if_pos ha] at hs
      simp only [ha, if_true] at h ⊢
      simp only [assignedSeqs, ha, if_true]
      by_cases h0 : os.countP QueueOp.assigns = 0
      · rw [assignedSeqs_of_count_zero _ _ h0, h0]
        simp [List.range']
      · have hs' : (q.step o).1.seq_counter_ = q.seq_counter_ + 1 := by
          rw [hs, Nat.mod_eq_of_lt (by omega)]
        rw [ih _ (by rw [hs']; omega), hs', List.range'_succ]
        simp
    · rw [if_neg ha] at hs
      simp only [ha] at h ⊢
      simp only [assignedSeqs, ha, List.nil_append]
      rw [ih _ (by rw [hs]; simpa using h), hs]
      simp

theorem step_mem_or_popped {q : EventQueue} {o : QueueOp} {e1 : Event} (hc : o ≠ .clear)
    (he1 : e1 ∈ q.pq_) :
    ((q.step o).2 = [] ∧ e1 ∈ (q.step o).1.pq_) ∨
    ∃ ev, (q.step o).2 = [ev] ∧ ev.key.le e1.key ∧ (ev = e1 ∨ e1 ∈ (q.step o).1.pq_) := by
  cases o with
  | push ev =>
    left
    refine ⟨rfl, ?_⟩
    simp only [EventQueue.step, EventQueue.push]
    by_cases h : ev.key.seq = 0
    · simp [h, he1]
    · simp [h, he1]
  | pushConv t p pid ty a r =>
    left
    exact ⟨rfl, by simp [EventQueue.step, EventQueue.pushConv, he1]⟩
  | pop =>
    right
    have hne : q.pq_ ≠ [] := List.ne_nil_of_mem he1
    obtain ⟨ev, hpop, _, hmin⟩ := pop_nonempty hne
    refine ⟨ev, by simp [EventQueue.step, hpop], hmin e1 he1, ?_⟩
    by_cases hev : ev = e1
    · exact Or.inl hev
    · right
      simp only [EventQueue.step, hpop]
      exact (List.mem_erase_of_ne (fun hc => hev hc.symm)).mpr he1
  | top => left; exact ⟨rfl, he1⟩
  | clear => exact absurd rfl hc

/-- While `e1` is queued, no event with a larger key is popped: in the popped sequence of
any calls other than `clear`, an event with a key above that of `e1` comes after `e1`. -/
theorem run_order (q : EventQueue) (ops : List QueueOp) (e1 : Event)
    (hnc : ∀ o ∈ ops, o ≠ .clear) (he1 : e1 ∈ q.pq_) :
    ∀ pre e post, (q.run ops).2 = pre ++ e :: post → e1.key.lt e.key → e1 ∈ pre := by
  induction ops generalizing q with
  | nil =>
    intro pre e post h
    simp only [EventQueue.run] at h
    cases pre <;> cases h
  | cons o os ih =>
    intro pre e post h hlt
    simp only [EventQueue.run] at h
    have hnc' : ∀ o' ∈ os, o' ≠ .clear := fun o' ho' => hnc o' (List.mem_cons_of_mem _ ho')
    rcases step_mem_or_popped (hnc o (List.mem_cons_self _ _)) he1 with
      ⟨h1, h2⟩ | ⟨ev, h1, h2, h3⟩
    · rw [h1, List.nil_append] at h
      exact ih _ hnc' h2 pre e post h hlt
    · rw [h1] at h
      cases pre with
      | nil =>
        simp only [List.nil_append, List.singleton_append, List.cons.injEq] at h
        exfalso
        rw [← h.1] at hlt
        exact (EventKey.not_lt_iff_le _ _).mpr h2 hlt
      | cons p pre' =>
        simp only [List.singleton_append, List.cons_append, List.cons.injEq] at h
        rcases h3 with h3 | h3
        · rw [← h.1, h3]; exact List.mem_cons_self _ _
        · exact List.mem_cons_of_mem _ (ih _ hnc' h3 pre' e post h.2 hlt)

/-! ## Claims C17 to C19 -/

/-- Claim C17: `pop()` on an empty `EventQueue` fails with the empty-queue error (and
leaves the queue as it is); on a non-empty queue it returns a queued event whose key
`(time, priority, pid, seq)` is lexicographically minimal among the queued events and
removes one occurrence of it; popping until the queue is empty therefore terminates with
an empty queue and yields the queued events, each exactly once (a permutation of the
queue content), in non-decreasing lexicographic key order; and the queue content is what
was pushed: `push` adds exactly the event it stores. -/
theorem C17_pop_returns_min_key (q : EventQueue) :
    (q.pq_ = [] → q.pop = (.error .queuePopEmpty, q)) ∧
    (q.pq_ ≠ [] →
      ∃ ev, q.pop = (.ok ev, { q with pq_ := q.pq_.erase ev }) ∧ ev ∈ q.pq_ ∧
        ∀ x ∈ q.pq_, ev.key.le x.key) ∧
    q.drain.2.pq_ = [] ∧
    q.drain.1.Perm q.pq_ ∧
    q.drain.1.Pairwise (fun a b => a.key.le b.key) ∧
    (∀ ev, (q.push ev).pq_ = q.pq_ ++ [if ev.key.seq = 0 then q.stamp ev else ev]) := by
  obtain ⟨h1, _, h3, h4⟩ := drainFuel_spec q.pq_.length q (le_refl _)
  refine ⟨pop_empty, pop_nonempty, h1, h3, h4, ?_⟩
  intro ev
  unfold EventQueue.push EventQueue.stamp
  by_cases h : ev.key.seq = 0
  · simp [h]
  · simp [h]

/-- Witness of C17: the queue `exQueueD` is popped in key order. -/
theorem C17_witness :
    exQueueD.pq_ ≠ [] ∧
    (∃ ev, exQueueD.pop = (.ok ev, { exQueueD with pq_ := exQueueD.pq_.erase ev }) ∧
      ev ∈ exQueueD.pq_ ∧ ∀ x ∈ exQueueD.pq_, ev.key.le x.key) ∧
    exQueueD.pop.1 =
      .ok { key := { time := 1, priority := 4, pid := 1, seq := 3 }, type := "PROC_START" } ∧
    exQueueD.drain.1.map (fun e => e.key) =
      [{ time := 1, priority := 4, pid := 1, seq := 3 },
       { time := 5, priority := 3, pid := 1, seq := 2 },
       { time := 5, priority := 3, pid := 1, seq := 4 },
       { time := 9, priority := 4, pid := 2, seq := 1 }] :=
  ⟨by decide, (C17_pop_returns_min_key exQueueD).2.1 (by decide), by decide, by decide⟩

/-- Claim C18: FIFO tie-breaking.  Let `ev1` and `ev2` have identical
`(time, priority, pid)` and `seq = 0`, so that `push` assigns their sequence numbers (the
convenience push is `push` of such an event, see `pushConv_eq_push`).  Push `ev1` on any
queue `q`, make any calls `ops1` other than `clear`, push `ev2`, make any calls `ops2`
other than `clear`; assume the counter does not wrap between the two pushes.  Then the
event stored for `ev2` carries a larger `seq` than the one stored for `ev1`, and wherever
the stored `ev2` occurs among the popped events, the stored `ev1` was popped before it. -/
theorem C18_fifo_tie_break (q : EventQueue) (ev1 ev2 : Event) (ops1 ops2 : List QueueOp)
    (hs1 : ev1.key.seq = 0) (hs2 : ev2.key.seq = 0)
    (htime : ev1.key.time = ev2.key.time) (hprio : ev1.key.priority = ev2.key.priority)
    (hpid : ev1.key.pid = ev2.key.pid)
    (hnc : ∀ o ∈ ops1 ++ ops2, o ≠ .clear)
    (hnw : q.seq_counter_ + 1 + ops1.countP QueueOp.assigns < 2 ^ 64) :
    (q.push ev1).pq_ = q.pq_ ++ [q.stamp ev1] ∧
    (((q.push ev1).run ops1).1.push ev2).pq_ =
      ((q.push ev1).run ops1).1.pq_ ++ [((q.push ev1).run ops1).1.stamp ev2] ∧
    (q.stamp ev1).key.seq < (((q.push ev1).run ops1).1.stamp ev2).key.seq ∧
    ∀ pre post,
      ((q.push ev1).run (ops1 ++ [.push ev2] ++ ops2)).2 =
        pre ++ ((q.push ev1).run ops1).1.stamp ev2 :: post →
      q.stamp ev1 ∈ pre := by
  have hp1 : q.push ev1 =
      { pq_ := q.pq_ ++ [q.stamp ev1], seq_counter_ := (q.seq_counter_ + 1) % 2 ^ 64 } := by
    simp [EventQueue.push, EventQueue.stamp, hs1]
  have hc1 : (q.push ev1).seq_counter_ = q.seq_counter_ + 1 := by
    rw [hp1]; exact Nat.mod_eq_of_lt (by omega)
  have hc2 : ((q.push ev1).run ops1).1.seq_counter_
      = q.seq_counter_ + 1 + ops1.countP QueueOp.assigns := by
    rw [run_counter _ _ (by rw [hc1]; exact hnw), hc1]
  have hseq : (q.stamp ev1).key.seq < (((q.push ev1).run ops1).1.stamp ev2).key.seq := by
    simp only [EventQueue.stamp, hc2]; omega
  refine ⟨by rw [hp1], ?_, hseq, ?_⟩
  · simp [EventQueue.push, EventQueue.stamp, hs2]
  · intro pre post hout
    have hmem : q.stamp ev1 ∈ (q.push ev1).pq_ := by rw [hp1]; simp
    have hnc' : ∀ o ∈ ops1 ++ [QueueOp.push ev2] ++ ops2, o ≠ .clear := by
      intro o ho
      simp only [List.append_assoc, List.mem_append, List.mem_cons, List.mem_singleton,
        List.not_mem_nil, or_false] at ho
      rcases ho with ho | ho | ho
      · exact hnc o (List.mem_append_left _ ho)
      · rw [ho]; intro hc; cases hc
      · exact hnc o (List.mem_append_right _ ho)
    refine run_order _ _ _ hnc' hmem pre _ post hout ?_
    unfold EventKey.lt
    have e1 : (q.stamp ev1).key.time = (((q.push ev1).run ops1).1.stamp ev2).key.time := htime
    have e2 : (q.stamp ev1).key.priority
        = (((q.push ev1).run ops1).1.stamp ev2).key.priority := hprio
    have e3 : (q.stamp ev1).key.pid = (((q.push ev1).run ops1).1.stamp ev2).key.pid := hpid
    omega

/-- Witness of C18: scenario D.  On a fresh queue `exE1` and `exE2`, both at
`(time, priority, pid) = (5, 3, 1)`, are pushed with an earlier event pushed in between;
three pops return the earlier event, then `exE1` (stored with seq 1), then `exE2` (stored
with seq 3). -/
theorem C18_witness :
    exE1.key.seq = 0 ∧ exE2.key.seq = 0 ∧
    EventQueue.mk0.seq_counter_ + 1 + [QueueOp.pushConv 1 4 1 "PROC_START" [] ""].countP QueueOp.assigns
      < 2 ^ 64 ∧
    ((EventQueue.mk0.push exE1).run
      ([.pushConv 1 4 1 "PROC_START" [] ""] ++ [.push exE2] ++ [.pop, .pop, .pop])).2 =
      [exEarly, EventQueue.mk0.stamp exE1] ++
        ((EventQueue.mk0.push exE1).run [.pushConv 1 4 1 "PROC_START" [] ""]).1.stamp exE2 :: [] ∧
    (EventQueue.mk0.stamp exE1).key.seq = 1 ∧
    (((EventQueue.mk0.push exE1).run [.pushConv 1 4 1 "PROC_START" [] ""]).1.stamp exE2).key.seq = 3 ∧
    EventQueue.mk0.stamp exE1 ∈ [exEarly, EventQueue.mk0.stamp exE1] :=
  ⟨rfl, rfl, by decide, by decide, by decide, by decide,
   (C18_fifo_tie_break EventQueue.mk0 exE1 exE2 [.pushConv 1 4 1 "PROC_START" [] ""]
      [.pop, .pop, .pop] rfl rfl rfl rfl rfl (by decide) (by decide)).2.2.2
      [exEarly, EventQueue.mk0.stamp exE1] [] (by decide)⟩

/-- Two convenience pushes at counter `2^64 - 1` assign `2^64 - 1` and then `0`. -/
theorem assignedSeqs_at_wrap (q : EventQueue) (h : q.seq_counter_ = 2 ^ 64 - 1) :
    assignedSeqs q [.pushConv 0 0 0 "" [] "", .pushConv 0 0 0 "" [] ""] = [2 ^ 64 - 1, 0] := by
  simp only [assignedSeqs, QueueOp.assigns, if_true, EventQueue.step, EventQueue.pushConv,
    List.append_nil, List.singleton_append, h]
  norm_num

theorem cycleOps_count (n : Nat) : (cycleOps n).countP QueueOp.assigns = n := by
  induction n with
  | zero => rfl
  | succ n ih =>
    rw [cycleOps, List.countP_cons, List.countP_cons, ih]
    simp [QueueOp.assigns]

/-- Counterexample to C19 as stated: on a fresh queue, `2^64 - 2` rounds of convenience
push and pop followed by two convenience pushes assign the sequence numbers
`1, 2, …, 2^64 - 2`, then `2^64 - 1`, then `0` (the counter wraps): the assigned values
are not strictly increasing in push order. -/
theorem C19_counterexample :
    assignedSeqs EventQueue.mk0 exWrapOps = List.range' 1 (2 ^ 64 - 2) ++ [2 ^ 64 - 1, 0] ∧
    ¬ (assignedSeqs EventQueue.mk0 exWrapOps).Pairwise (fun a b => a < b) := by
  have hc0 : EventQueue.mk0.seq_counter_ = 1 := rfl
  have hcnt : EventQueue.mk0.seq_counter_ + (cycleOps (2 ^ 64 - 2)).countP QueueOp.assigns
      = 2 ^ 64 - 1 := by
    rw [cycleOps_count, hc0]; norm_num
  have h1 : assignedSeqs EventQueue.mk0 (cycleOps (2 ^ 64 - 2))
      = List.range' 1 (2 ^ 64 - 2) := by
    rw [assignedSeqs_eq_range _ _ (by rw [hcnt]; norm_num), cycleOps_count, hc0]
  have h2 : (EventQueue.mk0.run (cycleOps (2 ^ 64 - 2))).1.seq_counter_ = 2 ^ 64 - 1 := by
    rw [run_counter _ _ (by rw [hcnt]; norm_num), hcnt]
  have h3 : assignedSeqs EventQueue.mk0 exWrapOps
      = List.range' 1 (2 ^ 64 - 2) ++ [2 ^ 64 - 1, 0] := by
    unfold exWrapOps
    rw [assignedSeqs_append, h1, assignedSeqs_at_wrap _ h2]
  refine ⟨h3, ?_⟩
  rw [h3, List.pairwise_append]
  rintro ⟨_, hp, _⟩
  rw [List.pairwise_cons] at hp
  have := hp.1 0 (List.mem_singleton_self _)
  omega

/-- Claim C19, amended: a fresh `EventQueue` has `next_seq() = 1`; the convenience push
always stores the event with `seq = next_seq()` and increments the counter by one (modulo
`2^64`); `push(event)` does the same when `event.seq = 0` and otherwise stores the event
with its given seq and leaves the counter unchanged; `pop` and `clear` never change the
counter (`top` returns no new state).  Hence, as long as the counter does not wrap, the
sequence numbers assigned in one queue are the consecutive values from the counter on,
pairwise distinct and strictly increasing in push order. -/
theorem C19_sequence_assignment :
    EventQueue.mk0.next_seq = 1 ∧
    (∀ (q : EventQueue) (time : Nat) (priority : Int) (pid : Nat) (type : String)
        (args : List String) (raw : String),
      q.pushConv time priority pid type args raw =
        { pq_ := q.pq_ ++
            [{ key := { time := time, priority := priority, pid := pid, seq := q.next_seq }
               type := type, args := args, raw_line := raw }]
          seq_counter_ := (q.seq_counter_ + 1) % 2 ^ 64 }) ∧
    (∀ (q : EventQueue) (ev : Event), ev.key.seq = 0 →
      q.push ev = q.pushConv ev.key.time ev.key.priority ev.key.pid ev.type ev.args ev.raw_line) ∧
    (∀ (q : EventQueue) (ev : Event), ev.key.seq ≠ 0 →
      q.push ev = { q with pq_ := q.pq_ ++ [ev] }) ∧
    (∀ q : EventQueue, q.pop.2.next_seq = q.next_seq ∧ q.clear.next_seq = q.next_seq) ∧
    (∀ (q : EventQueue) (ops : List QueueOp),
      q.seq_counter_ + ops.countP QueueOp.assigns ≤ 2 ^ 64 →
      assignedSeqs q ops = List.range' q.seq_counter_ (ops.countP QueueOp.assigns) ∧
      (assignedSeqs q ops).Pairwise (fun a b => a < b)) := by
  refine ⟨rfl, fun _ _ _ _ _ _ _ => rfl, ?_, ?_, ?_, ?_⟩
  · intro q ev h
    rcases ev with ⟨⟨t, p, pid, s⟩, ty, a, r⟩
    simp only at h
    subst h
    simp [EventQueue.push, EventQueue.pushConv]
  · intro q ev h
    simp [EventQueue.push, h]
  · intro q
    exact ⟨pop_counter q, rfl⟩
  · intro q ops h
    rw [assignedSeqs_eq_range q ops h]
    exact ⟨rfl, List.pairwise_lt_range' _ _⟩

/-- Witness of C19 (amended): the four pushes that build `exQueueD` from a fresh queue
assign the sequence numbers 1, 2, 3, 4. -/
theorem C19_witness :
    EventQueue.mk0.seq_counter_ + 4 ≤ 2 ^ 64 ∧
    assignedSeqs EventQueue.mk0
      [.pushConv 9 4 2 "FREE" ["0x10"] "", .pushConv 5 3 1 "ACCESS" ["0x1000"] "",
       .pushConv 1 4 1 "PROC_START" [] "", .pushConv 5 3 1 "ACCESS" ["0x2000"] ""]
      = [1, 2, 3, 4] ∧
    ([1, 2, 3, 4] : List Nat).Pairwise (fun a b => a < b) :=
  have h := (C19_sequence_assignment.2.2.2.2.2 EventQueue.mk0
    [.pushConv 9 4 2 "FREE" ["0x10"] "", .pushConv 5 3 1 "ACCESS" ["0x1000"] "",
     .pushConv 1 4 1 "PROC_START" [] "", .pushConv 5 3 1 "ACCESS" ["0x2000"] ""] (by decide))
  ⟨by decide, h.1.trans (by decide), by decide⟩

/-! ## Claim C20 -/

/-- The loop of `schedule_next` when the first `READY` entry of the queue is `pid`. -/
theorem scheduleLoop_found (pre : List Nat) (pid : Nat) (post : List Nat)
    (states : Nat → Option ProcessState)
    (hpre : ∀ q ∈ pre, states q ≠ some .READY) (hpid : states pid = some .READY) :
    scheduleLoop (pre ++ pid :: post) states =
      (some pid, post, fun q =>
        if q = pid then some .RUNNING
        else if q ∈ pre then some ((states q).getD .NEW) else states q) := by
  induction pre generalizing states with
  | nil =>
    simp only [List.nil_append, scheduleLoop, if_true, hpid, Option.getD_some]
    congr 2
    funext q
    by_cases hq : q = pid
    · simp [setState, hq]
    · simp [setState, hq]
  | cons a pre ih =>
    have ha : states a ≠ some .READY := hpre a (List.mem_cons_self _ _)
    have hne : a ≠ pid := by
      rintro rfl; exact ha hpid
    have hnr : (states a).getD .NEW ≠ .READY := by
      cases hs : states a with
      | none => simp
      | some x =>
        simp only [Option.getD_some]
        intro hx; rw [hs, hx] at ha; exact ha rfl
    simp only [List.cons_append, scheduleLoop, if_true, Option.some.injEq, hnr, if_false,
      List.append_eq]
    rw [ih]
    · congr 2
      funext q
      by_cases hq : q = pid
      · simp [hq]
      · by_cases hqa : q = a
        · subst hqa
          by_cases hmem : q ∈ pre
          · simp [hq, hmem]
          · simp [hq, hmem]
        · by_cases hmem : q ∈ pre
          · simp [hq, hqa, hmem]
          · simp [hq, hqa, hmem]
    · intro q hq
      by_cases hqa : q = a
      · simp only [hqa, if_true, ne_eq, Option.some.injEq]; exact hnr
      · simp only [hqa, if_false]
        exact hpre q (List.mem_cons_of_mem _ hq)
    · show (if pid = a then some ((states a).getD .NEW) else states pid) = some .READY
      rw [if_neg (fun h => hne h.symm)]
      exact hpid

/-- The loop of `schedule_next` when no entry of the queue is `READY`. -/
theorem scheduleLoop_none (rq : List Nat) (states : Nat → Option ProcessState)
    (hrq : ∀ q ∈ rq, states q ≠ some .READY) :
    scheduleLoop rq states =
      (none, [], fun q => if q ∈ rq then some ((states q).getD .NEW) else states q) := by
  induction rq generalizing states with
  | nil => simp [scheduleLoop]
  | cons a rq ih =>
    have ha : states a ≠ some .READY := hrq a (List.mem_cons_self _ _)
    have hnr : (states a).getD .NEW ≠ .READY := by
      cases hs : states a with
      | none => simp
      | some x =>
        simp only [Option.getD_some]
        intro hx; rw [hs, hx] at ha; exact ha rfl
    simp only [scheduleLoop, if_true, Option.some.injEq, hnr, if_false]
    rw [ih]
    · congr 2
      funext q
      by_cases hqa : q = a
      · subst hqa
        by_cases hmem : q ∈ rq
        · simp [hmem]
        · simp [hmem]
      · by_cases hmem : q ∈ rq
        · simp [hqa, hmem]
        · simp [hqa, hmem]
    · intro q hq
      by_cases hqa : q = a
      · simp only [hqa, if_true, ne_eq, Option.some.injEq]; exact hnr
      · simp only [hqa, if_false]
        exact hrq q (List.mem_cons_of_mem _ hq)

/-- Claim C20: `schedule_next()`.  If `current` is set it returns `current` and changes
nothing.  Otherwise, if `pid` is the first entry of the ready queue whose state is
`READY` (the entries `pre` before it are not `READY`), it returns `pid`, sets `current`
to it, sets its state to `RUNNING` and leaves exactly the later entries `post` in the
queue, in their order; if no entry is `READY` it returns `None`, leaves `current` unset
and empties the queue.  The states of all other pids are unchanged, except that a
skipped pid that had no state at all gets the state `NEW` (the effect of reading
`states_[pid]`). -/
theorem C20_schedule_next (s : Scheduler) :
    (∀ pid, s.current_ = some pid → s.schedule_next = (some pid, s)) ∧
    (s.current_ = none → ∀ pre pid post, s.ready_queue_ = pre ++ pid :: post →
      (∀ q ∈ pre, s.states_ q ≠ some .READY) → s.states_ pid = some .READY →
      s.schedule_next.1 = some pid ∧ s.schedule_next.2.current_ = some pid ∧
      s.schedule_next.2.ready_queue_ = post ∧
      ∀ q, s.schedule_next.2.states_ q =
        if q = pid then some .RUNNING
        else if q ∈ pre then some ((s.states_ q).getD .NEW) else s.states_ q) ∧
    (s.current_ = none → (∀ q ∈ s.ready_queue_, s.states_ q ≠ some .READY) →
      s.schedule_next.1 = none ∧ s.schedule_next.2.current_ = none ∧
      s.schedule_next.2.ready_queue_ = [] ∧
      ∀ q, s.schedule_next.2.states_ q =
        if q ∈ s.ready_queue_ then some ((s.states_ q).getD .NEW) else s.states_ q) := by
  refine ⟨?_, ?_, ?_⟩
  · intro pid hc
    simp [Scheduler.schedule_next, hc]
  · intro hc pre pid post hrq hpre hpid
    have h := scheduleLoop_found pre pid post _ hpre hpid
    have e : s.schedule_next =
        ((scheduleLoop s.ready_queue_ s.states_).1,
          { ready_queue_ := (scheduleLoop s.ready_queue_ s.states_).2.1
            states_ := (scheduleLoop s.ready_queue_ s.states_).2.2
            current_ := (scheduleLoop s.ready_queue_ s.states_).1 }) := by
      unfold Scheduler.schedule_next; rw [hc]
    rw [e, hrq, h]
    exact ⟨rfl, rfl, rfl, fun _ => rfl⟩
  · intro hc hrq
    have h := scheduleLoop_none _ _ hrq
    have e : s.schedule_next =
        ((scheduleLoop s.ready_queue_ s.states_).1,
          { ready_queue_ := (scheduleLoop s.ready_queue_ s.states_).2.1
            states_ := (scheduleLoop s.ready_queue_ s.states_).2.2
            current_ := (scheduleLoop s.ready_queue_ s.states_).1 }) := by
      unfold Scheduler.schedule_next; rw [hc]
    rw [e, h]
    exact ⟨rfl, rfl, rfl, fun _ => rfl⟩

/-- Witness of C20: on `exSchedStale` the stale entry 3 is skipped, pid 1 becomes
`RUNNING` and current, and the queue keeps `[2]`. -/
theorem C20_witness :
    exSchedStale.current_ = none ∧ exSchedStale.ready_queue_ = [3] ++ 1 :: [2] ∧
    (∀ q ∈ [3], exSchedStale.states_ q ≠ some .READY) ∧ exSchedStale.states_ 1 = some .READY ∧
    exSchedStale.schedule_next.1 = some 1 ∧ exSchedStale.schedule_next.2.current_ = some 1 ∧
    exSchedStale.schedule_next.2.ready_queue_ = [2] ∧
    exSchedStale.schedule_next.2.states_ 1 = some .RUNNING ∧
    exSchedStale.schedule_next.2.states_ 3 = some .BLOCKED :=
  have h := (C20_schedule_next exSchedStale).2.1 rfl [3] 1 [2] rfl (by decide) rfl
  ⟨rfl, rfl, by decide, rfl, h.1, h.2.1, h.2.2.1, (h.2.2.2 1).trans rfl, (h.2.2.2 3).trans rfl⟩

/-! ## Scheduler lemmas -/

/-- The loop of `schedule_next` on a queue whose members all have a state entry: no entry
is created or removed, the remaining queue is a part of the old one, and a chosen pid was
queued. -/
theorem scheduleLoop_known (rq : List Nat) (states : Nat → Option ProcessState)
    (h : ∀ q ∈ rq, states q ≠ none) :
    (∀ q, (scheduleLoop rq states).2.2 q = none ↔ states q = none) ∧
    (∀ q ∈ (scheduleLoop rq states).2.1, q ∈ rq) ∧
    (∀ c, (scheduleLoop rq states).1 = some c → c ∈ rq) := by
  induction rq generalizing states with
  | nil => exact ⟨fun _ => Iff.rfl, fun _ hq => hq, fun c hc => nomatch hc⟩
  | cons pid rest ih =>
    have hp : states pid ≠ none := h pid (List.mem_cons_self _ _)
    obtain ⟨st, hst⟩ := Option.ne_none_iff_exists'.mp hp
    have hdom : ∀ q, (if q = pid then some ((states pid).getD .NEW) else states q) = none ↔
        states q = none := by
      intro q
      by_cases hq : q = pid
      · subst hq; simp [hst]
      · simp [hq]
    by_cases hr : st = .READY
    · have e : scheduleLoop (pid :: rest) states =
          (some pid, rest, setState (fun q => if q = pid then some ((states pid).getD .NEW)
            else states q) pid .RUNNING) := by
        simp [scheduleLoop, hst, hr]
      rw [e]
      refine ⟨fun q => ?_, fun q hq => List.mem_cons_of_mem _ hq, fun c hc => ?_⟩
      · by_cases hq : q = pid
        · subst hq; simp [setState, hst]
        · simp [setState, hq]
      · cases hc; exact List.mem_cons_self _ _
    · have e : scheduleLoop (pid :: rest) states =
          scheduleLoop rest (fun q => if q = pid then some ((states pid).getD .NEW)
            else states q) := by
        simp [scheduleLoop, hst, hr]
      rw [e]
      have h1 : ∀ q ∈ rest, (fun q => if q = pid then some ((states pid).getD .NEW)
          else states q) q ≠ none := by
        intro q hq hn
        exact h q (List.mem_cons_of_mem _ hq) ((hdom q).mp hn)
      obtain ⟨a, b, c⟩ := ih _ h1
      exact ⟨fun q => (a q).trans (hdom q), fun q hq => List.mem_cons_of_mem _ (b q hq),
        fun x hx => List.mem_cons_of_mem _ (c x hx)⟩

/-- One call that is neither `add_process(pid)` nor `terminate_process(pid)` creates no
state entry for `pid`, and keeps the property that every queued pid and the current pid
have a state entry. -/
theorem step_unknown (s : Scheduler) (pid : Nat) (op : SchedOp)
    (hq : ∀ q ∈ s.ready_queue_, s.states_ q ≠ none)
    (hc : ∀ c, s.current_ = some c → s.states_ c ≠ none)
    (hp : s.states_ pid = none)
    (h1 : op ≠ .add_process pid) (h2 : op ≠ .terminate_process pid) :
    (∀ q ∈ (s.step op).ready_queue_, (s.step op).states_ q ≠ none) ∧
    (∀ c, (s.step op).current_ = some c → (s.step op).states_ c ≠ none) ∧
    (s.step op).states_ pid = none := by
  cases op with
  | add_process q =>
    have hne : pid ≠ q := fun e => h1 (by rw [e])
    simp only [Scheduler.step, Scheduler.add_process]
    cases hs : s.states_ q with
    | some st => exact ⟨hq, hc, hp⟩
    | none =>
      refine ⟨fun x hx => ?_, fun c hcc => ?_, ?_⟩
      · simp only [List.mem_append, List.mem_singleton] at hx
        by_cases hxq : x = q
        · simp [setState, hxq]
        · simp only [setState, hxq, if_false]
          exact hq x (hx.resolve_right hxq)
      · by_cases hxq : c = q
        · simp [setState, hxq]
        · simp only [setState, hxq, if_false]
          exact hc c hcc
      · simp [setState, hne, hp]
  | terminate_process q =>
    have hne : pid ≠ q := fun e => h2 (by rw [e])
    simp only [Scheduler.step, Scheduler.terminate_process]
    refine ⟨fun x hx => ?_, fun c hcc => ?_, ?_⟩
    · by_cases hxq : x = q
      · simp [setState, hxq]
      · simp only [setState, hxq, if_false]
        exact hq x (List.mem_of_mem_filter hx)
    · by_cases hxq : c = q
      · simp [setState, hxq]
      · simp only [setState, hxq, if_false]
        by_cases hcur : s.current_ = some q
        · simp [hcur] at hcc
        · simp only [hcur, if_false] at hcc
          exact hc c hcc
    · simp [setState, hne, hp]
  | block_current =>
    simp only [Scheduler.step, Scheduler.block_current]
    cases hcur : s.current_ with
    | none => exact ⟨hq, fun c hcc => hc c (hcur ▸ hcc), hp⟩
    | some c0 =>
      have hne : pid ≠ c0 := fun e => hc c0 hcur (e ▸ hp)
      refine ⟨fun x hx => ?_, fun c hcc => (nomatch hcc), ?_⟩
      · by_cases hxq : x = c0
        · simp [setState, hxq]
        · simp only [setState, hxq, if_false]
          exact hq x hx
      · simp [setState, hne, hp]
  | wake_process q =>
    simp only [Scheduler.step, Scheduler.wake_process]
    cases hs : s.states_ q with
    | none => exact ⟨hq, hc, hp⟩
    | some st =>
      have hne : pid ≠ q := fun e => by rw [e, hs] at hp; cases hp
      by_cases hb : st = .BLOCKED
      · simp only [hb, ne_eq, not_true_eq_false, if_false]
        refine ⟨fun x hx => ?_, fun c hcc => ?_, ?_⟩
        · simp only [List.mem_append, List.mem_singleton] at hx
          by_cases hxq : x = q
          · simp [setState, hxq]
          · simp only [setState, hxq, if_false]
            exact hq x (hx.resolve_right hxq)
        · by_cases hxq : c = q
          · simp [setState, hxq]
          · simp only [setState, hxq, if_false]
            exact hc c hcc
        · simp [setState, hne, hp]
      · simp only [ne_eq, hb, not_false_eq_true, if_true]
        exact ⟨hq, hc, hp⟩
  | schedule_next =>
    simp only [Scheduler.step, Scheduler.schedule_next]
    cases hcur : s.current_ with
    | some c0 => exact ⟨hq, fun c hcc => hc c (hcur ▸ hcc), hp⟩
    | none =>
      obtain ⟨a, b, c⟩ := scheduleLoop_known s.ready_queue_ s.states_ hq
      refine ⟨fun x hx hn => ?_, fun x hx hn => ?_, (a pid).mpr hp⟩
      · exact hq x (b x hx) ((a x).mp hn)
      · exact hq x (c x hx) ((a x).mp hn)

/-- A sequence of calls without `add_process(pid)` and without `terminate_process(pid)`
creates no state entry for `pid`. -/
theorem run_unknown (ops : List SchedOp) (s : Scheduler) (pid : Nat)
    (hq : ∀ q ∈ s.ready_queue_, s.states_ q ≠ none)
    (hc : ∀ c, s.current_ = some c → s.states_ c ≠ none)
    (hp : s.states_ pid = none)
    (h : ∀ op ∈ ops, op ≠ .add_process pid ∧ op ≠ .terminate_process pid) :
    (s.run ops).states_ pid = none := by
  induction ops generalizing s with
  | nil => exact hp
  | cons op ops ih =>
    obtain ⟨a, b, c⟩ := step_unknown s pid op hq hc hp (h op (List.mem_cons_self _ _)).1
      (h op (List.mem_cons_self _ _)).2
    exact ih (s.step op) a b c (fun o ho => h o (List.mem_cons_of_mem _ ho))

/-! ## Claims C21 and C22 -/

/-- Counterexample to claim C21 as stated: pid 7 is never added to the scheduler, yet
after `terminate_process(7)`, whose `states_[7] = TERMINATED` creates the entry,
`wake_process(7)` returns normally instead of failing. -/
theorem C21_counterexample :
    SchedOp.add_process 7 ∉ [SchedOp.terminate_process 7] ∧
    ((Scheduler.mk0.run [.terminate_process 7]).wake_process 7).1 = .ok () ∧
    ((Scheduler.mk0.run [.terminate_process 7]).wake_process 7).1 ≠ .error .schedWakeUnknown := by
  decide

/-- Claim C21, amended: `wake_process(pid)` fails with the unknown-process error, changing
nothing, if `pid` has no entry in the state table, which is the case after every sequence
of scheduler calls from construction that neither adds nor terminates `pid`; it leaves
the scheduler entirely unchanged if the state of `pid` is not `BLOCKED`; otherwise it sets
the state of `pid` to `READY` and appends `pid` once at the back of the ready queue, all
else unchanged.  A second `wake_process(pid)` on the result is a no-op, so the two calls
together append `pid` exactly once. -/
theorem C21_wake_process (s : Scheduler) (pid : Nat) :
    (s.states_ pid = none → s.wake_process pid = (.error .schedWakeUnknown, s)) ∧
    (∀ ops : List SchedOp,
      (∀ op ∈ ops, op ≠ .add_process pid ∧ op ≠ .terminate_process pid) →
      (Scheduler.mk0.run ops).wake_process pid =
        (.error .schedWakeUnknown, Scheduler.mk0.run ops)) ∧
    (∀ st, s.states_ pid = some st → st ≠ .BLOCKED → s.wake_process pid = (.ok (), s)) ∧
    (s.states_ pid = some .BLOCKED →
      (s.wake_process pid).1 = .ok () ∧
      (s.wake_process pid).2.states_ pid = some .READY ∧
      (∀ q, q ≠ pid → (s.wake_process pid).2.states_ q = s.states_ q) ∧
      (s.wake_process pid).2.ready_queue_ = s.ready_queue_ ++ [pid] ∧
      (s.wake_process pid).2.current_ = s.current_ ∧
      (s.wake_process pid).2.wake_process pid = (.ok (), (s.wake_process pid).2) ∧
      ((s.wake_process pid).2.wake_process pid).2.ready_queue_ = s.ready_queue_ ++ [pid]) := by
  have hnone : ∀ t : Scheduler, t.states_ pid = none →
      t.wake_process pid = (.error .schedWakeUnknown, t) := by
    intro t ht
    unfold Scheduler.wake_process
    rw [ht]
  have hother : ∀ (t : Scheduler) (st : ProcessState), t.states_ pid = some st →
      st ≠ .BLOCKED → t.wake_process pid = (.ok (), t) := by
    intro t st ht hst
    unfold Scheduler.wake_process
    rw [ht]
    exact if_pos hst
  refine ⟨hnone s, fun ops hops => ?_, hother s, fun hb => ?_⟩
  · exact hnone _ (run_unknown ops Scheduler.mk0 pid (fun q hq => nomatch hq)
      (fun c hc => nomatch hc) rfl hops)
  · have e : s.wake_process pid =
        (.ok (), { s with states_ := setState s.states_ pid .READY
                          ready_queue_ := s.ready_queue_ ++ [pid] }) := by
      unfold Scheduler.wake_process
      rw [hb]
      exact if_neg (fun h => h rfl)
    have h2 : (s.wake_process pid).2.states_ pid = some .READY := by
      rw [e]; simp [setState]
    have e2 := hother (s.wake_process pid).2 .READY h2 (by decide)
    refine ⟨by rw [e], h2, fun q hq => ?_, by rw [e], by rw [e], e2, ?_⟩
    · rw [e]; simp [setState, hq]
    · rw [e2, e]

/-- Witness of C21 on `exSchedBlocked` (pid 3 blocked, pid 1 queued, pid 9 unknown): waking
9 fails, waking the `READY` pid 1 changes nothing, waking 3 appends it once and a second
wake leaves the queue `[1, 3]`. -/
theorem C21_witness :
    exSchedBlocked.states_ 9 = none ∧
    exSchedBlocked.wake_process 9 = (.error .schedWakeUnknown, exSchedBlocked) ∧
    (Scheduler.mk0.run [.add_process 3, .schedule_next]).wake_process 9 =
      (.error .schedWakeUnknown, Scheduler.mk0.run [.add_process 3, .schedule_next]) ∧
    exSchedBlocked.states_ 1 = some .READY ∧
    exSchedBlocked.wake_process 1 = (.ok (), exSchedBlocked) ∧
    exSchedBlocked.states_ 3 = some .BLOCKED ∧
    exSchedBlocked.ready_queue_ = [1] ∧
    (exSchedBlocked.wake_process 3).2.states_ 3 = some .READY ∧
    (exSchedBlocked.wake_process 3).2.ready_queue_ = [1, 3] ∧
    ((exSchedBlocked.wake_process 3).2.wake_process 3).2.ready_queue_ = [1, 3] :=
  have h9 := C21_wake_process exSchedBlocked 9
  have h1 := C21_wake_process exSchedBlocked 1
  have h3 := (C21_wake_process exSchedBlocked 3).2.2.2 rfl
  ⟨rfl, h9.1 rfl, h9.2.1 [.add_process 3, .schedule_next] (by decide), rfl,
    h1.2.2.1 .READY rfl (by decide), rfl, rfl, h3.2.1, h3.2.2.2.1.trans rfl,
    h3.2.2.2.2.2.2.trans rfl⟩

/-- Claim C22: `terminate_process(pid)` for every scheduler state and every pid: afterwards
the state of `pid` is `TERMINATED`; `pid` does not occur in the ready queue, which is the
old queue without the occurrences of `pid` (the other entries in their old order);
`current` is cleared if it was `pid` and unchanged otherwise; the states of all other
pids are unchanged. -/
theorem C22_terminate_process (s : Scheduler) (pid : Nat) :
    (s.terminate_process pid).states_ pid = some .TERMINATED ∧
    pid ∉ (s.terminate_process pid).ready_queue_ ∧
    (s.terminate_process pid).ready_queue_ = s.ready_queue_.filter (fun q => decide (q ≠ pid)) ∧
    (s.current_ = some pid → (s.terminate_process pid).current_ = none) ∧
    (s.current_ ≠ some pid → (s.terminate_process pid).current_ = s.current_) ∧
    ∀ q, q ≠ pid → (s.terminate_process pid).states_ q = s.states_ q := by
  have hf : (s.terminate_process pid).ready_queue_ =
      s.ready_queue_.filter (fun q => decide (q ≠ pid)) := by
    unfold Scheduler.terminate_process
    simp only
    congr 1
    funext q
    by_cases h : q = pid <;> simp [h]
  refine ⟨by simp [Scheduler.terminate_process, setState], ?_, hf, fun h => ?_, fun h => ?_,
    fun q hq => ?_⟩
  · rw [hf]
    intro hm
    have := (List.mem_filter.mp hm).2
    simp at this
  · simp [Scheduler.terminate_process, h]
  · simp [Scheduler.terminate_process, h]
  · simp [Scheduler.terminate_process, setState, hq]

/-- Witness of C22 on `exSchedQueue` (pid 2 running, queue `[1, 2, 3, 2]`): terminating 2
leaves the queue `[1, 3]` and clears `current`; terminating 3 leaves `current` at 2. -/
theorem C22_witness :
    exSchedQueue.current_ = some 2 ∧
    (exSchedQueue.terminate_process 2).states_ 2 = some .TERMINATED ∧
    (exSchedQueue.terminate_process 2).ready_queue_ = [1, 3] ∧
    (exSchedQueue.terminate_process 2).current_ = none ∧
    (exSchedQueue.terminate_process 2).states_ 1 = some .READY ∧
    (exSchedQueue.terminate_process 3).current_ = some 2 :=
  have h2 := C22_terminate_process exSchedQueue 2
  have h3 := C22_terminate_process exSchedQueue 3
  ⟨rfl, h2.1, h2.2.2.1.trans rfl, h2.2.2.2.1 rfl, (h2.2.2.2.2.2 1 (by decide)).trans rfl,
    (h3.2.2.2.2.1 (by decide)).trans rfl⟩

/-! ## The translation cache as a sequence -/

/-- The first loop of `insert` on a sequence split at its first entry tagged `(pid, vpn)`. -/
theorem tlbUpdate_of_split (pre post : List TLBEntry) (e : TLBEntry) (pid vpn : Nat) (f : Int)
    (hpre : ∀ x ∈ pre, ¬ (x.pid = pid ∧ x.vpn = vpn)) (h1 : e.pid = pid) (h2 : e.vpn = vpn) :
    tlbUpdate (pre ++ e :: post) pid vpn f = some (pre ++ { e with frame_id := f } :: post) := by
  induction pre with
  | nil => simp [tlbUpdate, h1, h2]
  | cons x pre ih =>
    have hx := hpre x (List.mem_cons_self _ _)
    simp only [List.cons_append, tlbUpdate, if_neg hx, List.append_eq]
    rw [ih (fun y hy => hpre y (List.mem_cons_of_mem _ hy))]
    rfl

/-- A sequence that holds an entry with a given property splits at the first such entry. -/
theorem split_first (es : List TLBEntry) (pid vpn : Nat)
    (h : ∃ e ∈ es, e.pid = pid ∧ e.vpn = vpn) :
    ∃ pre e post, es = pre ++ e :: post ∧ (∀ x ∈ pre, ¬ (x.pid = pid ∧ x.vpn = vpn)) ∧
      e.pid = pid ∧ e.vpn = vpn := by
  induction es with
  | nil => obtain ⟨e, he, _⟩ := h; cases he
  | cons x es ih =>
    by_cases hx : x.pid = pid ∧ x.vpn = vpn
    · exact ⟨[], x, es, rfl, fun y hy => (nomatch hy), hx.1, hx.2⟩
    · obtain ⟨e, he, het⟩ := h
      rcases List.mem_cons.mp he with rfl | he
      · exact absurd het hx
      · obtain ⟨pre, e1, post, h1, h2, h3⟩ := ih ⟨e, he, het⟩
        refine ⟨x :: pre, e1, post, by rw [h1]; rfl, ?_, h3⟩
        intro y hy
        rcases List.mem_cons.mp hy with rfl | hy
        · exact hx
        · exact h2 y hy

/-- The scan of `lookup` on a sequence split at its first entry tagged `(pid, vpn)`. -/
theorem find_of_split (pre post : List TLBEntry) (e : TLBEntry) (pid vpn : Nat)
    (hpre : ∀ x ∈ pre, ¬ (x.pid = pid ∧ x.vpn = vpn)) (h1 : e.pid = pid) (h2 : e.vpn = vpn) :
    (pre ++ e :: post).find? (fun e => decide (e.pid = pid) && decide (e.vpn = vpn)) = some e := by
  induction pre with
  | nil => simp [List.find?, h1, h2]
  | cons x pre ih =>
    have hx := hpre x (List.mem_cons_self _ _)
    have hb : (decide (x.pid = pid) && decide (x.vpn = vpn)) = false := by
      by_cases ha : x.pid = pid
      · have : x.vpn ≠ vpn := fun hv => hx ⟨ha, hv⟩
        simp [this]
      · simp [ha]
    simp only [List.cons_append, List.find?, hb]
    exact ih (fun y hy => hpre y (List.mem_cons_of_mem _ hy))

theorem tlbUpdate_length {es r : List TLBEntry} {pid vpn : Nat} {f : Int}
    (h : tlbUpdate es pid vpn f = some r) : r.length = es.length := by
  induction es generalizing r with
  | nil => simp [tlbUpdate] at h
  | cons e es ih =>
    by_cases he : e.pid = pid ∧ e.vpn = vpn
    · simp only [tlbUpdate, if_pos he, Option.some.injEq] at h
      subst h; rfl
    · simp only [tlbUpdate, if_neg he, Option.map_eq_some'] at h
      obtain ⟨r0, hr0, rfl⟩ := h
      simp [ih hr0]

/-- The shape of `insert` when no entry is tagged `(pid, vpn)`. -/
theorem TLB.insert_of_not_holds (t : TLB) (pid vpn : Nat) (f : Int) (h : ¬ t.holds pid vpn) :
    (t.insert pid vpn f).impl_.entries =
      (if t.impl_.entries.length ≥ t.impl_.capacity then t.impl_.entries.tail
       else t.impl_.entries) ++ [{ pid := pid, vpn := vpn, frame_id := f, referenced := false }] := by
  have hn : tlbUpdate t.impl_.entries pid vpn f = none :=
    (tlbUpdate_none_iff _ _ _ _).mpr (fun e he hc => h ⟨e, he, hc⟩)
  unfold TLB.insert TLBImpl.insert
  simp only [hn]

/-- The function `insert` keeps the capacity and never makes a cache of positive capacity
longer than its capacity. -/
theorem TLB.insert_length (t : TLB) (pid vpn : Nat) (f : Int)
    (hcap : 0 < t.impl_.capacity) (h : t.impl_.entries.length ≤ t.impl_.capacity) :
    (t.insert pid vpn f).impl_.capacity = t.impl_.capacity ∧
    (t.insert pid vpn f).impl_.entries.length ≤ t.impl_.capacity := by
  unfold TLB.insert TLBImpl.insert
  cases hu : tlbUpdate t.impl_.entries pid vpn f with
  | some r =>
    exact ⟨rfl, (tlbUpdate_length hu).le.trans h⟩
  | none =>
    refine ⟨rfl, ?_⟩
    show ((if t.impl_.entries.length ≥ t.impl_.capacity then t.impl_.entries.tail
       else t.impl_.entries) ++ [_]).length ≤ _
    by_cases hc : t.impl_.entries.length ≥ t.impl_.capacity
    · rw [if_pos hc]
      simp only [List.length_append, List.length_tail, List.length_singleton]
      omega
    · rw [if_neg hc]
      simp only [List.length_append, List.length_singleton]
      omega

/-- One call keeps the capacity and the bound of a cache of positive capacity. -/
theorem TLB.step_length (t : TLB) (op : TLBOp)
    (hcap : 0 < t.impl_.capacity) (h : t.impl_.entries.length ≤ t.impl_.capacity) :
    (t.step op).impl_.capacity = t.impl_.capacity ∧
    (t.step op).impl_.entries.length ≤ t.impl_.capacity := by
  cases op with
  | lookup pid vpn =>
    simp only [TLB.step]
    rw [(TLB.lookup_entries t pid vpn).1, (TLB.lookup_entries t pid vpn).2]
    exact ⟨rfl, h⟩
  | insert pid vpn f => exact TLB.insert_length t pid vpn f hcap h
  | flush_process pid =>
    exact ⟨rfl, (List.length_filter_le _ _).trans h⟩
  | invalidate pid vpn =>
    exact ⟨rfl, (List.length_filter_le _ _).trans h⟩
  | flush_all => exact ⟨rfl, Nat.zero_le _⟩

/-- The bound of claim C24 for every positive capacity: after every sequence of calls on
an empty cache of capacity `capacity ≥ 1` the cache holds at most `capacity` entries. -/
theorem TLB.run_length_le (ops : List TLBOp) (t : TLB)
    (hcap : 0 < t.impl_.capacity) (h : t.impl_.entries.length ≤ t.impl_.capacity) :
    (t.run ops).impl_.capacity = t.impl_.capacity ∧
    (t.run ops).impl_.entries.length ≤ t.impl_.capacity := by
  induction ops generalizing t with
  | nil => exact ⟨rfl, h⟩
  | cons op ops ih =>
    obtain ⟨a, b⟩ := TLB.step_length t op hcap h
    have := ih (t.step op) (a ▸ hcap) (a ▸ b)
    rw [a] at this
    exact this

/-- From the constructor: for every capacity `capacity ≥ 1` and every sequence of calls
on `TLB(capacity)`, the cache never holds more than `capacity` entries. -/
theorem TLB.mk0_run_length_le (capacity : Nat) (hcap : 0 < capacity) (ops : List TLBOp) :
    ((TLB.mk0 capacity).run ops).impl_.entries.length ≤ capacity :=
  (TLB.run_length_le ops (TLB.mk0 capacity) hcap (Nat.zero_le _)).2

/-! ## Claims C23, C25 and C26 -/

/-- Claim C23: `insert(pid, vpn, frame_id)` on the translation cache.  If an entry tagged
`(pid, vpn)` exists, the first such entry gets the new `frame_id` and nothing else changes:
same entries in the same order, same length.  Otherwise, if the cache holds fewer entries
than its capacity the entry `{pid, vpn, frame_id, referenced = false}` is appended at the
back, and if the size equals the (positive) capacity the front entry is dropped first,
all other entries keeping their order.  The capacity and the counters are not touched. -/
theorem C23_insert (t : TLB) (pid vpn : Nat) (frame_id : Int) :
    (∀ pre e post, t.impl_.entries = pre ++ e :: post →
      (∀ x ∈ pre, ¬ (x.pid = pid ∧ x.vpn = vpn)) → e.pid = pid → e.vpn = vpn →
      (t.insert pid vpn frame_id).impl_.entries = pre ++ { e with frame_id := frame_id } :: post) ∧
    (t.holds pid vpn →
      ∃ pre e post, t.impl_.entries = pre ++ e :: post ∧ e.pid = pid ∧ e.vpn = vpn ∧
        (t.insert pid vpn frame_id).impl_.entries =
          pre ++ { e with frame_id := frame_id } :: post) ∧
    (¬ t.holds pid vpn → t.impl_.entries.length < t.impl_.capacity →
      (t.insert pid vpn frame_id).impl_.entries =
        t.impl_.entries ++ [{ pid := pid, vpn := vpn, frame_id := frame_id, referenced := false }]) ∧
    (¬ t.holds pid vpn → t.impl_.entries.length = t.impl_.capacity → 0 < t.impl_.capacity →
      t.impl_.entries ≠ [] ∧
      (t.insert pid vpn frame_id).impl_.entries =
        t.impl_.entries.tail ++
          [{ pid := pid, vpn := vpn, frame_id := frame_id, referenced := false }]) ∧
    (t.insert pid vpn frame_id).impl_.capacity = t.impl_.capacity ∧
    (t.insert pid vpn frame_id).impl_.hits = t.impl_.hits ∧
    (t.insert pid vpn frame_id).impl_.misses = t.impl_.misses ∧
    (t.insert pid vpn frame_id).hits_ = t.hits_ ∧
    (t.insert pid vpn frame_id).misses_ = t.misses_ := by
  have hA : ∀ pre e post, t.impl_.entries = pre ++ e :: post →
      (∀ x ∈ pre, ¬ (x.pid = pid ∧ x.vpn = vpn)) → e.pid = pid → e.vpn = vpn →
      (t.insert pid vpn frame_id).impl_.entries =
        pre ++ { e with frame_id := frame_id } :: post := by
    intro pre e post hs hpre h1 h2
    have hu := tlbUpdate_of_split pre post e pid vpn frame_id hpre h1 h2
    rw [← hs] at hu
    unfold TLB.insert TLBImpl.insert
    simp only [hu]
  have hcnt : (t.insert pid vpn frame_id).impl_.capacity = t.impl_.capacity ∧
      (t.insert pid vpn frame_id).impl_.hits = t.impl_.hits ∧
      (t.insert pid vpn frame_id).impl_.misses = t.impl_.misses := by
    unfold TLB.insert TLBImpl.insert
    cases tlbUpdate t.impl_.entries pid vpn frame_id <;> exact ⟨rfl, rfl, rfl⟩
  refine ⟨hA, fun hh => ?_, fun hh hl => ?_, fun hh hl hc => ?_, hcnt.1, hcnt.2.1, hcnt.2.2,
    rfl, rfl⟩
  · obtain ⟨pre, e, post, hs, hpre, h1, h2⟩ := split_first t.impl_.entries pid vpn hh
    exact ⟨pre, e, post, hs, h1, h2, hA pre e post hs hpre h1 h2⟩
  · rw [TLB.insert_of_not_holds t pid vpn frame_id hh, if_neg (by omega)]
  · refine ⟨fun he => ?_, ?_⟩
    · rw [he] at hl
      simp only [List.length_nil] at hl
      omega
    · rw [TLB.insert_of_not_holds t pid vpn frame_id hh, if_pos (by omega)]

/-- Witness of C23: on the full cache `exTlbFull` the insert of the cached tag `(2, 5)`
rewrites the middle entry in place and the insert of the new tag `(3, 1)` drops the front
entry; on `exTlbTwo` the new tag is appended without a drop. -/
theorem C23_witness :
    exTlbFull.impl_.entries =
      [{ pid := 1, vpn := 5, frame_id := 0 }] ++ { pid := 2, vpn := 5, frame_id := 1 } ::
        [{ pid := 1, vpn := 6, frame_id := 2 }] ∧
    (exTlbFull.insert 2 5 9).impl_.entries =
      [{ pid := 1, vpn := 5, frame_id := 0 }, { pid := 2, vpn := 5, frame_id := 9 },
        { pid := 1, vpn := 6, frame_id := 2 }] ∧
    ¬ exTlbFull.holds 3 1 ∧ exTlbFull.impl_.entries.length = exTlbFull.impl_.capacity ∧
    (exTlbFull.insert 3 1 7).impl_.entries =
      [{ pid := 2, vpn := 5, frame_id := 1 }, { pid := 1, vpn := 6, frame_id := 2 },
        { pid := 3, vpn := 1, frame_id := 7 }] ∧
    exTlbTwo.impl_.entries.length < exTlbTwo.impl_.capacity ∧
    (exTlbTwo.insert 3 1 7).impl_.entries =
      [{ pid := 1, vpn := 5, frame_id := 0 }, { pid := 2, vpn := 5, frame_id := 1 },
        { pid := 3, vpn := 1, frame_id := 7 }] :=
  ⟨rfl,
    (C23_insert exTlbFull 2 5 9).1 [{ pid := 1, vpn := 5, frame_id := 0 }]
      { pid := 2, vpn := 5, frame_id := 1 } [{ pid := 1, vpn := 6, frame_id := 2 }] rfl
      (by decide) rfl rfl,
    by decide, rfl,
    ((C23_insert exTlbFull 3 1 7).2.2.2.1 (by decide) rfl (by decide)).2,
    by decide,
    (C23_insert exTlbTwo 3 1 7).2.2.1 (by decide) (by decide)⟩

/-- Claim C25: `lookup(pid, vpn)` on the translation cache.  If an entry tagged
`(pid, vpn)` exists, the call returns the `frame_id` of the first such entry and adds one
to `hits` (as a 64-bit counter), `misses` unchanged; otherwise it returns absence and adds
one to `misses`, `hits` unchanged.  The public counters `hits_` and `misses_` are copies
of the two counters after the call.  The entry sequence is the same before and after. -/
theorem C25_lookup (t : TLB) (pid vpn : Nat) :
    (∀ pre e post, t.impl_.entries = pre ++ e :: post →
      (∀ x ∈ pre, ¬ (x.pid = pid ∧ x.vpn = vpn)) → e.pid = pid → e.vpn = vpn →
      (t.lookup pid vpn).1 = some e.frame_id ∧
      (t.lookup pid vpn).2.impl_.hits = (t.impl_.hits + 1) % 2 ^ 64 ∧
      (t.lookup pid vpn).2.impl_.misses = t.impl_.misses) ∧
    (t.holds pid vpn →
      (∃ e ∈ t.impl_.entries, e.pid = pid ∧ e.vpn = vpn ∧
        (t.lookup pid vpn).1 = some e.frame_id) ∧
      (t.lookup pid vpn).2.impl_.hits = (t.impl_.hits + 1) % 2 ^ 64 ∧
      (t.lookup pid vpn).2.impl_.misses = t.impl_.misses) ∧
    (¬ t.holds pid vpn →
      (t.lookup pid vpn).1 = none ∧
      (t.lookup pid vpn).2.impl_.misses = (t.impl_.misses + 1) % 2 ^ 64 ∧
      (t.lookup pid vpn).2.impl_.hits = t.impl_.hits) ∧
    (t.lookup pid vpn).2.hits_ = (t.lookup pid vpn).2.impl_.hits ∧
    (t.lookup pid vpn).2.misses_ = (t.lookup pid vpn).2.impl_.misses ∧
    (t.lookup pid vpn).2.impl_.entries = t.impl_.entries ∧
    (t.lookup pid vpn).2.impl_.capacity = t.impl_.capacity := by
  have hA : ∀ pre e post, t.impl_.entries = pre ++ e :: post →
      (∀ x ∈ pre, ¬ (x.pid = pid ∧ x.vpn = vpn)) → e.pid = pid → e.vpn = vpn →
      (t.lookup pid vpn).1 = some e.frame_id ∧
      (t.lookup pid vpn).2.impl_.hits = (t.impl_.hits + 1) % 2 ^ 64 ∧
      (t.lookup pid vpn).2.impl_.misses = t.impl_.misses := by
    intro pre e post hs hpre h1 h2
    have hf := find_of_split pre post e pid vpn hpre h1 h2
    rw [← hs] at hf
    unfold TLB.lookup TLBImpl.lookup
    simp only [hf, and_self]
  refine ⟨hA, fun hh => ?_, fun hh => ?_, ?_, ?_, (TLB.lookup_entries t pid vpn).1,
    (TLB.lookup_entries t pid vpn).2⟩
  · obtain ⟨pre, e, post, hs, hpre, h1, h2⟩ := split_first t.impl_.entries pid vpn hh
    obtain ⟨a, b, c⟩ := hA pre e post hs hpre h1 h2
    exact ⟨⟨e, by rw [hs]; exact List.mem_append_right _ (List.mem_cons_self _ _), h1, h2, a⟩,
      b, c⟩
  · have hf : t.impl_.entries.find? (fun e => decide (e.pid = pid) && decide (e.vpn = vpn))
        = none := by
      rw [List.find?_eq_none]
      intro e he hc
      simp only [Bool.and_eq_true, decide_eq_true_eq] at hc
      exact hh ⟨e, he, hc⟩
    unfold TLB.lookup TLBImpl.lookup
    simp only [hf, and_self]
  · unfold TLB.lookup; rfl
  · unfold TLB.lookup; rfl

/-- Witness of C25 on `exTlbFull`, whose counters are zero: the lookup of the cached tag
`(2, 5)` returns frame 1 and counts a hit, the lookup of `(3, 1)` returns absence and
counts a miss. -/
theorem C25_witness :
    (exTlbFull.lookup 2 5).1 = some 1 ∧ (exTlbFull.lookup 2 5).2.impl_.hits = 1 ∧
    (exTlbFull.lookup 2 5).2.impl_.misses = 0 ∧
    ¬ exTlbFull.holds 3 1 ∧
    (exTlbFull.lookup 3 1).1 = none ∧ (exTlbFull.lookup 3 1).2.impl_.misses = 1 ∧
    (exTlbFull.lookup 3 1).2.impl_.hits = 0 :=
  have h := (C25_lookup exTlbFull 2 5).1 [{ pid := 1, vpn := 5, frame_id := 0 }]
      { pid := 2, vpn := 5, frame_id := 1 } [{ pid := 1, vpn := 6, frame_id := 2 }] rfl
      (by decide) rfl rfl
  have m := (C25_lookup exTlbFull 3 1).2.2.1 (by decide)
  ⟨h.1, h.2.1.trans rfl, h.2.2.trans rfl, by decide, m.1, m.2.1.trans rfl, m.2.2.trans rfl⟩

/-- Claim C26: removal from the translation cache.  `flush_process(pid)` leaves exactly the
entries whose pid differs from `pid`, in their old order; `invalidate(pid, vpn)` leaves
exactly the entries whose tag differs from `(pid, vpn)`, in their old order; neither
changes the hit or miss counters or the capacity; a lookup of a removed tag right after
is a miss: it returns absence and counts one miss. -/
theorem C26_removal (t : TLB) (pid vpn : Nat) :
    (t.flush_process pid).impl_.entries =
      t.impl_.entries.filter (fun e => decide (e.pid ≠ pid)) ∧
    (t.invalidate pid vpn).impl_.entries =
      t.impl_.entries.filter (fun e => decide (¬ (e.pid = pid ∧ e.vpn = vpn))) ∧
    ((t.flush_process pid).impl_.hits = t.impl_.hits ∧
      (t.flush_process pid).impl_.misses = t.impl_.misses ∧
      (t.flush_process pid).hits_ = t.hits_ ∧ (t.flush_process pid).misses_ = t.misses_ ∧
      (t.flush_process pid).impl_.capacity = t.impl_.capacity) ∧
    ((t.invalidate pid vpn).impl_.hits = t.impl_.hits ∧
      (t.invalidate pid vpn).impl_.misses = t.impl_.misses ∧
      (t.invalidate pid vpn).hits_ = t.hits_ ∧ (t.invalidate pid vpn).misses_ = t.misses_ ∧
      (t.invalidate pid vpn).impl_.capacity = t.impl_.capacity) ∧
    (∀ v, ((t.flush_process pid).lookup pid v).1 = none ∧
      ((t.flush_process pid).lookup pid v).2.impl_.misses = (t.impl_.misses + 1) % 2 ^ 64 ∧
      ((t.flush_process pid).lookup pid v).2.impl_.hits = t.impl_.hits) ∧
    ((t.invalidate pid vpn).lookup pid vpn).1 = none ∧
    ((t.invalidate pid vpn).lookup pid vpn).2.impl_.misses = (t.impl_.misses + 1) % 2 ^ 64 ∧
    ((t.invalidate pid vpn).lookup pid vpn).2.impl_.hits = t.impl_.hits := by
  have hmiss : ∀ (u : TLB) (p v : Nat), ¬ u.holds p v →
      (u.lookup p v).1 = none ∧
      (u.lookup p v).2.impl_.misses = (u.impl_.misses + 1) % 2 ^ 64 ∧
      (u.lookup p v).2.impl_.hits = u.impl_.hits := by
    intro u p v hh
    have hf : u.impl_.entries.find? (fun e => decide (e.pid = p) && decide (e.vpn = v))
        = none := by
      rw [List.find?_eq_none]
      intro e he hc
      simp only [Bool.and_eq_true, decide_eq_true_eq] at hc
      exact hh ⟨e, he, hc⟩
    unfold TLB.lookup TLBImpl.lookup
    simp only [hf, and_self]
  have hfl : ∀ v, ¬ (t.flush_process pid).holds pid v := by
    intro v
    unfold TLB.holds TLB.flush_process TLBImpl.flush_process
    rintro ⟨e, he, h1, _⟩
    simp [List.mem_filter, h1] at he
  refine ⟨?_, ?_, ⟨rfl, rfl, rfl, rfl, rfl⟩, ⟨rfl, rfl, rfl, rfl, rfl⟩, fun v => hmiss _ pid v (hfl v),
    hmiss _ pid vpn (TLB.invalidate_not_holds t pid vpn)⟩
  · unfold TLB.flush_process TLBImpl.flush_process
    simp only
    congr 1
    funext e
    by_cases h : e.pid = pid <;> simp [h]
  · unfold TLB.invalidate TLBImpl.invalidate
    simp only
    congr 1
    funext e
    by_cases h : e.pid = pid <;> by_cases h2 : e.vpn = vpn <;> simp [h, h2]

/-! ## Claims C27 and C29 -/

/-- Claim C27: `unregister_process(pid)`.  For an unregistered pid the MMU is unchanged.
Otherwise, afterwards `pid` is not registered; the translation cache holds exactly the old
entries with another pid, in their old order, with its counters as before; every other
process, so its page table, is unchanged; the frame table is unchanged, so frames that
held pages of the process stay occupied with their old pid and vpn; page size and metrics
are unchanged. -/
theorem C27_unregister_process (m : MMU) (pid : Nat) :
    (m.processes_ pid = none → m.unregister_process pid = m) ∧
    (∀ proc, m.processes_ pid = some proc →
      (m.unregister_process pid).processes_ pid = none ∧
      (m.unregister_process pid).tlb_.impl_.entries =
        m.tlb_.impl_.entries.filter (fun e => decide (e.pid ≠ pid)) ∧
      (∀ e ∈ (m.unregister_process pid).tlb_.impl_.entries, e.pid ≠ pid) ∧
      (m.unregister_process pid).tlb_.impl_.hits = m.tlb_.impl_.hits ∧
      (m.unregister_process pid).tlb_.impl_.misses = m.tlb_.impl_.misses ∧
      (∀ q, q ≠ pid → (m.unregister_process pid).processes_ q = m.processes_ q) ∧
      (m.unregister_process pid).pmem_ = m.pmem_ ∧
      (m.unregister_process pid).page_size_ = m.page_size_ ∧
      (m.unregister_process pid).metrics_ = m.metrics_) := by
  refine ⟨fun h => ?_, fun proc h => ?_⟩
  · unfold MMU.unregister_process
    rw [h]
  · have e : m.unregister_process pid =
        { m with
          tlb_ := m.tlb_.flush_process pid
          processes_ := fun q => if q = pid then none
            else modifyProcess m.processes_ pid Process.clear_page_table q } := by
      unfold MMU.unregister_process
      rw [h]
    have hf : (m.tlb_.flush_process pid).impl_.entries =
        m.tlb_.impl_.entries.filter (fun e => decide (e.pid ≠ pid)) := by
      unfold TLB.flush_process TLBImpl.flush_process
      simp only
      congr 1
      funext x
      by_cases hx : x.pid = pid <;> simp [hx]
    rw [e]
    refine ⟨by simp, hf, fun x hx => ?_, rfl, rfl, fun q hq => ?_, rfl, rfl, rfl⟩
    · have hx2 : x ∈ (m.tlb_.flush_process pid).impl_.entries := hx
      rw [hf] at hx2
      simpa using (List.mem_filter.mp hx2).2
    · simp [modifyProcess, hq]

/-- Witness of C27 on `exTwoProcs`: unregistering process 1 leaves the cache entry of
process 2, keeps both frames (frame 0 still carries page 1 of pid 1) and keeps process 2
registered; unregistering the unknown pid 5 changes nothing. -/
theorem C27_witness :
    exTwoProcs.processes_ 5 = none ∧ exTwoProcs.unregister_process 5 = exTwoProcs ∧
    exTwoProcs.tlb_.impl_.entries =
      [{ pid := 1, vpn := 1, frame_id := 0 }, { pid := 2, vpn := 3, frame_id := 1 }] ∧
    (exTwoProcs.unregister_process 1).processes_ 1 = none ∧
    (exTwoProcs.unregister_process 1).tlb_.impl_.entries = [{ pid := 2, vpn := 3, frame_id := 1 }] ∧
    (exTwoProcs.unregister_process 1).processes_ 2 = exTwoProcs.processes_ 2 ∧
    (exTwoProcs.unregister_process 1).pmem_.frames_ =
      [{ occupied := true, pid := 1, vpn := 1, last_used := 11 },
        { occupied := true, pid := 2, vpn := 3, last_used := 12 }] :=
  have h5 := (C27_unregister_process exTwoProcs 5).1 rfl
  have h1 := (C27_unregister_process exTwoProcs 1).2 _ rfl
  ⟨rfl, h5, by decide, h1.1, h1.2.1.trans (by decide), h1.2.2.2.2.2.1 2 (by decide),
    (congrArg PhysicalMemory.frames_ h1.2.2.2.2.2.2.1).trans (by decide)⟩

/-- Counterexample to claim C29 as stated, on a process built by `Process(1, 0x1000, 0x8000)`:
after `set_state(BLOCKED)` the state is `BLOCKED` and `blocked_vpn()` is empty; after
`block_on_page(5); clear_block()` likewise; after `block_on_page(5); set_state(READY)`
`blocked_vpn()` holds 5 and the state is `READY`. -/
theorem C29_counterexample :
    (((Process.mk0 1 0x1000 0x8000).run [.set_state .BLOCKED]).state = .BLOCKED ∧
      ((Process.mk0 1 0x1000 0x8000).run [.set_state .BLOCKED]).blocked_vpn = none) ∧
    (((Process.mk0 1 0x1000 0x8000).run [.block_on_page 5, .clear_block]).state = .BLOCKED ∧
      ((Process.mk0 1 0x1000 0x8000).run [.block_on_page 5, .clear_block]).blocked_vpn = none) ∧
    (((Process.mk0 1 0x1000 0x8000).run [.block_on_page 5, .set_state .READY]).state = .READY ∧
      ((Process.mk0 1 0x1000 0x8000).run [.block_on_page 5, .set_state .READY]).blocked_vpn
        = some 5) := by
  decide

/-- Claim C29, amended: for every process reached from construction by calls that keep
the two halves of the blocking state together (see `Process.ReachablePaired`),
`blocked_vpn()` holds a value if and only if `state()` is `BLOCKED`, which is what
`is_blocked()` reports. -/
theorem C29_blocked_vpn_iff_blocked (p : Process) (h : p.ReachablePaired) :
    (p.blocked_vpn.isSome = true ↔ p.state = .BLOCKED) ∧
    (p.is_blocked = true ↔ p.state = .BLOCKED) := by
  refine ⟨?_, by simp [Process.is_blocked, Process.state]⟩
  induction h with
  | init pid hb hs => simp [Process.mk0, Process.blocked_vpn, Process.state]
  | block_on_page vpn _ _ => simp [Process.block_on_page, Process.blocked_vpn, Process.state]
  | @set_state p s hs hp _ ih =>
    simp only [Process.is_blocked, decide_eq_false_iff_not] at hp
    simp only [Process.blocked_vpn, Process.state] at ih
    have hn : ¬ (p.blocked_vpn_.isSome = true) := fun hc => hp (ih.mp hc)
    simp [Process.set_state, Process.blocked_vpn, Process.state, hs, hn]
  | @clear_block p hp _ _ =>
    simp only [Process.is_blocked, decide_eq_false_iff_not] at hp
    simp [Process.clear_block, Process.blocked_vpn, Process.state, hp]
  | unblock s hs _ _ =>
    simp [Process.clear_block, Process.set_state, Process.blocked_vpn, Process.state, hs]
  | map_page vpn f _ ih => exact ih
  | @unmap_page p vpn _ ih =>
    have e : (p.unmap_page vpn).blocked_vpn = p.blocked_vpn ∧
        (p.unmap_page vpn).state = p.state := by
      unfold Process.unmap_page
      cases p.page_table_ vpn <;> exact ⟨rfl, rfl⟩
    rw [e.1, e.2]; exact ih
  | clear_page_table _ ih => exact ih
  | heap_alloc size _ ih => exact ih
  | heap_free addr _ ih => exact ih

/-- Witness of C29 on `exProcUnblocked`: made ready, blocked on page 5, then unblocked by
`clear_block(); set_state(READY)`. -/
theorem C29_witness :
    exProcUnblocked.ReachablePaired ∧
    (exProcUnblocked.blocked_vpn.isSome = true ↔ exProcUnblocked.state = .BLOCKED) ∧
    exProcUnblocked.state = .READY ∧ exProcUnblocked.blocked_vpn = none :=
  have hr : exProcUnblocked.ReachablePaired :=
    Process.ReachablePaired.unblock .READY (by decide)
      (Process.ReachablePaired.block_on_page 5
        (Process.ReachablePaired.set_state .READY (by decide) rfl
          (Process.ReachablePaired.init 1 0x1000 0x8000)))
  ⟨hr, (C29_blocked_vpn_iff_blocked exProcUnblocked hr).1, rfl, rfl⟩

/-! ## Coherence of the translation cache -/

/-- The shape of `insert` when the cache is split at its first entry tagged `(pid, vpn)`. -/
theorem TLB.insert_of_split (t : TLB) (pid vpn : Nat) (f : Int) (pre post : List TLBEntry)
    (e : TLBEntry) (hs : t.impl_.entries = pre ++ e :: post)
    (hpre : ∀ x ∈ pre, ¬ (x.pid = pid ∧ x.vpn = vpn)) (h1 : e.pid = pid) (h2 : e.vpn = vpn) :
    (t.insert pid vpn f).impl_.entries = pre ++ { e with frame_id := f } :: post := by
  have hu := tlbUpdate_of_split pre post e pid vpn f hpre h1 h2
  rw [← hs] at hu
  unfold TLB.insert TLBImpl.insert
  simp only [hu]

/-- The entries after `insert(pid, vpn, f)` on a cache without duplicate tags: the entry
tagged `(pid, vpn)` carries `f`, every other entry is an old one. -/
theorem TLB.mem_insert {t : TLB} {pid vpn : Nat} {f : Int}
    (hn : (t.impl_.entries.map TLBEntry.tag).Nodup) {e : TLBEntry}
    (he : e ∈ (t.insert pid vpn f).impl_.entries) :
    (e.pid = pid ∧ e.vpn = vpn ∧ e.frame_id = f) ∨
    (e ∈ t.impl_.entries ∧ ¬ (e.pid = pid ∧ e.vpn = vpn)) := by
  by_cases hh : t.holds pid vpn
  · obtain ⟨pre, e0, post, hs, hpre, h1, h2⟩ := split_first t.impl_.entries pid vpn hh
    rw [TLB.insert_of_split t pid vpn f pre post e0 hs hpre h1 h2] at he
    rw [hs, List.map_append, List.map_cons, List.nodup_append] at hn
    obtain ⟨_, hn2, _⟩ := hn
    have hpost : ∀ x ∈ post, ¬ (x.pid = pid ∧ x.vpn = vpn) := by
      intro x hx hc
      have h3 := (List.nodup_cons.mp hn2).1
      apply h3
      have : e0.tag = x.tag := by
        unfold TLBEntry.tag; rw [h1, h2, hc.1, hc.2]
      rw [this]
      exact List.mem_map_of_mem _ hx
    rcases List.mem_append.mp he with hm | hm
    · exact Or.inr ⟨by rw [hs]; exact List.mem_append_left _ hm, hpre e hm⟩
    · rcases List.mem_cons.mp hm with rfl | hm
      · exact Or.inl ⟨h1, h2, rfl⟩
      · exact Or.inr ⟨by rw [hs]; exact List.mem_append_right _ (List.mem_cons_of_mem _ hm),
          hpost e hm⟩
  · rw [TLB.insert_of_not_holds t pid vpn f hh] at he
    rcases List.mem_append.mp he with hm | hm
    · have hm2 : e ∈ t.impl_.entries := by
        by_cases hc : t.impl_.entries.length ≥ t.impl_.capacity
        · rw [if_pos hc] at hm; exact List.mem_of_mem_tail hm
        · rw [if_neg hc] at hm; exact hm
      exact Or.inr ⟨hm2, fun hc => hh ⟨e, hm2, hc⟩⟩
    · simp only [List.mem_singleton] at hm
      subst hm
      exact Or.inl ⟨rfl, rfl, rfl⟩

/-- The function `insert` creates no duplicate tag. -/
theorem TLB.insert_nodup (t : TLB) (pid vpn : Nat) (f : Int)
    (hn : (t.impl_.entries.map TLBEntry.tag).Nodup) :
    ((t.insert pid vpn f).impl_.entries.map TLBEntry.tag).Nodup := by
  by_cases hh : t.holds pid vpn
  · obtain ⟨pre, e0, post, hs, hpre, h1, h2⟩ := split_first t.impl_.entries pid vpn hh
    rw [TLB.insert_of_split t pid vpn f pre post e0 hs hpre h1 h2]
    rw [hs] at hn
    simpa [TLBEntry.tag] using hn
  · rw [TLB.insert_of_not_holds t pid vpn f hh, List.map_append]
    have hsub : List.Sublist (if t.impl_.entries.length ≥ t.impl_.capacity
        then t.impl_.entries.tail else t.impl_.entries) t.impl_.entries := by
      by_cases hc : t.impl_.entries.length ≥ t.impl_.capacity
      · rw [if_pos hc]; exact List.tail_sublist _
      · rw [if_neg hc]
    rw [List.nodup_append]
    refine ⟨hn.sublist (hsub.map _), List.nodup_singleton _, ?_⟩
    intro x hx hx2
    simp only [List.map_cons, List.map_nil, List.mem_singleton] at hx2
    subst hx2
    obtain ⟨e, he, het⟩ := List.mem_map.mp hx
    simp only [TLBEntry.tag, Prod.mk.injEq] at het
    exact hh ⟨e, hsub.subset he, het⟩

theorem validEntry_map_page_other {procs : Nat → Option Process} {pid vpn q v : Nat} {g f : Int}
    (h : validEntry procs q v f) (hne : ¬ (q = pid ∧ v = vpn)) :
    validEntry (modifyProcess procs pid (fun p => p.map_page vpn g)) q v f := by
  obtain ⟨proc, pte, hp, ht, hv, hf⟩ := h
  unfold modifyProcess
  by_cases hq : q = pid
  · refine ⟨proc.map_page vpn g, pte, by show (if q = pid then _ else _) = _; rw [if_pos hq, hp]; rfl, ?_, hv, hf⟩
    have hvv : ¬ v = vpn := fun hc => hne ⟨hq, hc⟩
    simp only [Process.map_page, if_neg hvv]
    exact ht
  · exact ⟨proc, pte, by show (if q = pid then _ else _) = _; rw [if_neg hq]; exact hp, ht, hv, hf⟩

theorem validEntry_map_page_self {procs : Nat → Option Process} {pid vpn : Nat} {g : Int}
    {p : Process} (h : procs pid = some p) :
    validEntry (modifyProcess procs pid (fun p => p.map_page vpn g)) pid vpn g := by
  refine ⟨p.map_page vpn g, { valid := true, frame_id := g }, ?_, ?_, rfl, rfl⟩
  · unfold modifyProcess; rw [if_pos rfl, h]; rfl
  · simp [Process.map_page]

theorem validEntry_unmap_page_other {procs : Nat → Option Process} {pid vpn q v : Nat} {f : Int}
    (h : validEntry procs q v f) (hne : ¬ (q = pid ∧ v = vpn)) :
    validEntry (modifyProcess procs pid (fun p => p.unmap_page vpn)) q v f := by
  obtain ⟨proc, pte, hp, ht, hv, hf⟩ := h
  unfold modifyProcess
  by_cases hq : q = pid
  · refine ⟨proc.unmap_page vpn, pte, by show (if q = pid then _ else _) = _; rw [if_pos hq, hp]; rfl, ?_, hv, hf⟩
    have hvv : ¬ v = vpn := fun hc => hne ⟨hq, hc⟩
    unfold Process.unmap_page
    cases hpt : proc.page_table_ vpn with
    | none => exact ht
    | some e0 =>
      simp only [if_neg hvv]
      exact ht
  · exact ⟨proc, pte, by show (if q = pid then _ else _) = _; rw [if_neg hq]; exact hp, ht, hv, hf⟩

theorem TLBCoherent_register {m : MMU} (pid heap_base heap_size : Nat) (h : m.TLBCoherent) :
    (m.register_process pid heap_base heap_size).2.TLBCoherent := by
  unfold MMU.register_process
  cases hp : m.processes_ pid with
  | some p => exact h
  | none =>
    refine ⟨h.1, fun e he => ?_⟩
    obtain ⟨proc, pte, h1, h2, h3, h4⟩ := h.2 e he
    have hne : e.pid ≠ pid := fun hc => by rw [hc, hp] at h1; cases h1
    exact ⟨proc, pte, by simp only [if_neg hne]; exact h1, h2, h3, h4⟩

theorem TLBCoherent_unregister {m : MMU} (pid : Nat) (h : m.TLBCoherent) :
    (m.unregister_process pid).TLBCoherent := by
  unfold MMU.unregister_process
  cases hp : m.processes_ pid with
  | none => exact h
  | some p =>
    refine ⟨h.1.sublist (List.filter_sublist _ |>.map _), fun e he => ?_⟩
    have he2 := List.mem_filter.mp he
    have hne : e.pid ≠ pid := by simpa using he2.2
    obtain ⟨proc, pte, h1, h2, h3, h4⟩ := h.2 e he2.1
    refine ⟨proc, pte, ?_, h2, h3, h4⟩
    simp only [if_neg hne, modifyProcess]
    exact h1

theorem TLBCoherent_access {m : MMU} (pid vaddr : Nat) (h : m.TLBCoherent) :
    (m.access pid vaddr).2.TLBCoherent := by
  cases hreg : m.processes_ pid with
  | none =>
    have e : m.access pid vaddr = (.error .mmuUnknownProcess, m) := by
      unfold MMU.access MMU.process
      simp only [hreg]
    rw [e]; exact h
  | some proc =>
    have hl := (TLB.lookup_entries m.tlb_ pid (vaddr / m.page_size_)).1
    by_cases hh : m.tlb_.holds pid (vaddr / m.page_size_)
    · rw [access_of_holds hreg hh]
      exact ⟨by show (List.map _ (m.tlb_.lookup pid (vaddr / m.page_size_)).2.impl_.entries).Nodup
                rw [hl]; exact h.1,
        fun e he => h.2 e (hl ▸ he)⟩
    · cases hm : proc.has_mapping (vaddr / m.page_size_) with
      | false =>
        rw [access_of_unmapped hreg hh hm]
        exact ⟨by show (List.map _ (m.tlb_.lookup pid (vaddr / m.page_size_)).2.impl_.entries).Nodup
                  rw [hl]; exact h.1,
          fun e he => h.2 e (hl ▸ he)⟩
      | true =>
        rw [access_of_mapped hreg hh hm]
        have hn : ((m.tlb_.lookup pid (vaddr / m.page_size_)).2.impl_.entries.map
            TLBEntry.tag).Nodup := by rw [hl]; exact h.1
        refine ⟨TLB.insert_nodup _ _ _ _ hn, fun e he => ?_⟩
        rcases TLB.mem_insert hn he with ⟨h1, h2, h3⟩ | ⟨h1, _⟩
        · obtain ⟨pte, hpte, hv⟩ := (has_mapping_iff proc _).mp hm
          refine ⟨proc, pte, by rw [h1]; exact hreg, by rw [h2]; exact hpte, hv, ?_⟩
          rw [h3]
          simp [Process.get_pte, hpte]
        · exact h.2 e (hl ▸ h1)

theorem TLBCoherent_complete_pagein {m : MMU} (pid vpn now : Nat) (h : m.TLBCoherent) :
    (m.complete_pagein pid vpn now).2.TLBCoherent := by
  cases hr : (m.complete_pagein pid vpn now).1 with
  | error e =>
    rcases complete_pagein_error hr with he | ⟨res, pm1, _, _, _, he⟩
    · rw [he]; exact h
    · rw [he]; exact h
  | ok u =>
    obtain ⟨p, res, pm1, hp, _, hev, hfin⟩ := complete_pagein_ok hr
    rw [hfin]
    -- the cache and the page tables after the eviction step
    have h1 : ((if res.evicted = true then m.tlb_.invalidate res.evicted_pid res.evicted_vpn
          else m.tlb_).impl_.entries.map TLBEntry.tag).Nodup ∧
        (∀ e ∈ (if res.evicted = true then m.tlb_.invalidate res.evicted_pid res.evicted_vpn
          else m.tlb_).impl_.entries,
          validEntry (if res.evicted = true then
              modifyProcess m.processes_ res.evicted_pid (fun p => p.unmap_page res.evicted_vpn)
            else m.processes_) e.pid e.vpn e.frame_id) ∧
        ∃ p1, (if res.evicted = true then
              modifyProcess m.processes_ res.evicted_pid (fun p => p.unmap_page res.evicted_vpn)
            else m.processes_) pid = some p1 := by
      by_cases hevb : res.evicted = true
      · simp only [if_pos hevb]
        refine ⟨h.1.sublist (List.filter_sublist _ |>.map _), fun e he => ?_,
          modifyProcess_some _ _ hp⟩
        have he2 := List.mem_filter.mp he
        have hne : ¬ (e.pid = res.evicted_pid ∧ e.vpn = res.evicted_vpn) := by
          intro hc
          have h5 := he2.2
          simp [hc.1, hc.2] at h5
        exact validEntry_unmap_page_other (h.2 e he2.1) hne
      · simp only [if_neg hevb]
        exact ⟨h.1, h.2, p, hp⟩
    obtain ⟨hn, hv, p1, hp1⟩ := h1
    refine ⟨TLB.insert_nodup _ _ _ _ hn, fun e he => ?_⟩
    rcases TLB.mem_insert hn he with ⟨a, b, c⟩ | ⟨a, b⟩
    · show validEntry _ e.pid e.vpn e.frame_id
      rw [a, b, c]
      exact validEntry_map_page_self hp1
    · exact validEntry_map_page_other (hv e a) b

/-- Every state reached by normally returning calls has a coherent translation cache. -/
theorem reachableNormal_coherent {m : MMU} (h : m.ReachableNormal) : m.TLBCoherent := by
  induction h with
  | init n ps ts => exact ⟨List.nodup_nil, fun e he => nomatch he⟩
  | register_process pid hb hs _ _ ih => exact TLBCoherent_register pid hb hs ih
  | unregister_process pid _ ih => exact TLBCoherent_unregister pid ih
  | access pid vaddr _ _ _ ih => exact TLBCoherent_access pid vaddr ih
  | complete_pagein pid vpn now _ _ ih => exact TLBCoherent_complete_pagein pid vpn now ih

/-- A successful `lookup` returns the frame id of a cached entry with the tag looked up. -/
theorem TLB.lookup_some {t : TLB} {pid vpn : Nat} {f : Int} (h : (t.lookup pid vpn).1 = some f) :
    ∃ e ∈ t.impl_.entries, e.pid = pid ∧ e.vpn = vpn ∧ e.frame_id = f := by
  unfold TLB.lookup TLBImpl.lookup at h
  cases hf : t.impl_.entries.find? (fun e => decide (e.pid = pid) && decide (e.vpn = vpn)) with
  | none => simp [hf] at h
  | some e =>
    simp only [hf, Option.some.injEq] at h
    have h1 := List.find?_some hf
    simp only [Bool.and_eq_true, decide_eq_true_eq] at h1
    exact ⟨e, List.mem_of_find?_eq_some hf, h1.1, h1.2, h⟩

/-! ## Claim C30 -/

/-- Claim C30: coherence of the translation cache.  In every MMU state reached from the
initial state by `register_process`, `unregister_process`, `access` and `complete_pagein`
calls that return normally, no two cache entries share a `(pid, vpn)` tag, and every
cache entry `(pid, vpn, frame_id)` belongs to a registered process whose page table has a
valid entry for `vpn` with the same `frame_id`.  Hence whenever the cache lookup of
`access` hits, with frame `f`, the process is registered, its page table maps the page
(it would not fault), and to the same frame `f`. -/
theorem C30_tlb_coherence (m : MMU) (h : m.ReachableNormal) :
    (m.tlb_.impl_.entries.map TLBEntry.tag).Nodup ∧
    (∀ e ∈ m.tlb_.impl_.entries, ∃ proc pte, m.processes_ e.pid = some proc ∧
      proc.page_table_ e.vpn = some pte ∧ pte.valid = true ∧ pte.frame_id = e.frame_id) ∧
    (∀ pid vpn f, (m.tlb_.lookup pid vpn).1 = some f →
      ∃ proc, m.processes_ pid = some proc ∧ proc.has_mapping vpn = true ∧
        (proc.get_pte vpn).frame_id = f) := by
  obtain ⟨hn, hv⟩ := reachableNormal_coherent h
  refine ⟨hn, hv, fun pid vpn f hl => ?_⟩
  obtain ⟨e, he, h1, h2, h3⟩ := TLB.lookup_some hl
  obtain ⟨proc, pte, a, b, c, d⟩ := hv e he
  rw [h1] at a
  rw [h2] at b
  refine ⟨proc, a, (has_mapping_iff proc vpn).mpr ⟨pte, b, c⟩, ?_⟩
  rw [← h3, ← d]
  simp [Process.get_pte, b]

/-- Witness of C30 on `exTwoProcs`, reached by two registrations and two page-ins: the
lookup of `(2, 3)` hits with frame 1, the frame of the valid page-table entry. -/
theorem C30_witness :
    exTwoProcs.ReachableNormal ∧
    (exTwoProcs.tlb_.impl_.entries.map TLBEntry.tag).Nodup ∧
    (exTwoProcs.tlb_.lookup 2 3).1 = some 1 ∧
    ∃ proc, exTwoProcs.processes_ 2 = some proc ∧ proc.has_mapping 3 = true ∧
      (proc.get_pte 3).frame_id = 1 :=
  have hr : exTwoProcs.ReachableNormal :=
    .complete_pagein 2 3 12 (by decide)
      (.complete_pagein 1 1 11 (by decide)
        (.register_process 2 0x1000 0x8000 (by decide)
          (.register_process 1 0x1000 0x8000 (by decide) (.init 2 4096 16))))
  have h := C30_tlb_coherence exTwoProcs hr
  ⟨hr, h.1, by decide, h.2.2 2 3 1 (by decide)⟩

/-! ## The event loop -/

/-- A run that ends within `fuel` iterations ends the same way with one more. -/
theorem MainState.runFuel_succ (L : Nat) (fuel : Nat) (st : MainState)
    (r : Except SimError Unit × MainState) (h : MainState.runFuel L fuel st = some r) :
    MainState.runFuel L (fuel + 1) st = some r := by
  induction fuel generalizing st with
  | zero =>
    unfold MainState.runFuel at h ⊢
    by_cases he : st.eq.empty = true
    · rw [if_pos he] at h ⊢; exact h
    · rw [if_neg he] at h; cases h
  | succ n ih =>
    unfold MainState.runFuel at h ⊢
    by_cases he : st.eq.empty = true
    · rw [if_pos he] at h ⊢; exact h
    · rw [if_neg he] at h ⊢
      cases hs : st.step L with
      | mk res st1 =>
        rw [hs] at h
        cases res with
        | error e => exact h
        | ok u => exact ih st1 h

/-- A run that ends within `fuel` iterations ends the same way with any larger bound. -/
theorem MainState.runFuel_add (L : Nat) (fuel k : Nat) (st : MainState)
    (r : Except SimError Unit × MainState) (h : MainState.runFuel L fuel st = some r) :
    MainState.runFuel L (fuel + k) st = some r := by
  induction k with
  | zero => exact h
  | succ k ih => exact MainState.runFuel_succ L (fuel + k) st r ih

/-! ## Claim C28 -/

set_option maxRecDepth 100000 in
/-- Claim C28: scenario B end to end.  The event loop with `PAGE_SIZE = 4096`,
`NUM_FRAMES = 1`, `PAGEIN_LATENCY = 10` (and the cache size 16 of `main`) on the trace
`exTraceB` ends after six iterations with an empty queue and without an exception, and so
for every larger iteration bound.  It dispatches the two `PROC_START` events at time 0,
the `ACCESS` at 1, the page-in completion of pid 1 at 11, the `ACCESS` at 20 and the
page-in completion of pid 2 at 30; both accesses fault.  After the event at 30, frame 0
is occupied by `(pid 2, vpn 1)`, the page-table entry of process 1 for page 1 is not
valid, the cache has no entry tagged `(1, 1)` (its only entry is `(2, 1) → 0`), and
`access(1, 0x1000)` returns `PAGE_FAULT`. -/
theorem C28_scenario_B :
    (∀ k, MainState.runFuel 10 (6 + k) exScenarioBStart = exScenarioBRun) ∧
    exScenarioBRun.map (fun r => r.1) = some (.ok ()) ∧
    exScenarioBRun.map (fun r => r.2.eq.empty) = some true ∧
    exScenarioBRun.map (fun r => r.2.dispatched.map (fun d => (d.1, d.2.type, d.2.key.pid))) =
      some [(0, "PROC_START", 1), (0, "PROC_START", 2), (1, "ACCESS", 1),
        (11, "PAGEIN_COMPLETE", 1), (20, "ACCESS", 2), (30, "PAGEIN_COMPLETE", 2)] ∧
    exScenarioBRun.map (fun r => r.2.page_faults) = some 2 ∧
    exScenarioBRun.map (fun r => r.2.k.now_) = some 30 ∧
    exScenarioBRun.map (fun r => r.2.k.mmu.pmem_.frames_) =
      some [{ occupied := true, pid := 2, vpn := 1, last_used := 30 }] ∧
    exScenarioBRun.map (fun r => (r.2.k.mmu.processes_ 1).map (fun p => p.get_pte 1)) =
      some (some { valid := false, frame_id := -1 }) ∧
    exScenarioBRun.map (fun r => (r.2.k.mmu.processes_ 1).map (fun p => p.has_mapping 1)) =
      some (some false) ∧
    exScenarioBRun.map (fun r => decide (r.2.k.mmu.tlb_.holds 1 1)) = some false ∧
    exScenarioBRun.map (fun r => r.2.k.mmu.tlb_.impl_.entries) =
      some [{ pid := 2, vpn := 1, frame_id := 0, referenced := false }] ∧
    exScenarioBRun.map (fun r => (r.2.k.mmu.access 1 0x1000).1) = some (.ok .PAGE_FAULT) := by
  refine ⟨fun k => ?_, by decide, by decide, by decide, by decide, by decide, by decide,
    by decide, by decide, by decide, by decide, by decide⟩
  have hs : exScenarioBRun.isSome = true := by decide
  cases h : exScenarioBRun with
  | none => rw [h] at hs; cases hs
  | some r => exact MainState.runFuel_add 10 6 k exScenarioBStart r h

/-! ## The scheduler invariant -/

theorem setState_self (states : Nat → Option ProcessState) (pid : Nat) (st : ProcessState) :
    setState states pid st pid = some st := by
  simp [setState]

theorem setState_ne (states : Nat → Option ProcessState) {pid q : Nat} (st : ProcessState)
    (h : q ≠ pid) : setState states pid st q = states q := by
  simp [setState, h]

/-- Queueing a pid that becomes `READY` and was not `READY`, `RUNNING` or current before
(the common part of `add_process` and `wake_process`) keeps the invariant. -/
theorem WellFormed_enqueue (s : Scheduler) (pid : Nat) (h : s.WellFormed)
    (h1 : s.states_ pid ≠ some .READY) (h2 : s.states_ pid ≠ some .RUNNING) :
    Scheduler.WellFormed
      { s with states_ := setState s.states_ pid .READY, ready_queue_ := s.ready_queue_ ++ [pid] } := by
  obtain ⟨ha, hn, hb, hc⟩ := h
  refine ⟨fun x hx => ?_, ?_, fun x hx => ?_, fun x => ?_⟩
  · by_cases hxp : x = pid
    · rw [hxp]; exact setState_self _ _ _
    · show setState s.states_ pid .READY x = some .READY
      rw [setState_ne _ _ hxp]
      rcases List.mem_append.mp hx with hx | hx
      · exact ha x hx
      · exact absurd (List.mem_singleton.mp hx) hxp
  · show (s.ready_queue_ ++ [pid]).Nodup
    rw [List.nodup_append]
    refine ⟨hn, List.nodup_singleton _, ?_⟩
    intro x hx hx2
    rw [List.mem_singleton.mp hx2] at hx
    exact h1 (ha pid hx)
  · show x ∈ s.ready_queue_ ++ [pid]
    by_cases hxp : x = pid
    · rw [hxp]; exact List.mem_append_right _ (List.mem_singleton_self _)
    · have hx2 : setState s.states_ pid .READY x = some .READY := hx
      rw [setState_ne _ _ hxp] at hx2
      exact List.mem_append_left _ (hb x hx2)
  · show setState s.states_ pid .READY x = some .RUNNING ↔ s.current_ = some x
    by_cases hxp : x = pid
    · rw [hxp, setState_self]
      constructor
      · intro hc2; cases hc2
      · intro hc2; exact absurd ((hc pid).mpr hc2) h2
    · rw [setState_ne _ _ hxp]; exact hc x

/-- Every call of the scheduler keeps the invariant, whether it returns or throws. -/
theorem WellFormed_step (s : Scheduler) (op : SchedOp) (h : s.WellFormed) :
    (s.step op).WellFormed := by
  cases op with
  | add_process pid =>
    simp only [Scheduler.step, Scheduler.add_process]
    cases hs : s.states_ pid with
    | some st => exact h
    | none =>
      exact WellFormed_enqueue s pid h (by rw [hs]; exact fun hc => nomatch hc)
        (by rw [hs]; exact fun hc => nomatch hc)
  | wake_process pid =>
    simp only [Scheduler.step, Scheduler.wake_process]
    cases hs : s.states_ pid with
    | none => exact h
    | some st =>
      by_cases hb : st = .BLOCKED
      · simp only [hb, ne_eq, not_true_eq_false, if_false]
        exact WellFormed_enqueue s pid h (by rw [hs, hb]; exact fun hc => nomatch hc)
          (by rw [hs, hb]; exact fun hc => nomatch hc)
      · simp only [ne_eq, hb, not_false_eq_true, if_true]
        exact h
  | terminate_process pid =>
    obtain ⟨ha, hn, hb, hc⟩ := h
    simp only [Scheduler.step, Scheduler.terminate_process]
    refine ⟨fun x hx => ?_, hn.filter _, fun x hx => ?_, fun x => ?_⟩
    · have hx2 := List.mem_filter.mp hx
      have hxp : x ≠ pid := by simpa using hx2.2
      show setState s.states_ pid .TERMINATED x = some .READY
      rw [setState_ne _ _ hxp]; exact ha x hx2.1
    · have hx2 : setState s.states_ pid .TERMINATED x = some .READY := hx
      have hxp : x ≠ pid := by
        intro hc2
        rw [hc2, setState_self] at hx2
        cases hx2
      rw [setState_ne _ _ hxp] at hx2
      exact List.mem_filter.mpr ⟨hb x hx2, by simpa using hxp⟩
    · show setState s.states_ pid .TERMINATED x = some .RUNNING ↔
        (if s.current_ = some pid then none else s.current_) = some x
      by_cases hxp : x = pid
      · rw [hxp, setState_self]
        constructor
        · intro hc2; cases hc2
        · intro hc2
          by_cases hcur : s.current_ = some pid
          · rw [if_pos hcur] at hc2; cases hc2
          · rw [if_neg hcur] at hc2; exact absurd hc2 hcur
      · rw [setState_ne _ _ hxp]
        by_cases hcur : s.current_ = some pid
        · rw [if_pos hcur]
          constructor
          · intro hr
            have := (hc x).mp hr
            rw [hcur] at this
            exact absurd (Option.some.inj this).symm hxp
          · intro hc2; cases hc2
        · rw [if_neg hcur]; exact hc x
  | block_current =>
    simp only [Scheduler.step, Scheduler.block_current]
    cases hcur : s.current_ with
    | none => exact h
    | some c =>
      obtain ⟨ha, hn, hb, hc⟩ := h
      have hrun : s.states_ c = some .RUNNING := (hc c).mpr hcur
      refine ⟨fun x hx => ?_, hn, fun x hx => ?_, fun x => ?_⟩
      · have hxc : x ≠ c := by
          intro e
          have := ha x hx
          rw [e, hrun] at this
          cases this
        show setState s.states_ c .BLOCKED x = some .READY
        rw [setState_ne _ _ hxc]; exact ha x hx
      · have hx2 : setState s.states_ c .BLOCKED x = some .READY := hx
        have hxc : x ≠ c := by
          intro e
          rw [e, setState_self] at hx2
          cases hx2
        rw [setState_ne _ _ hxc] at hx2
        exact hb x hx2
      · show setState s.states_ c .BLOCKED x = some .RUNNING ↔ none = some x
        constructor
        · intro hx
          by_cases hxc : x = c
          · rw [hxc, setState_self] at hx; cases hx
          · rw [setState_ne _ _ hxc] at hx
            have := (hc x).mp hx
            rw [hcur] at this
            exact absurd (Option.some.inj this).symm hxc
        · intro hx; cases hx
  | schedule_next =>
    simp only [Scheduler.step, Scheduler.schedule_next]
    cases hcur : s.current_ with
    | some c => exact h
    | none =>
      obtain ⟨ha, hn, hb, hc⟩ := h
      cases hq : s.ready_queue_ with
      | nil =>
        simp only [scheduleLoop]
        refine ⟨fun x hx => (nomatch hx), List.nodup_nil, fun x hx => ?_, fun x => ?_⟩
        · have := hb x hx
          rw [hq] at this
          exact this
        · rw [← hcur]; exact hc x
      | cons p rest =>
        have hp : s.states_ p = some .READY := ha p (by rw [hq]; exact List.mem_cons_self _ _)
        have hl := scheduleLoop_found [] p rest s.states_ (fun q hq => nomatch hq) hp
        simp only [List.nil_append] at hl
        rw [hl]
        rw [hq] at hn
        have hpr : p ∉ rest := (List.nodup_cons.mp hn).1
        refine ⟨fun x hx => ?_, (List.nodup_cons.mp hn).2, fun x hx => ?_, fun x => ?_⟩
        · have hxp : x ≠ p := fun e => hpr (e ▸ hx)
          simp only [hxp, if_false, List.not_mem_nil]
          exact ha x (by rw [hq]; exact List.mem_cons_of_mem _ hx)
        · by_cases hxp : x = p
          · simp only [hxp, if_true] at hx; cases hx
          · simp only [hxp, if_false, List.not_mem_nil] at hx
            have := hb x hx
            rw [hq] at this
            rcases List.mem_cons.mp this with e | e
            · exact absurd e hxp
            · exact e
        · by_cases hxp : x = p
          · simp only [hxp, if_true]
          · simp only [hxp, if_false, List.not_mem_nil]
            constructor
            · intro hr
              have := (hc x).mp hr
              rw [hcur] at this; cases this
            · intro e
              exact absurd (Option.some.inj e).symm hxp

/-- Every state reached from the empty scheduler satisfies the invariant. -/
theorem WellFormed_run (ops : List SchedOp) (s : Scheduler) (h : s.WellFormed) :
    (s.run ops).WellFormed := by
  induction ops generalizing s with
  | nil => exact h
  | cons op ops ih => exact ih (s.step op) (WellFormed_step s op h)

theorem WellFormed_mk0 : Scheduler.mk0.WellFormed :=
  ⟨fun _ hq => (nomatch hq), List.nodup_nil, fun _ hq => (nomatch hq),
    fun _ => ⟨fun h => (nomatch h), fun h => (nomatch h)⟩⟩

/-! ## Claims C31 and C32 -/

/-- Claim C31: the scheduler invariant.  In every state reached from an empty scheduler
by calls of `add_process`, `schedule_next`, `block_current`, `wake_process` and
`terminate_process`, with any arguments and whether a call returns or throws: (a) every
pid in the ready queue has state `READY` and occurs in the queue exactly once, (b) every
pid with state `READY` is in the ready queue, (c) a pid has state `RUNNING` if and only if
it is `current`, so at most one pid is `RUNNING`. -/
theorem C31_scheduler_invariant (ops : List SchedOp) :
    (∀ q ∈ (Scheduler.mk0.run ops).ready_queue_,
      (Scheduler.mk0.run ops).states_ q = some .READY ∧
      (Scheduler.mk0.run ops).ready_queue_.count q = 1) ∧
    (∀ q, (Scheduler.mk0.run ops).states_ q = some .READY →
      q ∈ (Scheduler.mk0.run ops).ready_queue_) ∧
    (∀ q, (Scheduler.mk0.run ops).states_ q = some .RUNNING ↔
      (Scheduler.mk0.run ops).current_ = some q) ∧
    (∀ p q, (Scheduler.mk0.run ops).states_ p = some .RUNNING →
      (Scheduler.mk0.run ops).states_ q = some .RUNNING → p = q) := by
  obtain ⟨ha, hn, hb, hc⟩ := WellFormed_run ops Scheduler.mk0 WellFormed_mk0
  refine ⟨fun q hq => ⟨ha q hq, List.count_eq_one_of_mem hn hq⟩, hb, hc, fun p q hp hq => ?_⟩
  have h1 := (hc p).mp hp
  have h2 := (hc q).mp hq
  rw [h1] at h2
  exact Option.some.inj h2

/-- Witness of C31 on `exSchedOps`: afterwards the queue is `[3]` with pid 3 `READY`, and
pid 1 is `RUNNING` and current. -/
theorem C31_witness :
    (Scheduler.mk0.run exSchedOps).ready_queue_ = [3] ∧
    (Scheduler.mk0.run exSchedOps).states_ 3 = some .READY ∧
    (Scheduler.mk0.run exSchedOps).ready_queue_.count 3 = 1 ∧
    (Scheduler.mk0.run exSchedOps).states_ 1 = some .RUNNING ∧
    (Scheduler.mk0.run exSchedOps).current_ = some 1 :=
  have h := C31_scheduler_invariant exSchedOps
  ⟨rfl, (h.1 3 (by decide)).1, (h.1 3 (by decide)).2, rfl, (h.2.2.1 1).mp rfl⟩

/-- Claim C32: in every scheduler state reached from an empty scheduler by its calls,
`has_runnable()` returns true if and only if `schedule_next()` called in that state
returns a pid.  The ready queue holds no stale entry: each of its pids is `READY`, so
`schedule_next()` returns `current` when it is set and the front of the queue otherwise. -/
theorem C32_has_runnable_iff_schedule_next (ops : List SchedOp) :
    ((Scheduler.mk0.run ops).has_runnable = true ↔
      (Scheduler.mk0.run ops).schedule_next.1.isSome = true) ∧
    (∀ q ∈ (Scheduler.mk0.run ops).ready_queue_,
      (Scheduler.mk0.run ops).states_ q = some .READY) ∧
    (∀ c, (Scheduler.mk0.run ops).current_ = some c →
      (Scheduler.mk0.run ops).schedule_next.1 = some c) ∧
    ((Scheduler.mk0.run ops).current_ = none →
      (Scheduler.mk0.run ops).schedule_next.1 = (Scheduler.mk0.run ops).ready_queue_.head?) := by
  obtain ⟨ha, _, _, _⟩ := WellFormed_run ops Scheduler.mk0 WellFormed_mk0
  generalize Scheduler.mk0.run ops = s at ha ⊢
  have hcur : ∀ c, s.current_ = some c → s.schedule_next.1 = some c := by
    intro c hc
    unfold Scheduler.schedule_next
    rw [hc]
  have hnone : s.current_ = none → s.schedule_next.1 = s.ready_queue_.head? := by
    intro hc
    have e : s.schedule_next.1 = (scheduleLoop s.ready_queue_ s.states_).1 := by
      unfold Scheduler.schedule_next
      rw [hc]
    rw [e]
    cases hq : s.ready_queue_ with
    | nil => rfl
    | cons p rest =>
      have hp : s.states_ p = some .READY := ha p (by rw [hq]; exact List.mem_cons_self _ _)
      have hl := scheduleLoop_found [] p rest s.states_ (fun q hq => (nomatch hq)) hp
      simp only [List.nil_append] at hl
      rw [hl]
      rfl
  refine ⟨?_, ha, hcur, hnone⟩
  unfold Scheduler.has_runnable
  cases hc : s.current_ with
  | some c =>
    rw [hcur c hc]
    simp
  | none =>
    rw [hnone hc]
    cases s.ready_queue_ <;> simp

/-- Witness of C32: after `exSchedOps` pid 1 is current and `schedule_next()` returns it;
after `add_process(3)`, `schedule_next()`, `block_current()` nothing is runnable and
`schedule_next()` returns nothing. -/
theorem C32_witness :
    (Scheduler.mk0.run exSchedOps).has_runnable = true ∧
    (Scheduler.mk0.run exSchedOps).schedule_next.1 = some 1 ∧
    (Scheduler.mk0.run [.add_process 3, .schedule_next, .block_current]).has_runnable = false ∧
    (Scheduler.mk0.run [.add_process 3, .schedule_next, .block_current]).schedule_next.1
      = none :=
  have h := C32_has_runnable_iff_schedule_next exSchedOps
  have g := C32_has_runnable_iff_schedule_next [.add_process 3, .schedule_next, .block_current]
  ⟨rfl, h.2.2.1 1 rfl, rfl, (g.2.2.2 rfl).trans rfl⟩

/-! ## The handlers and the clock -/

theorem Machine.proc_start_now (k : Machine) (pid hb ht : Nat) :
    (k.proc_start pid hb ht).2.now_ = k.now_ := by
  unfold Machine.proc_start
  simp only
  split <;> rfl

theorem Machine.pagein_complete_now (k : Machine) (pid vpn : Nat) :
    (k.pagein_complete pid vpn).2.now_ = k.now_ := by
  unfold Machine.pagein_complete
  simp only
  split <;> rfl

theorem Machine.malloc_now (k : Machine) (pid : Nat) (arg : String) :
    (k.malloc pid arg).2.now_ = k.now_ := by
  unfold Machine.malloc
  split
  · rfl
  · split
    · rfl
    · simp only
      split <;> rfl

theorem Machine.free_now (k : Machine) (pid : Nat) (arg : String) :
    (k.free pid arg).2.now_ = k.now_ := by
  unfold Machine.free
  split
  · rfl
  · split
    · rfl
    · simp only
      split <;> rfl

/-- When `schedule_next` hands out a pid, that pid is `current` afterwards. -/
theorem schedule_next_current (s : Scheduler) (p : Nat) (h : s.schedule_next.1 = some p) :
    s.schedule_next.2.current_ = some p := by
  unfold Scheduler.schedule_next at h ⊢
  cases hc : s.current_ with
  | some c =>
    simp only [hc] at h ⊢
    exact h
  | none =>
    simp only [hc] at h ⊢
    exact h

/-- The `ACCESS` handler keeps the clock and the dispatch log.  Either it leaves the queue
and the fault counter alone, or it returns normally having counted one fault and pushed
one `PAGEIN_COMPLETE` event at `now + PAGEIN_LATENCY` with priority 0. -/
theorem MainState.access_cases (st : MainState) (L : Nat) (arg : String) :
    (st.access L arg).2.k.now_ = st.k.now_ ∧
    (st.access L arg).2.dispatched = st.dispatched ∧
    (((st.access L arg).2.eq = st.eq ∧ (st.access L arg).2.page_faults = st.page_faults) ∨
      ∃ running vpn, (st.access L arg).1 = .ok () ∧
        (st.access L arg).2.page_faults = (st.page_faults + 1) % 2 ^ 64 ∧
        (st.access L arg).2.eq =
          st.eq.pushConv ((st.k.now_ + L) % 2 ^ 64) 0 running "PAGEIN_COMPLETE"
            [to_string vpn] "") := by
  cases hr : st.k.sched.schedule_next.1 with
  | none =>
    have e : st.access L arg =
        (.ok (), MainState.mk (Machine.mk st.k.now_ st.k.mmu st.k.sched.schedule_next.2)
          st.eq st.page_faults st.dispatched) := by
      unfold MainState.access
      simp only [hr]
    rw [e]
    exact ⟨rfl, rfl, Or.inl ⟨rfl, rfl⟩⟩
  | some running =>
    cases hp : parse_u64 arg with
    | error e0 =>
      have e : st.access L arg =
          (.error e0, MainState.mk (Machine.mk st.k.now_ st.k.mmu st.k.sched.schedule_next.2)
            st.eq st.page_faults st.dispatched) := by
        unfold MainState.access
        simp only [hr, hp]
      rw [e]
      exact ⟨rfl, rfl, Or.inl ⟨rfl, rfl⟩⟩
    | ok vaddr =>
      cases ha : (st.k.mmu.access running vaddr).1 with
      | error e0 =>
        have e : st.access L arg =
            (.error e0, MainState.mk (Machine.mk st.k.now_ (st.k.mmu.access running vaddr).2
              st.k.sched.schedule_next.2) st.eq st.page_faults st.dispatched) := by
          unfold MainState.access
          simp only [hr, hp, ha]
        rw [e]
        exact ⟨rfl, rfl, Or.inl ⟨rfl, rfl⟩⟩
      | ok res =>
        cases res with
        | HIT =>
          have e : st.access L arg =
              (.ok (), MainState.mk (Machine.mk st.k.now_ (st.k.mmu.access running vaddr).2
                st.k.sched.schedule_next.2) st.eq st.page_faults st.dispatched) := by
            unfold MainState.access
            simp only [hr, hp, ha]
          rw [e]
          exact ⟨rfl, rfl, Or.inl ⟨rfl, rfl⟩⟩
        | PAGE_FAULT =>
          have hcur := schedule_next_current st.k.sched running hr
          have hb : st.k.sched.schedule_next.2.block_current =
              (.ok (), Scheduler.mk st.k.sched.schedule_next.2.ready_queue_
                (setState st.k.sched.schedule_next.2.states_ running .BLOCKED) none) := by
            unfold Scheduler.block_current
            rw [hcur]
          have e : st.access L arg =
              (.ok (),
                MainState.mk
                  (Machine.mk st.k.now_ (st.k.mmu.access running vaddr).2
                    st.k.sched.schedule_next.2.block_current.2)
                  (st.eq.pushConv ((st.k.now_ + L) % 2 ^ 64) 0 running "PAGEIN_COMPLETE"
                    [to_string ((st.k.mmu.access running vaddr).2.vpn_from_vaddr vaddr)] "")
                  ((st.page_faults + 1) % 2 ^ 64) st.dispatched) := by
            unfold MainState.access
            simp only [hr, hp, ha, hb]
          rw [e]
          exact ⟨rfl, rfl, Or.inr ⟨running, _, rfl, rfl, rfl⟩⟩

/-- The dispatch of an event keeps the clock and the dispatch log.  Either it leaves the
queue and the fault counter alone, or the event is an `ACCESS` that faulted: the handler
returns normally, has counted one fault and pushed one `PAGEIN_COMPLETE` event at
`now + PAGEIN_LATENCY` with priority 0. -/
theorem MainState.dispatch_cases (st : MainState) (L : Nat) (ev : Event) :
    (st.dispatch L ev).2.k.now_ = st.k.now_ ∧
    (st.dispatch L ev).2.dispatched = st.dispatched ∧
    (((st.dispatch L ev).2.eq = st.eq ∧ (st.dispatch L ev).2.page_faults = st.page_faults) ∨
      (ev.type = "ACCESS" ∧ ∃ running vpn, (st.dispatch L ev).1 = .ok () ∧
        (st.dispatch L ev).2.page_faults = (st.page_faults + 1) % 2 ^ 64 ∧
        (st.dispatch L ev).2.eq =
          st.eq.pushConv ((st.k.now_ + L) % 2 ^ 64) 0 running "PAGEIN_COMPLETE"
            [to_string vpn] "")) := by
  by_cases h1 : ev.type = "PROC_START"
  · cases hp0 : parse_u64 (ev.args.getD 0 "") with
    | error e0 =>
      have e : st.dispatch L ev = (.error e0, st) := by
        unfold MainState.dispatch
        simp only [if_pos h1, hp0]
      rw [e]; exact ⟨rfl, rfl, Or.inl ⟨rfl, rfl⟩⟩
    | ok hb =>
      cases hp1 : parse_u64 (ev.args.getD 1 "") with
      | error e0 =>
        have e : st.dispatch L ev = (.error e0, st) := by
          unfold MainState.dispatch
          simp only [if_pos h1, hp0, hp1]
        rw [e]; exact ⟨rfl, rfl, Or.inl ⟨rfl, rfl⟩⟩
      | ok ht =>
        have e : st.dispatch L ev =
            ((st.k.proc_start ev.key.pid hb ht).1,
              { st with k := (st.k.proc_start ev.key.pid hb ht).2 }) := by
          unfold MainState.dispatch
          simp only [if_pos h1, hp0, hp1]
        rw [e]
        exact ⟨Machine.proc_start_now _ _ _ _, rfl, Or.inl ⟨rfl, rfl⟩⟩
  · by_cases h2 : ev.type = "PROC_EXIT"
    · have e : st.dispatch L ev = (.ok (), { st with k := st.k.proc_exit ev.key.pid }) := by
        unfold MainState.dispatch
        simp only [if_neg h1, if_pos h2]
      rw [e]; exact ⟨rfl, rfl, Or.inl ⟨rfl, rfl⟩⟩
    · by_cases h3 : ev.type = "MALLOC"
      · have e : st.dispatch L ev =
            ((st.k.malloc ev.key.pid (ev.args.getD 0 "")).1,
              { st with k := (st.k.malloc ev.key.pid (ev.args.getD 0 "")).2 }) := by
          unfold MainState.dispatch
          simp only [if_neg h1, if_neg h2, if_pos h3]
        rw [e]; exact ⟨Machine.malloc_now _ _ _, rfl, Or.inl ⟨rfl, rfl⟩⟩
      · by_cases h4 : ev.type = "FREE"
        · have e : st.dispatch L ev =
              ((st.k.free ev.key.pid (ev.args.getD 0 "")).1,
                { st with k := (st.k.free ev.key.pid (ev.args.getD 0 "")).2 }) := by
            unfold MainState.dispatch
            simp only [if_neg h1, if_neg h2, if_neg h3, if_pos h4]
          rw [e]; exact ⟨Machine.free_now _ _ _, rfl, Or.inl ⟨rfl, rfl⟩⟩
        · by_cases h5 : ev.type = "ACCESS"
          · have e : st.dispatch L ev = st.access L (ev.args.getD 0 "") := by
              unfold MainState.dispatch
              simp only [if_neg h1, if_neg h2, if_neg h3, if_neg h4, if_pos h5]
            rw [e]
            obtain ⟨a, b, c⟩ := MainState.access_cases st L (ev.args.getD 0 "")
            refine ⟨a, b, ?_⟩
            rcases c with c | c
            · exact Or.inl c
            · exact Or.inr ⟨h5, c⟩
          · by_cases h6 : ev.type = "PAGEIN_COMPLETE"
            · cases hp : stoull (ev.args.getD 0 "") 10 with
              | error e0 =>
                have e : st.dispatch L ev = (.error e0, st) := by
                  unfold MainState.dispatch
                  simp only [if_neg h1, if_neg h2, if_neg h3, if_neg h4, if_neg h5, if_pos h6, hp]
                rw [e]; exact ⟨rfl, rfl, Or.inl ⟨rfl, rfl⟩⟩
              | ok vpn =>
                have e : st.dispatch L ev =
                    ((st.k.pagein_complete ev.key.pid vpn).1,
                      { st with k := (st.k.pagein_complete ev.key.pid vpn).2 }) := by
                  unfold MainState.dispatch
                  simp only [if_neg h1, if_neg h2, if_neg h3, if_neg h4, if_neg h5, if_pos h6, hp]
                rw [e]
                exact ⟨Machine.pagein_complete_now _ _ _, rfl, Or.inl ⟨rfl, rfl⟩⟩
            · have e : st.dispatch L ev = (.ok (), st) := by
                unfold MainState.dispatch
                simp only [if_neg h1, if_neg h2, if_neg h3, if_neg h4, if_neg h5, if_neg h6]
              rw [e]; exact ⟨rfl, rfl, Or.inl ⟨rfl, rfl⟩⟩

/-- One iteration of the loop on a non-empty queue: the popped event `ev` has a least key,
the clock is moved to `ev.key.time` if that is later, the pair of the clock and `ev` is
logged, and the queue loses `ev` and gains at most the `PAGEIN_COMPLETE` event of a fault. -/
theorem MainState.step_spec (st : MainState) (L : Nat) (hne : st.eq.pq_ ≠ []) :
    ∃ ev, ev ∈ st.eq.pq_ ∧ (∀ x ∈ st.eq.pq_, ev.key.le x.key) ∧
      (st.step L).2.k.now_ = (st.k.advance ev.key.time).now_ ∧
      (st.step L).2.dispatched = st.dispatched ++ [((st.step L).2.k.now_, ev)] ∧
      (((st.step L).2.eq.pq_ = st.eq.pq_.erase ev ∧
          (st.step L).2.page_faults = st.page_faults) ∨
        (ev.type = "ACCESS" ∧ (st.step L).1 = .ok () ∧
          (st.step L).2.page_faults = (st.page_faults + 1) % 2 ^ 64 ∧
          ∃ e, (st.step L).2.eq.pq_ = st.eq.pq_.erase ev ++ [e] ∧
            e.type = "PAGEIN_COMPLETE" ∧ e.key.priority = 0 ∧
            e.key.time = ((st.step L).2.k.now_ + L) % 2 ^ 64)) := by
  obtain ⟨ev, hpop, hmem, hmin⟩ := pop_nonempty hne
  have e : st.step L =
      MainState.dispatch
        { st with eq := { st.eq with pq_ := st.eq.pq_.erase ev }, k := st.k.advance ev.key.time,
                  dispatched := st.dispatched ++ [((st.k.advance ev.key.time).now_, ev)] }
        L ev := by
    unfold MainState.step
    rw [hpop]
  obtain ⟨a, b, c⟩ := MainState.dispatch_cases
    { st with eq := { st.eq with pq_ := st.eq.pq_.erase ev }, k := st.k.advance ev.key.time,
              dispatched := st.dispatched ++ [((st.k.advance ev.key.time).now_, ev)] } L ev
  rw [← e] at a b c
  refine ⟨ev, hmem, hmin, a, ?_, ?_⟩
  · rw [b, a]
  · rcases c with ⟨c1, c2⟩ | ⟨ht, running, vpn, c1, c2, c3⟩
    · exact Or.inl ⟨by rw [c1], c2⟩
    · refine Or.inr ⟨ht, c1, c2, ?_⟩
      rw [c3, a]
      exact ⟨_, rfl, rfl, rfl, rfl⟩

/-! ## The timing invariant of the event loop -/

theorem EventKey.le_time {a b : EventKey} (h : a.le b) : a.time ≤ b.time := by
  unfold EventKey.le at h; omega

/-- The clock update on an event that is not earlier than the clock sets the clock to the
time stamp of the event. -/
theorem Machine.advance_now (k : Machine) (t : Nat) (h : k.now_ ≤ t) : (k.advance t).now_ = t := by
  unfold Machine.advance
  by_cases hc : t > k.now_
  · rw [if_pos hc]
  · rw [if_neg hc]; omega

/-- One iteration keeps the timing invariant, provided `now + PAGEIN_LATENCY` does not
overflow when the iteration counts a page fault (the only place where it is computed). -/
theorem MainState.step_inv (st : MainState) (L : Nat) (h : st.TimingInv) (hne : st.eq.pq_ ≠ [])
    (hno : (st.step L).2.page_faults ≠ st.page_faults → (st.step L).2.k.now_ + L < 2 ^ 64) :
    (st.step L).2.TimingInv := by
  obtain ⟨ev, hmem, hmin, hnow, hlog, hq⟩ := MainState.step_spec st L hne
  obtain ⟨h1, h2, h3⟩ := h
  have hle : st.k.now_ ≤ ev.key.time := h1 ev hmem
  have hnow2 : (st.step L).2.k.now_ = ev.key.time := by
    rw [hnow]; exact Machine.advance_now _ _ hle
  have hold : ∀ e ∈ st.eq.pq_.erase ev, (st.step L).2.k.now_ ≤ e.key.time := by
    intro e he
    rw [hnow2]
    exact EventKey.le_time (hmin e (List.mem_of_mem_erase he))
  refine ⟨?_, ?_, ?_⟩
  · intro e he
    rcases hq with ⟨hq1, _⟩ | ⟨_, _, hpf, e1, hq1, _, _, ht⟩
    · rw [hq1] at he; exact hold e he
    · rw [hq1] at he
      rcases List.mem_append.mp he with he | he
      · exact hold e he
      · have hlt := hno (by rw [hpf]; omega)
        rw [List.mem_singleton.mp he, ht, Nat.mod_eq_of_lt hlt]
        exact Nat.le_add_right _ _
  · intro d hd
    rw [hlog] at hd
    rcases List.mem_append.mp hd with hd | hd
    · exact ⟨(h2 d hd).1, by rw [hnow2]; exact (h2 d hd).2.trans hle⟩
    · rw [List.mem_singleton.mp hd]
      exact ⟨hnow2, le_refl _⟩
  · rw [hlog, List.map_append, List.pairwise_append]
    refine ⟨h3, List.pairwise_singleton _ _, ?_⟩
    intro a ha b hb
    simp only [List.map_cons, List.map_nil, List.mem_singleton] at hb
    obtain ⟨d, hd, rfl⟩ := List.mem_map.mp ha
    rw [hb, hnow2]
    exact (h2 d hd).2.trans hle

/-- From one iteration bound to the next, the run either stands still (the queue is empty
or an exception has ended the run) or makes one iteration on a non-empty queue. -/
theorem MainState.after_succ (L : Nat) (m : Nat) (st : MainState) :
    MainState.after L (m + 1) st = MainState.after L m st ∨
    ((MainState.after L m st).eq.pq_ ≠ [] ∧
      MainState.after L (m + 1) st = ((MainState.after L m st).step L).2) := by
  induction m generalizing st with
  | zero =>
    unfold MainState.after MainState.iterate
    by_cases he : st.eq.empty = true
    · left; rw [if_pos he]
    · right
      rw [if_neg he]
      refine ⟨?_, ?_⟩
      · intro hc
        apply he
        show st.eq.pq_.isEmpty = true
        rw [hc]; rfl
      · show _ = (st.step L).2
        cases hs : st.step L with
        | mk res st1 =>
          cases res with
          | error e => rfl
          | ok u => rfl
  | succ m ih =>
    by_cases he : st.eq.empty = true
    · left
      unfold MainState.after
      rw [MainState.iterate, if_pos he]
      conv => rhs; rw [MainState.iterate, if_pos he]
    · cases hs : st.step L with
      | mk res st1 =>
        cases res with
        | error e =>
          left
          unfold MainState.after
          rw [MainState.iterate, if_neg he, hs]
          conv => rhs; rw [MainState.iterate, if_neg he, hs]
        | ok u =>
          have e1 : MainState.after L (m + 1 + 1) st = MainState.after L (m + 1) st1 := by
            unfold MainState.after
            rw [MainState.iterate, if_neg he, hs]
          have e2 : MainState.after L (m + 1) st = MainState.after L m st1 := by
            unfold MainState.after
            rw [MainState.iterate, if_neg he, hs]
          rw [e1, e2]
          exact ih st1

/-- Every state of a run that starts in a state with the timing invariant has it, as long
as `now + PAGEIN_LATENCY` does not overflow in the iterations that count a page fault. -/
theorem MainState.inv_after (L : Nat) (n : Nat) (st : MainState) (h : st.TimingInv)
    (hno : ∀ m < n, (MainState.after L (m + 1) st).page_faults ≠ (MainState.after L m st).page_faults →
      (MainState.after L (m + 1) st).k.now_ + L < 2 ^ 64) :
    (MainState.after L n st).TimingInv := by
  induction n with
  | zero => exact h
  | succ n ih =>
    have hn := ih (fun m hm => hno m (Nat.lt_succ_of_lt hm))
    rcases MainState.after_succ L n st with e | ⟨hne, e⟩
    · rw [e]; exact hn
    · rw [e]
      exact MainState.step_inv _ L hn hne (by rw [← e]; exact hno n (Nat.lt_succ_self _))

/-- A queued event is, one iteration bound later, still queued or logged as dispatched at
its own time stamp. -/
theorem MainState.persist_succ (L : Nat) (m : Nat) (st : MainState)
    (h : (MainState.after L m st).TimingInv) (e : Event)
    (he : e ∈ (MainState.after L m st).eq.pq_) :
    e ∈ (MainState.after L (m + 1) st).eq.pq_ ∨
    (e.key.time, e) ∈ (MainState.after L (m + 1) st).dispatched := by
  rcases MainState.after_succ L m st with e1 | ⟨hne, e1⟩
  · left; rw [e1]; exact he
  · rw [e1]
    obtain ⟨ev, hmem, hmin, hnow, hlog, hq⟩ := MainState.step_spec (MainState.after L m st) L hne
    by_cases hev : e = ev
    · right
      rw [hlog, hnow, Machine.advance_now _ _ (h.1 ev hmem), hev]
      exact List.mem_append_right _ (List.mem_singleton_self _)
    · left
      have hin : e ∈ (MainState.after L m st).eq.pq_.erase ev := (List.mem_erase_of_ne hev).mpr he
      rcases hq with ⟨hq1, _⟩ | ⟨_, _, _, e2, hq1, _⟩
      · rw [hq1]; exact hin
      · rw [hq1]; exact List.mem_append_left _ hin

/-- The dispatch log only grows. -/
theorem MainState.log_succ (L : Nat) (m : Nat) (st : MainState) (d : Nat × Event)
    (hd : d ∈ (MainState.after L m st).dispatched) :
    d ∈ (MainState.after L (m + 1) st).dispatched := by
  rcases MainState.after_succ L m st with e1 | ⟨hne, e1⟩
  · rw [e1]; exact hd
  · rw [e1]
    obtain ⟨ev, _, _, _, hlog, _⟩ := MainState.step_spec (MainState.after L m st) L hne
    rw [hlog]
    exact List.mem_append_left _ hd

/-- An event queued at iteration bound `m` is, at every later bound `n`, still queued or
logged as dispatched at its own time stamp. -/
theorem MainState.persist (L : Nat) (m n : Nat) (hmn : m ≤ n) (st : MainState)
    (h : st.TimingInv)
    (hno : ∀ i < n, (MainState.after L (i + 1) st).page_faults ≠ (MainState.after L i st).page_faults →
      (MainState.after L (i + 1) st).k.now_ + L < 2 ^ 64) (e : Event)
    (he : e ∈ (MainState.after L m st).eq.pq_) :
    e ∈ (MainState.after L n st).eq.pq_ ∨
    (e.key.time, e) ∈ (MainState.after L n st).dispatched := by
  induction n, hmn using Nat.le_induction with
  | base => exact Or.inl he
  | succ n hmn ih =>
    rcases ih (fun i hi => hno i (Nat.lt_succ_of_lt hi)) with h1 | h1
    · exact MainState.persist_succ L n st
        (MainState.inv_after L n st h (fun i hi => hno i (Nat.lt_succ_of_lt hi))) e h1
    · exact Or.inr (MainState.log_succ L n st _ h1)

/-- A run that ends within `fuel` iterations ends in the state `iterate` computes. -/
theorem MainState.runFuel_iterate (L : Nat) (fuel : Nat) (st : MainState)
    (r : Except SimError Unit × MainState) (h : MainState.runFuel L fuel st = some r) :
    MainState.iterate L fuel st = r := by
  induction fuel generalizing st with
  | zero =>
    unfold MainState.runFuel at h
    by_cases he : st.eq.empty = true
    · rw [if_pos he] at h
      exact Option.some.inj h
    · rw [if_neg he] at h; cases h
  | succ n ih =>
    unfold MainState.runFuel at h
    unfold MainState.iterate
    by_cases he : st.eq.empty = true
    · rw [if_pos he] at h ⊢
      exact Option.some.inj h
    · rw [if_neg he] at h ⊢
      cases hs : st.step L with
      | mk res st1 =>
        rw [hs] at h
        cases res with
        | error e => exact Option.some.inj h
        | ok u => exact ih st1 h

theorem MainState.mk0_inv (num_frames page_size tlb_size : Nat) (eq0 : EventQueue) :
    (MainState.mk0 num_frames page_size tlb_size eq0).TimingInv :=
  ⟨fun _ _ => Nat.zero_le _, fun _ hd => (nomatch hd), List.Pairwise.nil⟩

/-! ## Claim C33 -/

/-- Claim C33: event-loop timing.  Start the loop with the clock at 0 on any initial queue
and look at the run after at most `n` iterations, assuming `now + PAGEIN_LATENCY` stays
below `2^64` in every iteration that counts a page fault (the only place where the sum is
computed).  Then every event dispatched so far was
dispatched with the clock equal to its own time stamp; the dispatch times never decrease
and none is later than the present clock.  Whenever an iteration counts a page fault, it
dispatched an `ACCESS` event at some clock value `t` and left in the queue a
`PAGEIN_COMPLETE` event with priority 0 and time stamp `t + PAGEIN_LATENCY`; at every
later point of the run that event is either still queued or was dispatched at clock time
exactly `t + PAGEIN_LATENCY` (so it was, once the queue is empty). -/
theorem C33_event_loop_timing (L num_frames page_size tlb_size : Nat) (eq0 : EventQueue) (n : Nat)
    (hno : ∀ m < n,
      (MainState.after L (m + 1) (MainState.mk0 num_frames page_size tlb_size eq0)).page_faults ≠
        (MainState.after L m (MainState.mk0 num_frames page_size tlb_size eq0)).page_faults →
      (MainState.after L (m + 1) (MainState.mk0 num_frames page_size tlb_size eq0)).k.now_ + L
        < 2 ^ 64) :
    (∀ d ∈ (MainState.after L n (MainState.mk0 num_frames page_size tlb_size eq0)).dispatched,
      d.1 = d.2.key.time ∧
      d.1 ≤ (MainState.after L n (MainState.mk0 num_frames page_size tlb_size eq0)).k.now_) ∧
    ((MainState.after L n (MainState.mk0 num_frames page_size tlb_size eq0)).dispatched.map
      Prod.fst).Pairwise (fun a b => a ≤ b) ∧
    (∀ m < n,
      (MainState.after L (m + 1) (MainState.mk0 num_frames page_size tlb_size eq0)).page_faults ≠
        (MainState.after L m (MainState.mk0 num_frames page_size tlb_size eq0)).page_faults →
      ∃ acc e,
        (MainState.after L (m + 1) (MainState.mk0 num_frames page_size tlb_size eq0)).dispatched =
          (MainState.after L m (MainState.mk0 num_frames page_size tlb_size eq0)).dispatched ++
            [((MainState.after L (m + 1)
                (MainState.mk0 num_frames page_size tlb_size eq0)).k.now_, acc)] ∧
        acc.type = "ACCESS" ∧
        e ∈ (MainState.after L (m + 1) (MainState.mk0 num_frames page_size tlb_size eq0)).eq.pq_ ∧
        e.type = "PAGEIN_COMPLETE" ∧ e.key.priority = 0 ∧
        e.key.time =
          (MainState.after L (m + 1) (MainState.mk0 num_frames page_size tlb_size eq0)).k.now_ + L ∧
        (e ∈ (MainState.after L n (MainState.mk0 num_frames page_size tlb_size eq0)).eq.pq_ ∨
          ((MainState.after L (m + 1)
              (MainState.mk0 num_frames page_size tlb_size eq0)).k.now_ + L, e) ∈
            (MainState.after L n (MainState.mk0 num_frames page_size tlb_size eq0)).dispatched)) := by
  generalize hst : MainState.mk0 num_frames page_size tlb_size eq0 = st0 at hno ⊢
  have h0 : st0.TimingInv := by rw [← hst]; exact MainState.mk0_inv _ _ _ _
  obtain ⟨_, h2, h3⟩ := MainState.inv_after L n st0 h0 hno
  refine ⟨h2, h3, fun m hm hpf => ?_⟩
  rcases MainState.after_succ L m st0 with e1 | ⟨hne, e1⟩
  · rw [e1] at hpf; exact absurd rfl hpf
  · obtain ⟨ev, _, _, _, hlog, hq⟩ := MainState.step_spec (MainState.after L m st0) L hne
    rw [← e1] at hlog hq
    rcases hq with ⟨_, hq2⟩ | ⟨ht, _, _, e, hq1, hty, hpr, htime⟩
    · exact absurd hq2 hpf
    · have hlt := hno m hm hpf
      rw [Nat.mod_eq_of_lt hlt] at htime
      have hin : e ∈ (MainState.after L (m + 1) st0).eq.pq_ := by
        rw [hq1]; exact List.mem_append_right _ (List.mem_singleton_self _)
      refine ⟨ev, e, hlog, ht, hin, hty, hpr, htime, ?_⟩
      have hp := MainState.persist L (m + 1) n hm st0 h0 hno e hin
      rw [htime] at hp
      exact hp

set_option maxRecDepth 100000 in
/-- Witness of C33 on scenario B with `PAGEIN_LATENCY = 10`, after six iterations: the six
events are dispatched at their time stamps 0, 0, 1, 11, 20, 30; the third iteration
counts the fault of the `ACCESS` dispatched at 1, and its `PAGEIN_COMPLETE` event is
dispatched at 11. -/
theorem C33_witness :
    (∀ m < 6, (MainState.after 10 (m + 1) exScenarioBStart).page_faults ≠
        (MainState.after 10 m exScenarioBStart).page_faults →
      (MainState.after 10 (m + 1) exScenarioBStart).k.now_ + 10 < 2 ^ 64) ∧
    (∀ d ∈ (MainState.after 10 6 exScenarioBStart).dispatched,
      d.1 = d.2.key.time ∧ d.1 ≤ (MainState.after 10 6 exScenarioBStart).k.now_) ∧
    (MainState.after 10 6 exScenarioBStart).dispatched.map (fun d => (d.1, d.2.key.time, d.2.type)) =
      [(0, 0, "PROC_START"), (0, 0, "PROC_START"), (1, 1, "ACCESS"), (11, 11, "PAGEIN_COMPLETE"),
        (20, 20, "ACCESS"), (30, 30, "PAGEIN_COMPLETE")] ∧
    (MainState.after 10 3 exScenarioBStart).page_faults ≠
      (MainState.after 10 2 exScenarioBStart).page_faults ∧
    (MainState.after 10 3 exScenarioBStart).k.now_ = 1 ∧
    (MainState.after 10 6 exScenarioBStart).eq.pq_ = [] ∧
    ∃ acc e,
      (MainState.after 10 3 exScenarioBStart).dispatched =
        (MainState.after 10 2 exScenarioBStart).dispatched ++
          [((MainState.after 10 3 exScenarioBStart).k.now_, acc)] ∧
      acc.type = "ACCESS" ∧
      e ∈ (MainState.after 10 3 exScenarioBStart).eq.pq_ ∧
      e.type = "PAGEIN_COMPLETE" ∧ e.key.priority = 0 ∧
      e.key.time = (MainState.after 10 3 exScenarioBStart).k.now_ + 10 ∧
      (e ∈ (MainState.after 10 6 exScenarioBStart).eq.pq_ ∨
        ((MainState.after 10 3 exScenarioBStart).k.now_ + 10, e) ∈
          (MainState.after 10 6 exScenarioBStart).dispatched) :=
  have hno : ∀ m < 6, (MainState.after 10 (m + 1) exScenarioBStart).page_faults ≠
        (MainState.after 10 m exScenarioBStart).page_faults →
      (MainState.after 10 (m + 1) exScenarioBStart).k.now_ + 10 < 2 ^ 64 := by decide
  have h := C33_event_loop_timing 10 1 4096 16 (Workload.push_records EventQueue.mk0 exTraceB) 6 hno
  have hpf : (MainState.after 10 3 exScenarioBStart).page_faults ≠
      (MainState.after 10 2 exScenarioBStart).page_faults := by decide
  ⟨hno, h.1, by decide, hpf, by decide, by decide, h.2.2 2 (by decide) hpf⟩

/-! ## The event loop ends -/

theorem iterations_erase (l : List Event) (ev : Event) (h : ev ∈ l) :
    ((l.erase ev).map (fun e => if e.type = "ACCESS" then 2 else 1)).sum +
      (if ev.type = "ACCESS" then 2 else 1) =
    (l.map (fun e => if e.type = "ACCESS" then 2 else 1)).sum := by
  have hp := (List.perm_cons_erase h).map (fun e : Event => if e.type = "ACCESS" then 2 else 1)
  rw [hp.sum_eq, List.map_cons, List.sum_cons]
  omega

/-- One iteration of the loop lowers the bound `iterations` of the queue. -/
theorem MainState.step_iterations (st : MainState) (L : Nat) (hne : st.eq.pq_ ≠ []) :
    (st.step L).2.eq.iterations < st.eq.iterations := by
  obtain ⟨ev, hmem, _, _, _, hq⟩ := MainState.step_spec st L hne
  have he := iterations_erase st.eq.pq_ ev hmem
  unfold EventQueue.iterations
  rcases hq with ⟨hq1, _⟩ | ⟨ht, _, _, e, hq1, hty, _⟩
  · rw [hq1]
    by_cases hc : ev.type = "ACCESS"
    · rw [if_pos hc] at he; omega
    · rw [if_neg hc] at he; omega
  · rw [hq1, List.map_append, List.sum_append]
    have hne2 : ¬ e.type = "ACCESS" := by rw [hty]; decide
    rw [if_pos ht] at he
    simp only [List.map_cons, List.map_nil, List.sum_cons, List.sum_nil, if_neg hne2]
    omega

/-- The loop ends: with `iterations` of the queue as bound, `runFuel` does not run out of
iterations, and its result is the one `run` computes. -/
theorem MainState.run_ends (L : Nat) (n : Nat) (st : MainState) (h : st.eq.iterations ≤ n) :
    MainState.runFuel L n st = some (MainState.iterate L n st) := by
  induction n generalizing st with
  | zero =>
    have hnil : st.eq.pq_ = [] := by
      cases hq : st.eq.pq_ with
      | nil => rfl
      | cons e es =>
        unfold EventQueue.iterations at h
        rw [hq, List.map_cons, List.sum_cons] at h
        by_cases hc : e.type = "ACCESS"
        · rw [if_pos hc] at h; omega
        · rw [if_neg hc] at h; omega
    have he : st.eq.empty = true := by
      show st.eq.pq_.isEmpty = true
      rw [hnil]; rfl
    unfold MainState.runFuel MainState.iterate
    rw [if_pos he]
  | succ n ih =>
    unfold MainState.runFuel MainState.iterate
    by_cases he : st.eq.empty = true
    · rw [if_pos he, if_pos he]
    · rw [if_neg he, if_neg he]
      have hne : st.eq.pq_ ≠ [] := by
        intro hc
        apply he
        show st.eq.pq_.isEmpty = true
        rw [hc]; rfl
      have hlt := MainState.step_iterations st L hne
      cases hs : st.step L with
      | mk res st1 =>
        rw [hs] at hlt
        cases res with
        | error e => rfl
        | ok u => exact ih st1 (by simp only at hlt; omega)

/-- A run that ends without an exception ends with an empty queue. -/
theorem MainState.runFuel_ok_empty (L : Nat) (n : Nat) (st : MainState)
    (r : Except SimError Unit × MainState) (hr : MainState.runFuel L n st = some r)
    (h : r.1 = .ok ()) : r.2.eq.pq_ = [] := by
  induction n generalizing st with
  | zero =>
    unfold MainState.runFuel at hr
    by_cases he : st.eq.empty = true
    · rw [if_pos he] at hr
      rw [← Option.some.inj hr]
      have : st.eq.pq_.isEmpty = true := he
      exact List.isEmpty_iff.mp this
    · rw [if_neg he] at hr; cases hr
  | succ n ih =>
    unfold MainState.runFuel at hr
    by_cases he : st.eq.empty = true
    · rw [if_pos he] at hr
      rw [← Option.some.inj hr]
      have : st.eq.pq_.isEmpty = true := he
      exact List.isEmpty_iff.mp this
    · rw [if_neg he] at hr
      cases hs : st.step L with
      | mk res st1 =>
        rw [hs] at hr
        cases res with
        | error e =>
          rw [← Option.some.inj hr] at h
          cases h
        | ok u => exact ih st1 hr

/-- The final state of a run has an empty queue unless an exception ended the run. -/
theorem MainState.run_empty (L : Nat) (st : MainState) (h : (st.run L).1 = .ok ()) :
    (st.run L).2.eq.pq_ = [] :=
  MainState.runFuel_ok_empty L st.eq.iterations st _
    (MainState.run_ends L st.eq.iterations st (le_refl _)) h

/-! ## Claim C15 -/

/-- Claim C15, evaluated at its failing input.  The table `exTwoFramesMaxStamp` is reached
from `PhysicalMemory(2)` by `allocate(1, 0, 2^64 - 1)` and `allocate(1, 1, 2^64 - 1)`.
Every frame is occupied and frame 0 has the minimum `last_used` with the lowest index
among the tie, so the claim has `allocate(2, 0, 5)` choose frame 0 with `evicted = true`
and the previous occupant `(1, 0)`.  The code chooses no frame: `find_lru_frame` tests
`last_used < oldest` starting from `oldest = UINT64_MAX`, returns `-1`, and `allocate`
throws the no-frame error.  With time stamps one lower the same call does evict frame 0. -/
theorem C15_max_stamp_frame_not_selected :
    PhysicalMemory.Reachable 2 exTwoFramesMaxStamp ∧
    (∀ f ∈ exTwoFramesMaxStamp.frames_, f.occupied = true) ∧
    (∀ k < exTwoFramesMaxStamp.frames_.length,
      (exTwoFramesMaxStamp.frames_.getD 0 {}).last_used ≤
        (exTwoFramesMaxStamp.frames_.getD k {}).last_used) ∧
    exTwoFramesMaxStamp.find_free_frame = -1 ∧
    exTwoFramesMaxStamp.find_lru_frame = -1 ∧
    exTwoFramesMaxStamp.allocate 2 0 5 = .error .noFrame ∧
    exTwoFramesMaxStamp.allocate 2 0 5 ≠
      .ok ({ frame_id := 0, evicted := true, evicted_pid := 1, evicted_vpn := 0 },
           { frames_ := exTwoFramesMaxStamp.frames_.set 0
               { occupied := true, pid := 2, vpn := 0, last_used := 5 } }) ∧
    PhysicalMemory.allocate
        { frames_ := [{ occupied := true, pid := 1, vpn := 0, last_used := 2 ^ 64 - 2 },
                      { occupied := true, pid := 1, vpn := 1, last_used := 2 ^ 64 - 2 }] } 2 0 5 =
      .ok ({ frame_id := 0, evicted := true, evicted_pid := 1, evicted_vpn := 0 },
           { frames_ := [{ occupied := true, pid := 2, vpn := 0, last_used := 5 },
                         { occupied := true, pid := 1, vpn := 1, last_used := 2 ^ 64 - 2 }] }) := by
  have h1 : PhysicalMemory.Reachable 2 exTwoFramesFirst :=
    .allocate 1 0 (2 ^ 64 - 1)
      { frame_id := 0, evicted := false, evicted_pid := 0, evicted_vpn := 0 } (by decide) .init
      (by decide)
  have h2 : PhysicalMemory.Reachable 2 exTwoFramesMaxStamp :=
    .allocate 1 1 (2 ^ 64 - 1)
      { frame_id := 1, evicted := false, evicted_pid := 0, evicted_vpn := 0 } (by decide) h1
      (by decide)
  exact ⟨h2, by decide, by decide, by decide, by decide, by decide, by decide, by decide⟩

/-! ## Claim C24 -/

end Sim
